import Mathlib

/-!
# Shos.OOPSamples: the Othello core and the state classes of the other samples

Shallow embedding of the classes `Disc`, `Board`, `Player`, `CPUPlayer` and `OthelloGame` of
`src/OthelloGame/web/othello.js`, of the class `History` of `src/DrawingApp/web/drawing.js`, of
`Hand` and `ClockFace` of `src/AnalogClock/clock.js`, of `Library` of
`src/LibraryManagement/web/library.js`, of `ElevatorController` of
`src/ElevatorControl/web/elevator.js` and of `Character` and `Player` of
`src/RolePlayingGame/rpg.js`.

Conventions of the embedding.

* Row and column numbers are integers (`Int`): the direction walks of the
  source compute `row + dr` with `dr = -1`, and `makeMove` accepts any pair.
* A method that can throw or loop returns an `Option`; `none` stands for
  abnormal termination: a `TypeError` raised by indexing `undefined`
  (a row index outside the grid), an access outside a row, or a `while`
  loop that has not finished within its iteration budget.
* A method that can return `null` returns an inner `Option`, `none` being `null`.
* Mutation of `this` is explicit state passing: a mutating method returns
  the new object.
* The numbers of the clock are exact rationals. The numbers of the role playing game are
  binary64 values (`Number`): results are rounded to nearest, ties to even, and `Infinity`,
  `-Infinity` and `NaN` are values. The numbers of the other samples are integers.
-/

namespace Othello

/-- Cell state, the three constants of class `Disc` (`EMPTY = 0`, `BLACK = 1`, `WHITE = 2`). -/
inductive Disc where
  | EMPTY
  | BLACK
  | WHITE
  deriving DecidableEq

/-- Class `Board`: the fields `_size` and `_grid` (an array of row arrays). -/
structure Board where
  size : Nat
  grid : List (List Disc)
  deriving DecidableEq

/-- The eight `[dr, dc]` pairs of the `directions` array, in source order. -/
def directions : List (Int × Int) :=
  [(-1, -1), (-1, 0), (-1, 1), (0, -1), (0, 1), (1, -1), (1, 0), (1, 1)]

/-- The expression `color === Disc.BLACK ? Disc.WHITE : Disc.BLACK`. -/
def opponentOf (color : Disc) : Disc :=
  if color = Disc.BLACK then Disc.WHITE else Disc.BLACK

namespace Board

/-- Method `isValidPosition(row, col)`. -/
def isValidPosition (b : Board) (row col : Int) : Bool :=
  decide (row ≥ 0) && decide (row < (b.size : Int)) && decide (col ≥ 0) && decide (col < (b.size : Int))

/-- Method `getDisc(row, col)`, the read `this._grid[row][col]`; `none` when the index is outside the grid. -/
def getDisc (b : Board) (row col : Int) : Option Disc :=
  if 0 ≤ row ∧ 0 ≤ col then
    match b.grid[row.toNat]? with
    | none => none
    | some r => r[col.toNat]?
  else none

/-- Method `setDisc(row, col, disc)`, the write `this._grid[row][col] = disc`; `none` when the index is outside the grid. -/
def setDisc (b : Board) (row col : Int) (disc : Disc) : Option Board :=
  if 0 ≤ row ∧ 0 ≤ col then
    match b.grid[row.toNat]? with
    | none => none
    | some r =>
      if col.toNat < r.length then
        some { b with grid := b.grid.set row.toNat (r.set col.toNat disc) }
      else none
  else none

/-- Method `_initializeBoard()`: four writes around `mid = floor(size / 2)`. -/
def _initializeBoard (b : Board) : Option Board :=
  let mid : Int := ((b.size / 2 : Nat) : Int)
  match b.setDisc (mid - 1) (mid - 1) Disc.WHITE with
  | none => none
  | some b1 =>
    match b1.setDisc (mid - 1) mid Disc.BLACK with
    | none => none
    | some b2 =>
      match b2.setDisc mid (mid - 1) Disc.BLACK with
      | none => none
      | some b3 => b3.setDisc mid mid Disc.WHITE

/-- The constructor `new Board(size)`: a `size` by `size` grid of `EMPTY`, then `_initializeBoard`. -/
def new (size : Nat) : Option Board :=
  _initializeBoard { size := size, grid := List.replicate size (List.replicate size Disc.EMPTY) }

/-- The `while` loop of `_canFlipInDirection`, entered at `(r, c)` with the flag `foundOpponent`;
the first argument bounds the number of evaluations of the loop condition. -/
def canFlipLoop (b : Board) (dr dc : Int) (color opponent : Disc) :
    Nat → Int → Int → Bool → Option Bool
  | 0, _, _, _ => none
  | fuel + 1, r, c, foundOpponent =>
    if b.isValidPosition r c then
      match b.getDisc r c with
      | none => none
      | some d =>
        if d = opponent then
          canFlipLoop b dr dc color opponent fuel (r + dr) (c + dc) true
        else if d = color ∧ foundOpponent = true then
          some true
        else
          some false
    else
      some false

/-- Method `_canFlipInDirection(row, col, dr, dc, color, opponent)`. -/
def _canFlipInDirection (b : Board) (row col dr dc : Int) (color opponent : Disc) : Option Bool :=
  canFlipLoop b dr dc color opponent (b.size + 1) (row + dr) (col + dc) false

/-- The `for (const [dr, dc] of directions)` loop of `_isValidMove`, with its early `return true`. -/
def anyDirection (b : Board) (row col : Int) (color opponent : Disc) :
    List (Int × Int) → Option Bool
  | [] => some false
  | (dr, dc) :: rest =>
    match b._canFlipInDirection row col dr dc color opponent with
    | none => none
    | some true => some true
    | some false => anyDirection b row col color opponent rest

/-- Method `_isValidMove(row, col, color)`. -/
def _isValidMove (b : Board) (row col : Int) (color : Disc) : Option Bool :=
  match b.getDisc row col with
  | none => none
  | some d =>
    if d ≠ Disc.EMPTY then some false
    else anyDirection b row col color (opponentOf color) directions

/-- The inner `for (let col = 0; ...)` loop of `getValidMoves` over the remaining columns of one row. -/
def validMovesCols (b : Board) (color : Disc) (row : Nat) : List Nat → Option (List (Int × Int))
  | [] => some []
  | col :: cols =>
    match b._isValidMove row col color with
    | none => none
    | some v =>
      match validMovesCols b color row cols with
      | none => none
      | some rest => some (if v = true then ((row : Int), (col : Int)) :: rest else rest)

/-- The outer `for (let row = 0; ...)` loop of `getValidMoves` over the remaining rows. -/
def validMovesRows (b : Board) (color : Disc) : List Nat → Option (List (Int × Int))
  | [] => some []
  | row :: rows =>
    match validMovesCols b color row (List.range b.size) with
    | none => none
    | some here =>
      match validMovesRows b color rows with
      | none => none
      | some rest => some (here ++ rest)

/-- Method `getValidMoves(color)`: the legal moves in scan order. -/
def getValidMoves (b : Board) (color : Disc) : Option (List (Int × Int)) :=
  validMovesRows b color (List.range b.size)

/-- The `while` loop of `_flipInDirection`, entered at `(r, c)`;
the first argument bounds the number of evaluations of the loop condition. -/
def flipLoop (dr dc : Int) (color opponent : Disc) : Nat → Board → Int → Int → Option Board
  | 0, _, _, _ => none
  | fuel + 1, b, r, c =>
    if b.isValidPosition r c then
      match b.getDisc r c with
      | none => none
      | some d =>
        if d = opponent then
          match b.setDisc r c color with
          | none => none
          | some b1 => flipLoop dr dc color opponent fuel b1 (r + dr) (c + dc)
        else some b
    else some b

/-- Method `_flipInDirection(row, col, dr, dc, color, opponent)`. -/
def _flipInDirection (b : Board) (row col dr dc : Int) (color opponent : Disc) : Option Board :=
  flipLoop dr dc color opponent (b.size + 1) b (row + dr) (col + dc)

/-- The `for (const [dr, dc] of directions)` loop of `flipDiscs`. -/
def flipDirections (row col : Int) (color opponent : Disc) : Board → List (Int × Int) → Option Board
  | b, [] => some b
  | b, (dr, dc) :: rest =>
    match b._canFlipInDirection row col dr dc color opponent with
    | none => none
    | some true =>
      match b._flipInDirection row col dr dc color opponent with
      | none => none
      | some b1 => flipDirections row col color opponent b1 rest
    | some false => flipDirections row col color opponent b rest

/-- Method `flipDiscs(row, col, color)`: place the disc, then flip in every direction that qualifies. -/
def flipDiscs (b : Board) (row col : Int) (color : Disc) : Option Board :=
  match b.setDisc row col color with
  | none => none
  | some b1 => flipDirections row col color (opponentOf color) b1 directions

/-- Method `countDiscs(color)`: the sum over the rows of the number of cells equal to `color`. -/
def countDiscs (b : Board) (color : Disc) : Nat :=
  (b.grid.map (fun row => (row.filter (fun disc => decide (disc = color))).length)).sum

/-- Method `getSize()`. -/
def getSize (b : Board) : Nat := b.size

end Board

/-- Class `Player`: the fields `_color` and `_name`. Two player objects are the same object
exactly when their records are equal; `ref` tells apart objects whose fields agree. -/
structure Player where
  ref : Nat
  color : Disc
  name : String
  deriving DecidableEq

/-- Method `Player.getColor()`. -/
def Player.getColor (p : Player) : Disc := p.color

/-- Class `OthelloGame`: the fields `_board`, `_player1`, `_player2`, `_currentPlayer`, `_gameOver`. -/
structure OthelloGame where
  board : Board
  player1 : Player
  player2 : Player
  currentPlayer : Player
  gameOver : Bool
  deriving DecidableEq

namespace OthelloGame

/-- The constructor `new OthelloGame(player1, player2)`, which uses `new Board()` of the default size 8. -/
def new (player1 player2 : Player) : Option OthelloGame :=
  match Board.new 8 with
  | none => none
  | some b =>
    some { board := b, player1 := player1, player2 := player2,
           currentPlayer := player1, gameOver := false }

/-- Method `makeMove(row, col)`: the returned boolean and the game afterwards. -/
def makeMove (g : OthelloGame) (row col : Int) : Option (Bool × OthelloGame) :=
  match g.board.getValidMoves g.currentPlayer.getColor with
  | none => none
  | some validMoves =>
    if validMoves.any (fun rc => decide (rc.1 = row) && decide (rc.2 = col)) = false then
      some (false, g)
    else
      match g.board.flipDiscs row col g.currentPlayer.getColor with
      | none => none
      | some b1 => some (true, { g with board := b1 })

/-- Method `switchTurn()`. -/
def switchTurn (g : OthelloGame) : OthelloGame :=
  { g with currentPlayer := if g.currentPlayer = g.player1 then g.player2 else g.player1 }

/-- Method `isGameOver()`: the returned boolean and the game afterwards (the flag is cached). -/
def isGameOver (g : OthelloGame) : Option (Bool × OthelloGame) :=
  if g.gameOver = true then some (true, g)
  else
    match g.board.getValidMoves Disc.BLACK with
    | none => none
    | some blackMoves =>
      match g.board.getValidMoves Disc.WHITE with
      | none => none
      | some whiteMoves =>
        let over : Bool := decide (blackMoves.length = 0) && decide (whiteMoves.length = 0)
        some (over, { g with gameOver := over })

/-- Method `getWinner()`; `none` is the `null` of a draw. -/
def getWinner (g : OthelloGame) : Option Player :=
  let blackCount := g.board.countDiscs Disc.BLACK
  let whiteCount := g.board.countDiscs Disc.WHITE
  if blackCount > whiteCount then
    some (if g.player1.getColor = Disc.BLACK then g.player1 else g.player2)
  else if whiteCount > blackCount then
    some (if g.player1.getColor = Disc.WHITE then g.player1 else g.player2)
  else
    none

/-- Method `getBoard()`. -/
def getBoard (g : OthelloGame) : Board := g.board

/-- Method `getCurrentPlayer()`. -/
def getCurrentPlayer (g : OthelloGame) : Player := g.currentPlayer

/-- Method `reset()`. -/
def reset (g : OthelloGame) : Option OthelloGame :=
  match Board.new 8 with
  | none => none
  | some b => some { g with board := b, currentPlayer := g.player1, gameOver := false }

end OthelloGame

namespace CPUPlayer

/-- The `corners` array of `CPUPlayer.getMove`. -/
def corners : List (Int × Int) := [(0, 0), (0, 7), (7, 0), (7, 7)]

/-- The `badPositions` array of `CPUPlayer._evaluateMove`, in source order. -/
def badPositions : List (Int × Int) :=
  [(0, 1), (1, 0), (1, 1), (0, 6), (1, 6), (1, 7), (6, 0), (6, 1), (7, 1), (6, 6), (6, 7), (7, 6)]

/-- Method `_evaluateMove(board, row, col)`; the loop over `badPositions` with its early
`return 1` is the `any` test. -/
def _evaluateMove (_board : Board) (row col : Int) : Int :=
  if (row = 0 ∨ row = 7) ∧ (col = 0 ∨ col = 7) then 100
  else if badPositions.any (fun p => decide (row = p.1) && decide (col = p.2)) = true then 1
  else if row = 0 ∨ row = 7 ∨ col = 0 ∨ col = 7 then 50
  else 10

/-- The first loop of `getMove`: the first valid move that is one of `corners`, if any. -/
def firstCorner : List (Int × Int) → Option (Int × Int)
  | [] => none
  | (row, col) :: rest =>
    if corners.any (fun cr => decide (cr.1 = row) && decide (cr.2 = col)) = true then
      some (row, col)
    else firstCorner rest

/-- The second loop of `getMove`, carrying `bestMove` (`none` is `null`) and `bestScore`. -/
def bestLoop (board : Board) : List (Int × Int) → Option (Int × Int) → Int → Option (Int × Int)
  | [], bestMove, _ => bestMove
  | (row, col) :: rest, bestMove, bestScore =>
    if _evaluateMove board row col > bestScore then
      bestLoop board rest (some (row, col)) (_evaluateMove board row col)
    else bestLoop board rest bestMove bestScore

/-- Method `CPUPlayer.getMove(board)`; the inner `none` is the `null` that signals a pass. -/
def getMove (p : Player) (board : Board) : Option (Option (Int × Int)) :=
  match board.getValidMoves p.color with
  | none => none
  | some validMoves =>
    if validMoves.length = 0 then some none
    else
      match firstCorner validMoves with
      | some m => some (some m)
      | none => some (bestLoop board validMoves none (-1))

end CPUPlayer

/-! ## Definitions used to state the properties -/

namespace Board

/-- A board is well formed when its grid is `size` rows of `size` cells. -/
def WF (b : Board) : Prop :=
  b.grid.length = b.size ∧ ∀ row ∈ b.grid, row.length = b.size

instance (b : Board) : Decidable b.WF := by
  unfold WF; infer_instance

/-- The cells at steps `i, ..., i + k - 1` from `(row, col)` in direction `(dr, dc)` hold `opp`
and the cell at step `i + k` holds `color` (all of them inside the grid). -/
def RunFrom (b : Board) (row col dr dc : Int) (color opp : Disc) (i k : Nat) : Prop :=
  (∀ j : Nat, j < k →
      b.getDisc (row + ((i + j : Nat) : Int) * dr) (col + ((i + j : Nat) : Int) * dc) = some opp) ∧
    b.getDisc (row + ((i + k : Nat) : Int) * dr) (col + ((i + k : Nat) : Int) * dc) = some color

/-- A flippable run for `color` starts next to `(row, col)` in direction `(dr, dc)`:
`k >= 1` cells of the opponent's colour at steps `1..k`, then a cell of `color` at step `k + 1`. -/
def Flippable (b : Board) (row col : Int) (color : Disc) (d : Int × Int) : Prop :=
  ∃ k : Nat, 1 ≤ k ∧ b.RunFrom row col d.1 d.2 color (opponentOf color) 1 k

/-- The cell `(r, c)` is in bounds and holds the disc `d`. -/
def Holds (b : Board) (r c : Int) (d : Disc) : Prop :=
  b.isValidPosition r c = true ∧ b.getDisc r c = some d

/-- A flippable run of length `k` for `color` from `(row, col)` in direction `d`: `k >= 1`, the
cells at steps `1..k` are in bounds and hold the opponent's colour, and the cell at step `k + 1`
is in bounds and holds `color`. -/
def FlippableRun (b : Board) (row col : Int) (color : Disc) (d : Int × Int) (k : Nat) : Prop :=
  1 ≤ k ∧
    (∀ i : Nat, 1 ≤ i → i ≤ k →
      b.Holds (row + (i : Int) * d.1) (col + (i : Int) * d.2) (opponentOf color)) ∧
    b.Holds (row + ((k + 1 : Nat) : Int) * d.1) (col + ((k + 1 : Nat) : Int) * d.2) color

/-- A legal move in the words of the specification: an empty cell in bounds from which at least
one of the eight directions has a flippable run. -/
def IsLegalMove (b : Board) (color : Disc) (row col : Int) : Prop :=
  b.Holds row col Disc.EMPTY ∧ ∃ d ∈ directions, ∃ k : Nat, b.FlippableRun row col color d k

/-- The cell `(x, y)` lies among the opponent cells of a run that starts next to `(row, col)`
in direction `d` on board `b`. -/
def FlippedBy (b : Board) (row col : Int) (color opp : Disc) (d : Int × Int) (x y : Int) : Prop :=
  ∃ k : Nat, 1 ≤ k ∧ b.RunFrom row col d.1 d.2 color opp 1 k ∧
    ∃ i : Nat, 1 ≤ i ∧ i ≤ k ∧ x = row + (i : Int) * d.1 ∧ y = col + (i : Int) * d.2

/-- Loop invariant of `flipDirections`: board `b` is `b0` with `(row, col)` and the runs of the
directions in `P` set to `color`. -/
def FlipInv (b0 : Board) (row col : Int) (color opp : Disc) (P : Int × Int → Prop)
    (b : Board) : Prop :=
  b.WF ∧ b.size = b0.size ∧
    (∀ x y : Int, ((x = row ∧ y = col) ∨ ∃ d, P d ∧ b0.FlippedBy row col color opp d x y) →
      b.getDisc x y = some color) ∧
    (∀ x y : Int, ¬ ((x = row ∧ y = col) ∨ ∃ d, P d ∧ b0.FlippedBy row col color opp d x y) →
      b.getDisc x y = b0.getDisc x y)

end Board

/-- The board that `new Board()` builds (size 8): the four centre discs on an empty grid. -/
def Board.fresh8 : Board :=
  { size := 8
    grid :=
      [ List.replicate 8 Disc.EMPTY, List.replicate 8 Disc.EMPTY, List.replicate 8 Disc.EMPTY,
        [Disc.EMPTY, Disc.EMPTY, Disc.EMPTY, Disc.WHITE, Disc.BLACK, Disc.EMPTY, Disc.EMPTY, Disc.EMPTY],
        [Disc.EMPTY, Disc.EMPTY, Disc.EMPTY, Disc.BLACK, Disc.WHITE, Disc.EMPTY, Disc.EMPTY, Disc.EMPTY],
        List.replicate 8 Disc.EMPTY, List.replicate 8 Disc.EMPTY, List.replicate 8 Disc.EMPTY ] }

/-- One call on an `OthelloGame` object. -/
inductive Op where
  | makeMove (row col : Int)
  | switchTurn
  | isGameOver
  | getWinner
  | reset
  deriving DecidableEq

namespace OthelloGame

/-- The game after one call (the returned value is dropped); `getWinner` does not write any field. -/
def step (g : OthelloGame) : Op → Option OthelloGame
  | Op.makeMove row col => (g.makeMove row col).map Prod.snd
  | Op.switchTurn => some g.switchTurn
  | Op.isGameOver => g.isGameOver.map Prod.snd
  | Op.getWinner => some g
  | Op.reset => g.reset

/-- The game after a sequence of calls, made one after the other. -/
def run (g : OthelloGame) : List Op → Option OthelloGame
  | [] => some g
  | op :: ops =>
    match g.step op with
    | none => none
    | some g1 => run g1 ops

/-- Invariant of the reachable games: the board is well formed, the three player fields have the
colours Black or White, and a set `_gameOver` flag means that neither colour has a legal move. -/
def Inv (g : OthelloGame) : Prop :=
  g.board.WF ∧
    (g.player1.color = Disc.BLACK ∨ g.player1.color = Disc.WHITE) ∧
    (g.player2.color = Disc.BLACK ∨ g.player2.color = Disc.WHITE) ∧
    (g.currentPlayer = g.player1 ∨ g.currentPlayer = g.player2) ∧
    (g.gameOver = true →
      g.board.getValidMoves Disc.BLACK = some [] ∧ g.board.getValidMoves Disc.WHITE = some [])

end OthelloGame

namespace Board

/-- The cell `(x, y)` is an opponent disc of a flippable run from `(row, col)`, in the words of the
specification: it lies at a step `1..k` of a run of length `k` in one of the eight directions. -/
def InFlippedRun (b : Board) (row col : Int) (color : Disc) (x y : Int) : Prop :=
  ∃ d ∈ directions, ∃ k : Nat, b.FlippableRun row col color d k ∧
    ∃ i : Nat, 1 ≤ i ∧ i ≤ k ∧ x = row + (i : Int) * d.1 ∧ y = col + (i : Int) * d.2

end Board

/-- A player object of colour Black, as `startNewGame` creates for the human. -/
def exampleBlack : Player := { ref := 1, color := Disc.BLACK, name := "Black" }

/-- A player object of colour White, as `startNewGame` creates for the CPU. -/
def exampleWhite : Player := { ref := 2, color := Disc.WHITE, name := "CPU (White)" }

/-- The game `new OthelloGame(exampleBlack, exampleWhite)`. -/
def exampleStart : OthelloGame := OthelloGame.mk Board.fresh8 exampleBlack exampleWhite exampleBlack false

/-- The board after Black has played (2,3) and then (5,5) from the initial position: six black
discs, no white disc. -/
def Board.exampleAllBlack : Board :=
  { size := 8
    grid :=
      [ List.replicate 8 Disc.EMPTY, List.replicate 8 Disc.EMPTY,
        [Disc.EMPTY, Disc.EMPTY, Disc.EMPTY, Disc.BLACK, Disc.EMPTY, Disc.EMPTY, Disc.EMPTY, Disc.EMPTY],
        [Disc.EMPTY, Disc.EMPTY, Disc.EMPTY, Disc.BLACK, Disc.BLACK, Disc.EMPTY, Disc.EMPTY, Disc.EMPTY],
        [Disc.EMPTY, Disc.EMPTY, Disc.EMPTY, Disc.BLACK, Disc.BLACK, Disc.EMPTY, Disc.EMPTY, Disc.EMPTY],
        [Disc.EMPTY, Disc.EMPTY, Disc.EMPTY, Disc.EMPTY, Disc.EMPTY, Disc.BLACK, Disc.EMPTY, Disc.EMPTY],
        List.replicate 8 Disc.EMPTY, List.replicate 8 Disc.EMPTY ] }

/-- The game reached from `exampleStart` by `makeMove(2,3)`, `makeMove(5,5)`, `isGameOver()`. -/
def exampleTerminal : OthelloGame :=
  OthelloGame.mk Board.exampleAllBlack exampleBlack exampleWhite exampleBlack true

/-- A board with 33 black and 31 white discs. -/
def Board.example33 : Board :=
  { size := 8
    grid :=
      [ List.replicate 8 Disc.BLACK, List.replicate 8 Disc.BLACK, List.replicate 8 Disc.BLACK,
        List.replicate 8 Disc.BLACK,
        [Disc.BLACK, Disc.WHITE, Disc.WHITE, Disc.WHITE, Disc.WHITE, Disc.WHITE, Disc.WHITE, Disc.WHITE],
        List.replicate 8 Disc.WHITE, List.replicate 8 Disc.WHITE, List.replicate 8 Disc.WHITE ] }

/-- The game `exampleTerminal` before its `isGameOver()` call: same board, flag not yet set. -/
def exampleUnchecked : OthelloGame :=
  OthelloGame.mk Board.exampleAllBlack exampleBlack exampleWhite exampleBlack false

/-- A game on the board `Board.example33`, Black being player 1. -/
def example33Game : OthelloGame :=
  OthelloGame.mk Board.example33 exampleBlack exampleWhite exampleBlack false

/-- A sequence of `flipDiscs(row, col, color)` calls on a board, made one after the other. -/
def Board.flipSeq (b : Board) : List (Int × Int × Disc) → Option Board
  | [] => some b
  | (row, col, color) :: rest =>
    match b.flipDiscs row col color with
    | none => none
    | some b1 => Board.flipSeq b1 rest

/-- The board after Black's first move (2,3) on the fresh 8x8 board. -/
def Board.exampleAfterFirstMove : Board :=
  { size := 8
    grid :=
      [ List.replicate 8 Disc.EMPTY, List.replicate 8 Disc.EMPTY,
        [Disc.EMPTY, Disc.EMPTY, Disc.EMPTY, Disc.BLACK, Disc.EMPTY, Disc.EMPTY, Disc.EMPTY, Disc.EMPTY],
        [Disc.EMPTY, Disc.EMPTY, Disc.EMPTY, Disc.BLACK, Disc.BLACK, Disc.EMPTY, Disc.EMPTY, Disc.EMPTY],
        [Disc.EMPTY, Disc.EMPTY, Disc.EMPTY, Disc.BLACK, Disc.WHITE, Disc.EMPTY, Disc.EMPTY, Disc.EMPTY],
        List.replicate 8 Disc.EMPTY, List.replicate 8 Disc.EMPTY, List.replicate 8 Disc.EMPTY ] }

/-- Row-major (scan) order on positions: lexicographic on `(row, col)`. -/
def RowMajorLt (p q : Int × Int) : Prop :=
  p.1 < q.1 ∨ (p.1 = q.1 ∧ p.2 < q.2)

namespace CPUPlayer

/-- The cell `(row, col)` is one of the four corners of an 8x8 board. -/
def IsCorner (row col : Int) : Prop :=
  (row = 0 ∨ row = 7) ∧ (col = 0 ∨ col = 7)

/-- The cell `(row, col)` is not a corner and touches a corner of the 8x8 board orthogonally or
diagonally: both coordinates differ from those of some corner by at most 1. -/
def CornerAdjacent (row col : Int) : Prop :=
  ¬ IsCorner row col ∧ ∃ cr ∈ corners, (row - cr.1).natAbs ≤ 1 ∧ (col - cr.2).natAbs ≤ 1

/-- The cell `(row, col)` lies on the boundary of the 8x8 board. -/
def OnBoundary (row col : Int) : Prop :=
  row = 0 ∨ row = 7 ∨ col = 0 ∨ col = 7

instance (row col : Int) : Decidable (IsCorner row col) := by
  unfold IsCorner; infer_instance

instance (row col : Int) : Decidable (CornerAdjacent row col) := by
  unfold CornerAdjacent; infer_instance

instance (row col : Int) : Decidable (OnBoundary row col) := by
  unfold OnBoundary; infer_instance

end CPUPlayer

/-- A board on which Black has the legal moves (0,3), an edge cell, and (0,7), a corner. -/
def Board.exampleCorner : Board :=
  { size := 8
    grid :=
      [ [Disc.EMPTY, Disc.EMPTY, Disc.EMPTY, Disc.EMPTY, Disc.WHITE, Disc.BLACK, Disc.WHITE, Disc.EMPTY],
        List.replicate 8 Disc.EMPTY, List.replicate 8 Disc.EMPTY, List.replicate 8 Disc.EMPTY,
        List.replicate 8 Disc.EMPTY, List.replicate 8 Disc.EMPTY, List.replicate 8 Disc.EMPTY,
        List.replicate 8 Disc.EMPTY ] }

/-- The four corners of board `b`: (0,0), (0,n-1), (n-1,0), (n-1,n-1) for `n = b.size`. -/
def Board.cornersOf (b : Board) : List (Int × Int) :=
  [(0, 0), (0, (b.size : Int) - 1), ((b.size : Int) - 1, 0),
    ((b.size : Int) - 1, (b.size : Int) - 1)]

/-- A 4x4 board on which Black has the legal moves (0,1), (0,2) and the corner (0,3). -/
def Board.exampleFour : Board :=
  { size := 4
    grid :=
      [ [Disc.EMPTY, Disc.EMPTY, Disc.EMPTY, Disc.EMPTY],
        [Disc.EMPTY, Disc.EMPTY, Disc.WHITE, Disc.WHITE],
        [Disc.EMPTY, Disc.EMPTY, Disc.BLACK, Disc.BLACK],
        [Disc.EMPTY, Disc.EMPTY, Disc.EMPTY, Disc.EMPTY] ] }

/-- The number of `makeMove` calls that return true while the calls `ops` are made on `g`. -/
def OthelloGame.successes (g : OthelloGame) : List Op → Nat
  | [] => 0
  | op :: ops =>
    (match op with
      | Op.makeMove row col => if (g.makeMove row col).map Prod.fst = some true then 1 else 0
      | _ => 0) +
    (match g.step op with
      | some g1 => OthelloGame.successes g1 ops
      | none => 0)

end Othello

/-! ## History of the drawing application (`src/DrawingApp/web/drawing.js`) -/

namespace DrawingApp

/-- Class `History`: the fields `_states` (an array of shape arrays) and `_currentIndex`.
Shapes are references to objects of an arbitrary type. -/
structure History (Shape : Type) where
  states : List (List Shape)
  currentIndex : Int

namespace History

variable {Shape : Type}

/-- The constructor `new History()`. -/
def new : History Shape :=
  { states := [[]], currentIndex := 0 }

/-- The call `array.slice(0, stop)` of JavaScript: a negative `stop` counts from the end. -/
def sliceFromZero (l : List (List Shape)) (stop : Int) : List (List Shape) :=
  if 0 ≤ stop then l.take stop.toNat else l.take ((l.length : Int) + stop).toNat

/-- Method `saveState(shapes)`. -/
def saveState (h : History Shape) (shapes : List Shape) : History Shape :=
  { states := sliceFromZero h.states (h.currentIndex + 1) ++ [shapes]
    currentIndex := h.currentIndex + 1 }

/-- Method `canUndo()`. -/
def canUndo (h : History Shape) : Bool :=
  decide (h.currentIndex > 0)

/-- Method `canRedo()`. -/
def canRedo (h : History Shape) : Bool :=
  decide (h.currentIndex < (h.states.length : Int) - 1)

/-- The read `this._states[this._currentIndex]`; `none` is `undefined`, whose spread throws. -/
def current (h : History Shape) : Option (List Shape) :=
  if 0 ≤ h.currentIndex then h.states[h.currentIndex.toNat]? else none

/-- Method `undo()`: the returned value (`none` is `null`) and the history afterwards; the
outer `none` is the `TypeError` of spreading `undefined`. -/
def undo (h : History Shape) : Option (Option (List Shape) × History Shape) :=
  if h.canUndo = true then
    match current { h with currentIndex := h.currentIndex - 1 } with
    | none => none
    | some s => some (some s, { h with currentIndex := h.currentIndex - 1 })
  else some (none, h)

/-- Method `redo()`: as `undo`, one step forward. -/
def redo (h : History Shape) : Option (Option (List Shape) × History Shape) :=
  if h.canRedo = true then
    match current { h with currentIndex := h.currentIndex + 1 } with
    | none => none
    | some s => some (some s, { h with currentIndex := h.currentIndex + 1 })
  else some (none, h)

end History

/-- One call on a `History` object. -/
inductive HistoryOp (Shape : Type) where
  | saveState (shapes : List Shape)
  | undo
  | redo

namespace History

variable {Shape : Type}

/-- The history after one call (the returned value is dropped). -/
def step (h : History Shape) : HistoryOp Shape → Option (History Shape)
  | HistoryOp.saveState shapes => some (h.saveState shapes)
  | HistoryOp.undo => h.undo.map Prod.snd
  | HistoryOp.redo => h.redo.map Prod.snd

/-- The history after a sequence of calls, made one after the other. -/
def run (h : History Shape) : List (HistoryOp Shape) → Option (History Shape)
  | [] => some h
  | op :: ops =>
    match h.step op with
    | none => none
    | some h1 => run h1 ops

/-- The index invariant `0 <= _currentIndex < _states.length`. -/
def Inv (h : History Shape) : Prop :=
  0 ≤ h.currentIndex ∧ h.currentIndex < (h.states.length : Int)

end History

end DrawingApp

/-! ## Hands and clock face of the analog clock (`src/AnalogClock/clock.js`) -/

namespace AnalogClock

/-- The remainder `a % m` of JavaScript in exact arithmetic: `a - m * trunc(a / m)`, which has
the sign of the dividend `a`. -/
def jsRem (a m : ℚ) : ℚ :=
  a - m * (if 0 ≤ a / m then ((⌊a / m⌋ : Int) : ℚ) else ((⌈a / m⌉ : Int) : ℚ))

/-- Class `Hand`: the fields `_angle` and `_speed`, numbers taken as exact rationals. -/
structure Hand where
  angle : ℚ
  speed : ℚ

namespace Hand

/-- The constructor `new Hand(speed)`. -/
def new (speed : ℚ) : Hand :=
  { angle := 0, speed := speed }

/-- Method `rotate(seconds)`. -/
def rotate (h : Hand) (seconds : ℚ) : Hand :=
  { h with angle := jsRem (h.angle + h.speed * seconds) 360 }

/-- Method `getAngle()`. -/
def getAngle (h : Hand) : ℚ := h.angle

/-- Method `setAngle(angle)`. -/
def setAngle (h : Hand) (angle : ℚ) : Hand :=
  { h with angle := jsRem angle 360 }

end Hand

/-- One call on a `Hand` object. -/
inductive HandOp where
  | setAngle (angle : Int)
  | rotate (seconds : Int)

/-- The hand after a sequence of `setAngle` and `rotate` calls with integer arguments. -/
def Hand.run (h : Hand) : List HandOp → Hand
  | [] => h
  | HandOp.setAngle angle :: ops => Hand.run (h.setAngle (angle : ℚ)) ops
  | HandOp.rotate seconds :: ops => Hand.run (h.rotate (seconds : ℚ)) ops

/-- The object returned by `getTime()`. -/
structure Time where
  hour : ℚ
  minute : ℚ
  second : ℚ

/-- Class `ClockFace`: the three hands (the `_hands` array holds the same three objects). -/
structure ClockFace where
  hourHand : Hand
  minuteHand : Hand
  secondHand : Hand

namespace ClockFace

/-- The constructor `new ClockFace()` with the speeds of `HourHand`, `MinuteHand`, `SecondHand`. -/
def new : ClockFace :=
  { hourHand := Hand.new (360 / (12 * 60 * 60))
    minuteHand := Hand.new (360 / (60 * 60))
    secondHand := Hand.new (360 / 60) }

/-- Method `setTime(hour, minute, second)`; the literals `0.5` and `0.1` are the fractions
`1/2` and `1/10`. -/
def setTime (c : ClockFace) (hour minute second : ℚ) : ClockFace :=
  { hourHand := c.hourHand.setAngle (30 * jsRem hour 12 + 1 / 2 * minute + 1 / 2 * second / 60)
    minuteHand := c.minuteHand.setAngle (6 * minute + 1 / 10 * second)
    secondHand := c.secondHand.setAngle (6 * second) }

/-- Method `update(seconds)`: every hand of `_hands` is rotated. -/
def update (c : ClockFace) (seconds : ℚ) : ClockFace :=
  { hourHand := c.hourHand.rotate seconds
    minuteHand := c.minuteHand.rotate seconds
    secondHand := c.secondHand.rotate seconds }

/-- Method `getTime()`. -/
def getTime (c : ClockFace) : Time :=
  { hour := jsRem ((⌊c.hourHand.getAngle / 30⌋ : Int) : ℚ) 12
    minute := jsRem ((⌊c.minuteHand.getAngle / 6⌋ : Int) : ℚ) 60
    second := jsRem ((⌊c.secondHand.getAngle / 6⌋ : Int) : ℚ) 60 }

end ClockFace

end AnalogClock

/-! ## Library of the library management (`src/LibraryManagement/web/library.js`) -/

namespace LibraryManagement

/-- Class `Book`: the fields `_isbn`, `_title`, `_author`, `_isAvailable`. -/
structure Book where
  isbn : String
  title : String
  author : String
  isAvailable : Bool
  deriving DecidableEq

/-- Class `Member`: the fields `_memberId`, `_name`, `_loanHistory`. A loan record object is
referred to by its position in the `_loanRecords` array of the library. -/
structure Member where
  memberId : String
  name : String
  loanHistory : List Nat
  deriving DecidableEq

/-- Class `LoanRecord`: `_book` and `_member` refer to the objects by their positions in the
`_books` and `_members` arrays; `returned` is `_returnDate !== null` (the dates are not kept). -/
structure LoanRecord where
  book : Nat
  member : Nat
  returned : Bool
  deriving DecidableEq

/-- Class `Library`: the arrays `_books`, `_members`, `_loanRecords`. Every object pushed by
`addBook` and `addMember` is a newly constructed one, so an object is its position. -/
structure Library where
  books : List Book
  members : List Member
  loanRecords : List LoanRecord
  deriving DecidableEq

/-- The call `array.find(p)`: the first element that satisfies `p`, with its position. -/
def findFirst {α : Type} (p : α → Bool) : List α → Option (Nat × α)
  | [] => none
  | a :: rest =>
    if p a = true then some (0, a)
    else
      match findFirst p rest with
      | none => none
      | some (i, b) => some (i + 1, b)

namespace Library

/-- The constructor `new Library()`. -/
def new : Library :=
  { books := [], members := [], loanRecords := [] }

/-- Method `addBook(new Book(isbn, title, author))`. -/
def addBook (l : Library) (isbn title author : String) : Library :=
  { l with books := l.books ++ [{ isbn := isbn, title := title, author := author,
                                   isAvailable := true }] }

/-- Method `addMember(new Member(memberId, name))`. -/
def addMember (l : Library) (memberId name : String) : Library :=
  { l with members := l.members ++ [{ memberId := memberId, name := name, loanHistory := [] }] }

/-- Method `_findBook(isbn)`. -/
def _findBook (l : Library) (isbn : String) : Option (Nat × Book) :=
  findFirst (fun book => decide (book.isbn = isbn)) l.books

/-- Method `_findMember(memberId)`. -/
def _findMember (l : Library) (memberId : String) : Option (Nat × Member) :=
  findFirst (fun member => decide (member.memberId = memberId)) l.members

/-- Method `loanBook(isbn, memberId)`: the returned boolean and the library afterwards. -/
def loanBook (l : Library) (isbn memberId : String) : Bool × Library :=
  match l._findBook isbn with
  | none => (false, l)
  | some (bi, book) =>
    match l._findMember memberId with
    | none => (false, l)
    | some (mi, member) =>
      if book.isAvailable = false then (false, l)
      else
        (true,
          { loanRecords := l.loanRecords ++ [{ book := bi, member := mi, returned := false }]
            members := l.members.set mi
              { member with loanHistory := member.loanHistory ++ [l.loanRecords.length] }
            books := l.books.set bi { book with isAvailable := false } })

/-- The `for` loop of `returnBook`, with `n = i + 1` records still to inspect; `none` stands for
a dangling reference, which the source cannot have. -/
def returnLoop (l : Library) (isbn : String) : Nat → Option (Bool × Library)
  | 0 => some (false, l)
  | i + 1 =>
    match l.loanRecords[i]? with
    | none => none
    | some record =>
      match l.books[record.book]? with
      | none => none
      | some book =>
        if book.isbn = isbn ∧ record.returned = false then
          some (true,
            { l with
              loanRecords := l.loanRecords.set i { record with returned := true }
              books := l.books.set record.book { book with isAvailable := true } })
        else returnLoop l isbn i

/-- Method `returnBook(isbn)`: the returned boolean and the library afterwards. -/
def returnBook (l : Library) (isbn : String) : Option (Bool × Library) :=
  l.returnLoop isbn l.loanRecords.length

/-- The number of unreturned loan records of the book at position `bi`. -/
def unreturned (l : Library) (bi : Nat) : Nat :=
  l.loanRecords.countP (fun r => decide (r.book = bi) && !r.returned)

/-- Invariant of the reachable libraries: the records refer to existing books, and a book has
no unreturned record when it is available and exactly one when it is not. -/
def Inv (l : Library) : Prop :=
  (∀ r ∈ l.loanRecords, r.book < l.books.length) ∧
    ∀ (bi : Nat) (book : Book), l.books[bi]? = some book →
      l.unreturned bi = if book.isAvailable = true then 0 else 1

end Library

/-- One call on a `Library` object. -/
inductive LibraryOp where
  | addBook (isbn title author : String)
  | addMember (memberId name : String)
  | loanBook (isbn memberId : String)
  | returnBook (isbn : String)

namespace Library

/-- The library after one call (the returned value is dropped). -/
def step (l : Library) : LibraryOp → Option Library
  | LibraryOp.addBook isbn title author => some (l.addBook isbn title author)
  | LibraryOp.addMember memberId name => some (l.addMember memberId name)
  | LibraryOp.loanBook isbn memberId => some (l.loanBook isbn memberId).2
  | LibraryOp.returnBook isbn => (l.returnBook isbn).map Prod.snd

/-- The library after a sequence of calls, made one after the other. -/
def run (l : Library) : List LibraryOp → Option Library
  | [] => some l
  | op :: ops =>
    match l.step op with
    | none => none
    | some l1 => run l1 ops

end Library

end LibraryManagement

/-! ## Controller of the elevator (`src/ElevatorControl/web/elevator.js`) -/

namespace ElevatorControl

/-- Class `Request`: the field `_floor`. -/
structure Request where
  floor : Int
  deriving DecidableEq

/-- Class `ElevatorController`, the part that `addRequest` and `_getNextFloor` read and write:
the `_requests` array and the current floor of `_elevator`. -/
structure ElevatorController where
  currentFloor : Int
  requests : List Request

namespace ElevatorController

/-- The callback of the `reduce` in `_getNextFloor`. -/
def closer (currentFloor : Int) (prev curr : Request) : Request :=
  if (curr.floor - currentFloor).natAbs < (prev.floor - currentFloor).natAbs then curr else prev

/-- Method `_getNextFloor()`; `none` is `null`. `reduce` without an initial value starts from the
first element. -/
def _getNextFloor (c : ElevatorController) : Option Int :=
  match c.requests with
  | [] => none
  | first :: rest => some (rest.foldl (closer c.currentFloor) first).floor

/-- Method `addRequest(request)`, its effect on `_requests`. -/
def addRequest (c : ElevatorController) (request : Request) : ElevatorController :=
  if c.requests.any (fun r => decide (r.floor = request.floor)) = true then c
  else { c with requests := c.requests ++ [request] }

/-- The assignment `this._requests = this._requests.filter(r => r.getFloor() !== nextFloor)` of
`processRequests`. -/
def removeFloor (c : ElevatorController) (nextFloor : Int) : ElevatorController :=
  { c with requests := c.requests.filter (fun r => decide (r.floor ≠ nextFloor)) }

end ElevatorController

/-- One step that touches the controller: a call of `addRequest`, the removal of the served
floor by `processRequests`, or a floor change of the elevator. -/
inductive ControllerOp where
  | addRequest (request : Request)
  | removeFloor (nextFloor : Int)
  | moveTo (floor : Int)

namespace ElevatorController

/-- The controller after one step. -/
def step (c : ElevatorController) : ControllerOp → ElevatorController
  | ControllerOp.addRequest request => c.addRequest request
  | ControllerOp.removeFloor nextFloor => c.removeFloor nextFloor
  | ControllerOp.moveTo floor => { c with currentFloor := floor }

/-- The controller after a sequence of steps, starting with the first. -/
def run (c : ElevatorController) : List ControllerOp → ElevatorController
  | [] => c
  | op :: ops => run (c.step op) ops

/-- The distance `Math.abs(floor - currentFloor)` of a request. -/
def dist (currentFloor : Int) (r : Request) : Nat :=
  (r.floor - currentFloor).natAbs

end ElevatorController

end ElevatorControl

/-! ## Characters of the role playing game (`src/RolePlayingGame/rpg.js`) -/

namespace RolePlayingGame

/-- A JavaScript number value (IEEE 754 binary64): `NaN`, `Infinity`, `-Infinity`, or a finite
value, given by the rational number it denotes. The two zeros are one value here: the embedded
methods only add, subtract, multiply and compare numbers, and none of these tells `-0` from
`0`. -/
inductive Number where
  | nan
  | posInf
  | negInf
  | fin (q : ℚ)
  deriving DecidableEq

namespace Number

/-- The largest finite value, `Number.MAX_VALUE`: `(2^53 - 1) * 2^971`. -/
def maxValue : ℚ := (2 ^ 53 - 1) * 2 ^ 971

/-- The nearest integer of a rational, a tie going to the even one. -/
def roundHalfEven (x : ℚ) : Int :=
  if x - (⌊x⌋ : Int) < 1 / 2 then ⌊x⌋
  else if 1 / 2 < x - (⌊x⌋ : Int) then ⌊x⌋ + 1
  else if ⌊x⌋ % 2 = 0 then ⌊x⌋ else ⌊x⌋ + 1

/-- The binary exponent used to represent `q`: the `e` with `2^e <= |q| < 2^(e+1)`, but not
less than the exponent -1022 of the smallest normal values. -/
def exponent (q : ℚ) : Int := max (Int.log 2 |q|) (-1022)

/-- The distance between neighbouring binary64 values at `q`: 53 significant bits. -/
def ulp (q : ℚ) : ℚ := (2 : ℚ) ^ (exponent q - 52)

/-- The rational `q` rounded to 53 significant bits, ties to even, before the range check. -/
def roundQ (q : ℚ) : ℚ := (roundHalfEven (q / ulp q) : ℚ) * ulp q

/-- The number value of an exact result: rounded to the nearest binary64 value, ties to even,
and to an infinity when the rounded value is beyond `Number.MAX_VALUE`. -/
def round (q : ℚ) : Number :=
  if maxValue < roundQ q then posInf
  else if roundQ q < -maxValue then negInf
  else fin (roundQ q)

/-- Unary minus. -/
def neg : Number → Number
  | nan => nan
  | posInf => negInf
  | negInf => posInf
  | fin q => fin (-q)

/-- The operator `+` on numbers. -/
def add : Number → Number → Number
  | fin a, fin b => round (a + b)
  | nan, _ => nan
  | _, nan => nan
  | posInf, negInf => nan
  | negInf, posInf => nan
  | posInf, _ => posInf
  | negInf, _ => negInf
  | fin _, posInf => posInf
  | fin _, negInf => negInf

/-- The operator `-` on numbers. -/
def sub (a b : Number) : Number := add a (neg b)

/-- The sign of a number that is not `NaN`: 1, -1 or 0. -/
def sign : Number → Int
  | nan => 0
  | posInf => 1
  | negInf => -1
  | fin q => if 0 < q then 1 else if q < 0 then -1 else 0

/-- The operator `*` on numbers. -/
def mul : Number → Number → Number
  | fin a, fin b => round (a * b)
  | nan, _ => nan
  | _, nan => nan
  | a, b =>
    if sign a * sign b = 0 then nan else if 0 < sign a * sign b then posInf else negInf

/-- The operator `<` on numbers. -/
def lt : Number → Number → Bool
  | fin a, fin b => decide (a < b)
  | negInf, fin _ => true
  | negInf, posInf => true
  | fin _, posInf => true
  | _, _ => false

/-- The operator `<=` on numbers. -/
def le : Number → Number → Bool
  | fin a, fin b => decide (a ≤ b)
  | negInf, fin _ => true
  | negInf, posInf => true
  | negInf, negInf => true
  | fin _, posInf => true
  | posInf, posInf => true
  | _, _ => false

/-- The operator `>` on numbers. -/
def gt (a b : Number) : Bool := lt b a

/-- The operator `>=` on numbers. -/
def ge (a b : Number) : Bool := le b a

/-- The operator `===` on numbers. -/
def eq : Number → Number → Bool
  | fin a, fin b => decide (a = b)
  | posInf, posInf => true
  | negInf, negInf => true
  | _, _ => false

end Number

/-- Class `Character`: the fields `_name`, `_maxHitPoints`, `_hitPoints`, `_attackPower`. -/
structure Character where
  name : String
  maxHitPoints : Number
  hitPoints : Number
  attackPower : Number
  deriving DecidableEq

namespace Character

/-- The constructor `new Character(name, hitPoints, attackPower)`. -/
def new (name : String) (hitPoints attackPower : Number) : Character :=
  { name := name, maxHitPoints := hitPoints, hitPoints := hitPoints, attackPower := attackPower }

/-- Method `getHitPoints()`. -/
def getHitPoints (c : Character) : Number := c.hitPoints

/-- Method `getMaxHitPoints()`. -/
def getMaxHitPoints (c : Character) : Number := c.maxHitPoints

/-- Method `isAlive()`. -/
def isAlive (c : Character) : Bool := Number.gt c.hitPoints (Number.fin 0)

/-- Method `takeDamage(damage)`. -/
def takeDamage (c : Character) (damage : Number) : Character :=
  if Number.lt (Number.sub c.hitPoints damage) (Number.fin 0) = true then { c with hitPoints := Number.fin 0 }
  else { c with hitPoints := Number.sub c.hitPoints damage }

/-- Method `heal(amount)`. -/
def heal (c : Character) (amount : Number) : Character :=
  if Number.gt (Number.add c.hitPoints amount) c.maxHitPoints = true then
    { c with hitPoints := c.maxHitPoints }
  else { c with hitPoints := Number.add c.hitPoints amount }

/-- Method `attack(target)` of `Character`: the returned damage and the target afterwards. -/
def attack (c : Character) (target : Character) : Number × Character :=
  (c.attackPower, target.takeDamage c.attackPower)

/-- Method `attack(target)` of `Thief`; `critical` is the outcome of `Math.random() < 0.3`. -/
def thiefAttack (c : Character) (critical : Bool) (target : Character) : Number × Character :=
  if critical = true then
    (Number.mul c.attackPower (Number.fin 2), target.takeDamage (Number.mul c.attackPower (Number.fin 2)))
  else c.attack target

end Character

/-- Class `Player`: a `Character` with the fields `_experience` and `_level`. -/
structure Player extends Character where
  experience : Number
  level : Number
  deriving DecidableEq

namespace Player

/-- The constructor `new Player(name, hitPoints, attackPower)`. -/
def new (name : String) (hitPoints attackPower : Number) : Player :=
  { toCharacter := Character.new name hitPoints attackPower,
    experience := Number.fin 0, level := Number.fin 1 }

/-- Method `levelUp()`. -/
def levelUp (p : Player) : Player :=
  { p with
    level := Number.add p.level (Number.fin 1)
    maxHitPoints := Number.add p.maxHitPoints (Number.fin 10)
    hitPoints := Number.add p.maxHitPoints (Number.fin 10)
    attackPower := Number.add p.attackPower (Number.fin 5) }

/-- Method `gainExperience(exp)`. -/
def gainExperience (p : Player) (exp : Number) : Player :=
  if Number.ge (Number.add p.experience exp) (Number.mul p.level (Number.fin 100)) = true then
    levelUp { p with experience := Number.add p.experience exp }
  else { p with experience := Number.add p.experience exp }

end Player

/-- One call that involves a character: its own `takeDamage` or `heal`, an `attack` of which it
is the target (by an attacker, or by a `Thief` with the outcome of the random test), or an
`attack` that it makes on another character. -/
inductive CharacterOp where
  | takeDamage (damage : Number)
  | heal (amount : Number)
  | attackedBy (attacker : Character)
  | attackedByThief (attacker : Character) (critical : Bool)
  | attack (target : Character)

/-- One call that involves a player: a call of a character, `levelUp` or `gainExperience`. -/
inductive PlayerOp where
  | base (op : CharacterOp)
  | levelUp
  | gainExperience (exp : Number)

/-- The character after one call. -/
def Character.step (c : Character) : CharacterOp → Character
  | CharacterOp.takeDamage damage => c.takeDamage damage
  | CharacterOp.heal amount => c.heal amount
  | CharacterOp.attackedBy attacker => (attacker.attack c).2
  | CharacterOp.attackedByThief attacker critical => (attacker.thiefAttack critical c).2
  | CharacterOp.attack _ => c

/-- The character after a sequence of calls, starting with the first. -/
def Character.run (c : Character) : List CharacterOp → Character
  | [] => c
  | op :: ops => Character.run (c.step op) ops

/-- The player after one call. -/
def Player.step (p : Player) : PlayerOp → Player
  | PlayerOp.base op => { p with toCharacter := p.toCharacter.step op }
  | PlayerOp.levelUp => p.levelUp
  | PlayerOp.gainExperience exp => p.gainExperience exp

/-- The player after a sequence of calls, starting with the first. -/
def Player.run (p : Player) : List PlayerOp → Player
  | [] => p
  | op :: ops => Player.run (p.step op) ops

/-- The value is one that a number can take: a finite value is a binary64 value, which rounding
leaves as it is, within the range of `Number.MAX_VALUE`. -/
def Number.IsDouble : Number → Prop
  | Number.fin q => Number.roundQ q = q ∧ |q| ≤ Number.maxValue
  | _ => True

/-- The number is finite: neither `NaN` nor an infinity. -/
def Number.IsFinite : Number → Prop
  | Number.fin _ => True
  | _ => False

/-- The arguments of a call are admissible: damage and healing amounts are `>= 0`, and an
attacker has an attack power `>= 0`. -/
def CharacterOp.Admissible : CharacterOp → Prop
  | CharacterOp.takeDamage damage => Number.ge damage (Number.fin 0) = true
  | CharacterOp.heal amount => Number.ge amount (Number.fin 0) = true
  | CharacterOp.attackedBy attacker => Number.ge attacker.attackPower (Number.fin 0) = true
  | CharacterOp.attackedByThief attacker _ => Number.ge attacker.attackPower (Number.fin 0) = true
  | CharacterOp.attack _ => True

/-- Admissible calls of a player. -/
def PlayerOp.Admissible : PlayerOp → Prop
  | PlayerOp.base op => op.Admissible
  | PlayerOp.levelUp => True
  | PlayerOp.gainExperience _ => True

/-- The hit points and the maximum are finite binary64 values with
`0 <= hitPoints <= maxHitPoints`. -/
def Character.InRange (c : Character) : Prop :=
  ∃ h m : ℚ, c.hitPoints = Number.fin h ∧ c.maxHitPoints = Number.fin m ∧ 0 ≤ h ∧ h ≤ m ∧
    Number.roundQ h = h ∧ Number.roundQ m = m ∧ m ≤ Number.maxValue

end RolePlayingGame

/-! ## Theorems -/

namespace Othello

namespace Board

theorem isValidPosition_iff (b : Board) (r c : Int) :
    b.isValidPosition r c = true ↔ 0 ≤ r ∧ r < b.size ∧ 0 ≤ c ∧ c < b.size := by
  simp [isValidPosition, and_assoc]

theorem getDisc_of_valid {b : Board} (hb : b.WF) {r c : Int}
    (hv : b.isValidPosition r c = true) : ∃ d, b.getDisc r c = some d := by
  rw [isValidPosition_iff] at hv
  obtain ⟨h1, h2, h3, h4⟩ := hv
  have hr : r.toNat < b.grid.length := by rw [hb.1]; omega
  have hrow : (b.grid[r.toNat]).length = b.size := hb.2 _ (List.getElem_mem _)
  have hc : c.toNat < (b.grid[r.toNat]).length := by rw [hrow]; omega
  refine ⟨(b.grid[r.toNat])[c.toNat], ?_⟩
  simp [getDisc, h1, h3, List.getElem?_eq_getElem hr, List.getElem?_eq_getElem hc]

theorem valid_of_getDisc {b : Board} (hb : b.WF) {r c : Int} {d : Disc}
    (h : b.getDisc r c = some d) : b.isValidPosition r c = true := by
  rw [isValidPosition_iff]
  unfold getDisc at h
  split at h
  · rename_i h0
    split at h
    · cases h
    · rename_i row hrow
      have h1 := List.getElem?_eq_some.1 hrow
      obtain ⟨hr, hrow2⟩ := h1
      have h2 := List.getElem?_eq_some.1 h
      obtain ⟨hc, _⟩ := h2
      have : row.length = b.size := hb.2 _ (by rw [← hrow2]; exact List.getElem_mem _)
      rw [hb.1] at hr
      omega
  · cases h

theorem setDisc_spec {b : Board} (hb : b.WF) {r c : Int} (hv : b.isValidPosition r c = true)
    (disc : Disc) :
    ∃ b1, b.setDisc r c disc = some b1 ∧ b1.WF ∧ b1.size = b.size ∧
      ∀ x y, b1.getDisc x y = if x = r ∧ y = c then some disc else b.getDisc x y := by
  rw [isValidPosition_iff] at hv
  obtain ⟨h1, h2, h3, h4⟩ := hv
  have hr : r.toNat < b.grid.length := by rw [hb.1]; omega
  have hrow : (b.grid[r.toNat]).length = b.size := hb.2 _ (List.getElem_mem _)
  have hc : c.toNat < (b.grid[r.toNat]).length := by rw [hrow]; omega
  refine ⟨{ b with grid := b.grid.set r.toNat ((b.grid[r.toNat]).set c.toNat disc) }, ?_, ?_, rfl, ?_⟩
  · simp [setDisc, h1, h3, List.getElem?_eq_getElem hr, hc]
  · refine ⟨by simpa using hb.1, ?_⟩
    intro row hmem
    simp only at hmem
    rcases List.mem_or_eq_of_mem_set hmem with h | h
    · exact hb.2 _ h
    · rw [h, List.length_set]; exact hrow
  · intro x y
    unfold getDisc
    simp only
    by_cases hx : 0 ≤ x ∧ 0 ≤ y
    · simp only [hx, and_self, if_true]
      by_cases hxr : x = r
      · subst hxr
        simp only [true_and, List.getElem?_set_self hr]
        by_cases hyc : y = c
        · subst hyc
          simp [List.getElem?_set_self hc]
        · have : c.toNat ≠ y.toNat := by omega
          simp [hyc, List.getElem?_set_ne this, List.getElem?_eq_getElem hr]
      · have : r.toNat ≠ x.toNat := by omega
        simp [hxr, List.getElem?_set_ne this]
    · simp only [hx, if_false]
      have : ¬ (x = r ∧ y = c) := by rintro ⟨rfl, rfl⟩; exact hx ⟨h1, h3⟩
      simp [this]

end Board

theorem opponentOf_ne (color : Disc) : opponentOf color ≠ color := by
  cases color <;> simp [opponentOf]

theorem mem_directions {dr dc : Int} (h : (dr, dc) ∈ directions) :
    (dr = -1 ∨ dr = 0 ∨ dr = 1) ∧ (dc = -1 ∨ dc = 0 ∨ dc = 1) ∧ ¬ (dr = 0 ∧ dc = 0) := by
  simp only [directions, List.mem_cons, Prod.mk.injEq, List.mem_singleton, List.mem_nil_iff, or_false] at h
  omega

namespace Board

theorem index_lt_size {b : Board} {row col dr dc : Int} (hd : (dr, dc) ∈ directions)
    (hp : b.isValidPosition row col = true) {i : Nat}
    (hq : b.isValidPosition (row + (i : Int) * dr) (col + (i : Int) * dc) = true) :
    i < b.size := by
  rw [isValidPosition_iff] at hp hq
  obtain ⟨h1, h2, h3⟩ := mem_directions hd
  rcases h1 with rfl | rfl | rfl <;> rcases h2 with rfl | rfl | rfl <;>
    simp only [mul_neg, mul_one, mul_zero, add_zero] at hq <;> omega

theorem runFrom_zero_iff {b : Board} {row col dr dc : Int} {color opp : Disc} {i : Nat} :
    b.RunFrom row col dr dc color opp i 0 ↔
      b.getDisc (row + (i : Int) * dr) (col + (i : Int) * dc) = some color := by
  simp [RunFrom]

theorem runFrom_succ_iff {b : Board} {row col dr dc : Int} {color opp : Disc} {i k : Nat} :
    b.RunFrom row col dr dc color opp i (k + 1) ↔
      b.getDisc (row + (i : Int) * dr) (col + (i : Int) * dc) = some opp ∧
        b.RunFrom row col dr dc color opp (i + 1) k := by
  unfold RunFrom
  constructor
  · rintro ⟨h1, h2⟩
    refine ⟨by simpa using h1 0 (by omega), ?_, ?_⟩
    · intro j hj
      have := h1 (j + 1) (by omega)
      rwa [show i + (j + 1) = i + 1 + j by omega] at this
    · rwa [show i + (k + 1) = i + 1 + k by omega] at h2
  · rintro ⟨h0, h1, h2⟩
    refine ⟨?_, ?_⟩
    · intro j hj
      cases j with
      | zero => simpa using h0
      | succ j =>
        have := h1 j (by omega)
        rwa [show i + 1 + j = i + (j + 1) by omega] at this
    · rwa [show i + 1 + k = i + (k + 1) by omega] at h2

theorem canFlipLoop_spec {b : Board} (hb : b.WF) {row col dr dc : Int}
    (hd : (dr, dc) ∈ directions) (hp : b.isValidPosition row col = true)
    {color opp : Disc} (hne : opp ≠ color) :
    ∀ (fuel i : Nat) (found : Bool), 1 ≤ fuel → b.size < fuel + i →
      ∃ res, b.canFlipLoop dr dc color opp fuel (row + (i : Int) * dr) (col + (i : Int) * dc) found
          = some res ∧
        (res = true ↔ ∃ k : Nat, (found = true ∨ 1 ≤ k) ∧ b.RunFrom row col dr dc color opp i k) := by
  intro fuel
  induction fuel with
  | zero => intro i found h; omega
  | succ n ih =>
    intro i found _ hsz
    by_cases hv : b.isValidPosition (row + (i : Int) * dr) (col + (i : Int) * dc) = true
    · obtain ⟨d, hdisc⟩ := getDisc_of_valid hb hv
      have hi := index_lt_size hd hp hv
      by_cases hopp : d = opp
      · obtain ⟨res, h1, h2⟩ := ih (i + 1) true (by omega) (by omega)
        have e1 : row + ((i + 1 : Nat) : Int) * dr = row + (i : Int) * dr + dr := by
          push_cast; ring
        have e2 : col + ((i + 1 : Nat) : Int) * dc = col + (i : Int) * dc + dc := by
          push_cast; ring
        rw [e1, e2] at h1
        refine ⟨res, ?_, h2.trans ?_⟩
        · simp only [canFlipLoop, hv, hdisc, hopp, if_true]
          exact h1
        · constructor
          · rintro ⟨k, -, hk⟩
            exact ⟨k + 1, Or.inr (by omega), runFrom_succ_iff.2 ⟨by rw [hdisc, hopp], hk⟩⟩
          · rintro ⟨k, -, hk⟩
            cases k with
            | zero =>
              rw [runFrom_zero_iff, hdisc, hopp] at hk
              exact absurd (Option.some.inj hk) hne
            | succ k => exact ⟨k, Or.inl rfl, (runFrom_succ_iff.1 hk).2⟩
      · by_cases hcol : d = color ∧ found = true
        · refine ⟨true, ?_, ?_⟩
          · have hf := hcol.2
            have hdc := hcol.1
            have hco : ¬ color = opp := fun h => hne h.symm
            simp only [canFlipLoop, hv, hdisc, if_true, if_false, hdc, hf, and_self, hco]
          · simp only [true_iff]
            exact ⟨0, Or.inl hcol.2, runFrom_zero_iff.2 (by rw [hdisc, hcol.1])⟩
        · refine ⟨false, ?_, ?_⟩
          · simp only [canFlipLoop, hv, hdisc, hopp, if_true, if_false, hcol]
          · simp only [Bool.false_eq_true, false_iff]
            rintro ⟨k, hk0, hk⟩
            cases k with
            | zero =>
              rw [runFrom_zero_iff, hdisc] at hk
              rcases hk0 with h | h
              · exact hcol ⟨Option.some.inj hk, h⟩
              · omega
            | succ k =>
              have := (runFrom_succ_iff.1 hk).1
              rw [hdisc] at this
              exact hopp (Option.some.inj this)
    · refine ⟨false, ?_, ?_⟩
      · simp only [canFlipLoop, hv, if_false, Bool.false_eq_true]
      · simp only [Bool.false_eq_true, false_iff]
        rintro ⟨k, -, hk⟩
        cases k with
        | zero =>
          rw [runFrom_zero_iff] at hk
          exact hv (valid_of_getDisc hb hk)
        | succ k => exact hv (valid_of_getDisc hb (runFrom_succ_iff.1 hk).1)

theorem canFlipInDirection_spec {b : Board} (hb : b.WF) {row col dr dc : Int}
    (hd : (dr, dc) ∈ directions) (hp : b.isValidPosition row col = true)
    {color opp : Disc} (hne : opp ≠ color) :
    ∃ res, b._canFlipInDirection row col dr dc color opp = some res ∧
      (res = true ↔ ∃ k : Nat, 1 ≤ k ∧ b.RunFrom row col dr dc color opp 1 k) := by
  obtain ⟨res, h1, h2⟩ := canFlipLoop_spec hb hd hp hne (b.size + 1) 1 false (by omega) (by omega)
  refine ⟨res, ?_, ?_⟩
  · simpa [_canFlipInDirection] using h1
  · simpa using h2

theorem anyDirection_spec {b : Board} (hb : b.WF) {row col : Int}
    (hp : b.isValidPosition row col = true) {color opp : Disc} (hne : opp ≠ color) :
    ∀ ds : List (Int × Int), (∀ d ∈ ds, d ∈ directions) →
      ∃ res, b.anyDirection row col color opp ds = some res ∧
        (res = true ↔ ∃ d ∈ ds, ∃ k : Nat, 1 ≤ k ∧ b.RunFrom row col d.1 d.2 color opp 1 k) := by
  intro ds
  induction ds with
  | nil => intro _; exact ⟨false, rfl, by simp⟩
  | cons d rest ih =>
    intro hds
    obtain ⟨dr, dc⟩ := d
    obtain ⟨res, h1, h2⟩ :=
      canFlipInDirection_spec hb (hds (dr, dc) (List.mem_cons_self _ _)) hp hne
    obtain ⟨res2, h3, h4⟩ := ih (fun d hd => hds d (List.mem_cons_of_mem _ hd))
    cases res with
    | true =>
      refine ⟨true, by simp only [anyDirection, h1], ?_⟩
      simp only [true_iff]
      exact ⟨(dr, dc), List.mem_cons_self _ _, h2.1 rfl⟩
    | false =>
      refine ⟨res2, by simp only [anyDirection, h1, h3], h4.trans ?_⟩
      constructor
      · rintro ⟨d, hd, hk⟩
        exact ⟨d, List.mem_cons_of_mem _ hd, hk⟩
      · rintro ⟨d, hd, hk⟩
        rcases List.mem_cons.1 hd with h | h
        · subst h
          have := h2.2 hk
          cases this
        · exact ⟨d, h, hk⟩

theorem isValidMove_spec {b : Board} (hb : b.WF) {row col : Int}
    (hp : b.isValidPosition row col = true) (color : Disc) :
    ∃ res, b._isValidMove row col color = some res ∧
      (res = true ↔ b.getDisc row col = some Disc.EMPTY ∧
        ∃ d ∈ directions, b.Flippable row col color d) := by
  obtain ⟨d, hd⟩ := getDisc_of_valid hb hp
  by_cases he : d = Disc.EMPTY
  · obtain ⟨res, h1, h2⟩ :=
      anyDirection_spec hb hp (opponentOf_ne color) directions (fun _ h => h)
    refine ⟨res, ?_, h2.trans ?_⟩
    · simp only [_isValidMove, hd, he, ne_eq, not_true_eq_false, if_false]
      exact h1
    · simp only [hd, he, true_and, Flippable]
  · refine ⟨false, ?_, ?_⟩
    · simp only [_isValidMove, hd, ne_eq, he, not_false_eq_true, if_true]
    · simp only [Bool.false_eq_true, false_iff, hd, Option.some.injEq, he, false_and, not_false_eq_true]

theorem validMovesCols_spec {b : Board} (hb : b.WF) (color : Disc) {row : Nat}
    (hrow : row < b.size) :
    ∀ cols : List Nat, (∀ c ∈ cols, c < b.size) →
      b.validMovesCols color row cols =
        some ((cols.filter
          (fun (c : Nat) => decide (b._isValidMove (row : Int) (c : Int) color = some true))).map
            (fun (c : Nat) => ((row : Int), (c : Int)))) := by
  intro cols
  induction cols with
  | nil => intro _; rfl
  | cons c rest ih =>
    intro hc
    have hv : b.isValidPosition (row : Int) (c : Int) = true := by
      rw [isValidPosition_iff]
      have := hc c (List.mem_cons_self _ _)
      omega
    obtain ⟨res, h1, -⟩ := isValidMove_spec hb hv color
    have h2 := ih (fun c hc2 => hc c (List.mem_cons_of_mem _ hc2))
    cases res with
    | true => simp [validMovesCols, h1, h2]
    | false => simp [validMovesCols, h1, h2]

theorem validMovesRows_spec {b : Board} (hb : b.WF) (color : Disc) :
    ∀ rows : List Nat, (∀ r ∈ rows, r < b.size) →
      b.validMovesRows color rows =
        some (rows.flatMap (fun (row : Nat) => ((List.range b.size).filter
          (fun (c : Nat) => decide (b._isValidMove (row : Int) (c : Int) color = some true))).map
            (fun (c : Nat) => ((row : Int), (c : Int))))) := by
  intro rows
  induction rows with
  | nil => intro _; rfl
  | cons r rest ih =>
    intro hr
    have h1 := validMovesCols_spec hb color (hr r (List.mem_cons_self _ _)) (List.range b.size)
      (fun c hc => List.mem_range.1 hc)
    have h2 := ih (fun r hr2 => hr r (List.mem_cons_of_mem _ hr2))
    simp [validMovesRows, h1, h2]

/-- The list that `getValidMoves` returns on a well-formed board, in closed form. -/
theorem getValidMoves_eq {b : Board} (hb : b.WF) (color : Disc) :
    b.getValidMoves color =
      some ((List.range b.size).flatMap (fun (row : Nat) => ((List.range b.size).filter
        (fun (c : Nat) => decide (b._isValidMove (row : Int) (c : Int) color = some true))).map
          (fun (c : Nat) => ((row : Int), (c : Int))))) :=
  validMovesRows_spec hb color _ (fun _ h => List.mem_range.1 h)

theorem mem_getValidMoves {b : Board} (hb : b.WF) (color : Disc) {moves : List (Int × Int)}
    (hm : b.getValidMoves color = some moves) (r c : Int) :
    (r, c) ∈ moves ↔ b.isValidPosition r c = true ∧ b._isValidMove r c color = some true := by
  rw [getValidMoves_eq hb color] at hm
  cases hm
  rw [List.mem_flatMap, isValidPosition_iff]
  constructor
  · rintro ⟨x, hx, hmem⟩
    obtain ⟨y, hy, heq⟩ := List.mem_map.1 hmem
    obtain ⟨hy1, hy2⟩ := List.mem_filter.1 hy
    have hx1 := List.mem_range.1 hx
    have hy3 := List.mem_range.1 hy1
    simp only [Prod.mk.injEq] at heq
    obtain ⟨rfl, rfl⟩ := heq
    exact ⟨⟨by omega, by omega, by omega, by omega⟩, of_decide_eq_true hy2⟩
  · rintro ⟨⟨h1, h2, h3, h4⟩, hv⟩
    refine ⟨r.toNat, List.mem_range.2 (by omega), List.mem_map.2 ⟨c.toNat, ?_, ?_⟩⟩
    · refine List.mem_filter.2 ⟨List.mem_range.2 (by omega), decide_eq_true ?_⟩
      rw [Int.toNat_of_nonneg h1, Int.toNat_of_nonneg h3]
      exact hv
    · rw [Int.toNat_of_nonneg h1, Int.toNat_of_nonneg h3]

theorem mem_getValidMoves_iff {b : Board} (hb : b.WF) (color : Disc) {moves : List (Int × Int)}
    (hm : b.getValidMoves color = some moves) (r c : Int) :
    (r, c) ∈ moves ↔ b.isValidPosition r c = true ∧ b.getDisc r c = some Disc.EMPTY ∧
      ∃ d ∈ directions, b.Flippable r c color d := by
  rw [mem_getValidMoves hb color hm]
  constructor
  · rintro ⟨hv, h⟩
    obtain ⟨res, h1, h2⟩ := isValidMove_spec hb hv color
    rw [h1] at h
    cases h
    exact ⟨hv, h2.1 rfl⟩
  · rintro ⟨hv, h⟩
    obtain ⟨res, h1, h2⟩ := isValidMove_spec hb hv color
    rw [h1, h2.2 h]
    exact ⟨hv, rfl⟩

theorem holds_iff {b : Board} (hb : b.WF) {r c : Int} {d : Disc} :
    b.Holds r c d ↔ b.getDisc r c = some d :=
  ⟨fun h => h.2, fun h => ⟨valid_of_getDisc hb h, h⟩⟩

theorem flippableRun_iff {b : Board} (hb : b.WF) {row col : Int} {color : Disc} {d : Int × Int}
    {k : Nat} :
    b.FlippableRun row col color d k ↔
      1 ≤ k ∧ b.RunFrom row col d.1 d.2 color (opponentOf color) 1 k := by
  unfold FlippableRun RunFrom
  simp only [holds_iff hb]
  constructor
  · rintro ⟨h1, h2, h3⟩
    refine ⟨h1, fun j hj => h2 (1 + j) (by omega) (by omega), ?_⟩
    rwa [show 1 + k = k + 1 by omega]
  · rintro ⟨h1, h2, h3⟩
    refine ⟨h1, fun i hi1 hi2 => ?_, ?_⟩
    · have := h2 (i - 1) (by omega)
      rwa [show 1 + (i - 1) = i by omega] at this
    · rwa [show k + 1 = 1 + k by omega]

theorem flippable_iff {b : Board} (hb : b.WF) {row col : Int} {color : Disc} {d : Int × Int} :
    b.Flippable row col color d ↔ ∃ k : Nat, b.FlippableRun row col color d k := by
  unfold Flippable
  simp only [flippableRun_iff hb]

theorem isLegalMove_iff {b : Board} (hb : b.WF) {row col : Int} {color : Disc} :
    b.IsLegalMove color row col ↔
      b.isValidPosition row col = true ∧ b.getDisc row col = some Disc.EMPTY ∧
        ∃ d ∈ directions, b.Flippable row col color d := by
  unfold IsLegalMove Holds
  simp only [flippable_iff hb, and_assoc]

/-- On a well-formed board `getValidMoves` returns a list, and its members are the legal moves. -/
theorem getValidMoves_spec {b : Board} (hb : b.WF) (color : Disc) :
    ∃ moves, b.getValidMoves color = some moves ∧
      ∀ r c : Int, (r, c) ∈ moves ↔ b.IsLegalMove color r c := by
  refine ⟨_, getValidMoves_eq hb color, fun r c => ?_⟩
  rw [mem_getValidMoves_iff hb color (getValidMoves_eq hb color), isLegalMove_iff hb]

end Board

theorem ray_index_inj {dr dc : Int} (hd : (dr, dc) ∈ directions) {row col : Int} {m n : Nat}
    (h1 : row + (m : Int) * dr = row + (n : Int) * dr)
    (h2 : col + (m : Int) * dc = col + (n : Int) * dc) : m = n := by
  obtain ⟨h3, h4, h5⟩ := mem_directions hd
  rcases h3 with rfl | rfl | rfl <;> rcases h4 with rfl | rfl | rfl <;>
    simp only [mul_neg, mul_one, mul_zero, add_zero] at h1 h2 <;> omega

theorem ray_disjoint {d e : Int × Int} (hd : d ∈ directions) (he : e ∈ directions)
    {row col : Int} {m n : Nat} (hm : 1 ≤ m) (hn : 1 ≤ n)
    (h1 : row + (m : Int) * d.1 = row + (n : Int) * e.1)
    (h2 : col + (m : Int) * d.2 = col + (n : Int) * e.2) : d = e := by
  obtain ⟨dr, dc⟩ := d
  obtain ⟨er, ec⟩ := e
  obtain ⟨h3, h4, h5⟩ := mem_directions hd
  obtain ⟨h6, h7, h8⟩ := mem_directions he
  simp only at h1 h2
  rcases h3 with rfl | rfl | rfl <;> rcases h4 with rfl | rfl | rfl <;>
    rcases h6 with rfl | rfl | rfl <;> rcases h7 with rfl | rfl | rfl <;>
    simp only [mul_neg, mul_one, mul_zero, add_zero, Prod.mk.injEq] at h1 h2 ⊢ <;> omega

namespace Board

theorem runFrom_unique {b : Board} {row col dr dc : Int} {color opp : Disc} (hne : opp ≠ color)
    {i k k2 : Nat} (h1 : b.RunFrom row col dr dc color opp i k)
    (h2 : b.RunFrom row col dr dc color opp i k2) : k = k2 := by
  rcases Nat.lt_trichotomy k k2 with h | h | h
  · have := h2.1 k h
    rw [h1.2] at this
    exact absurd (Option.some.inj this).symm hne
  · exact h
  · have := h1.1 k2 h
    rw [h2.2] at this
    exact absurd (Option.some.inj this).symm hne

theorem flipLoop_spec {row col dr dc : Int} (hd : (dr, dc) ∈ directions) {color opp : Disc}
    (hne : opp ≠ color) :
    ∀ (k fuel : Nat) (b : Board) (i : Nat), b.WF → b.RunFrom row col dr dc color opp i k →
      k < fuel →
      ∃ b1, flipLoop dr dc color opp fuel b (row + (i : Int) * dr) (col + (i : Int) * dc) = some b1 ∧
        b1.WF ∧ b1.size = b.size ∧
        (∀ x y : Int, (∃ j : Nat, j < k ∧ x = row + ((i + j : Nat) : Int) * dr ∧
            y = col + ((i + j : Nat) : Int) * dc) → b1.getDisc x y = some color) ∧
        (∀ x y : Int, ¬ (∃ j : Nat, j < k ∧ x = row + ((i + j : Nat) : Int) * dr ∧
            y = col + ((i + j : Nat) : Int) * dc) → b1.getDisc x y = b.getDisc x y) := by
  intro k
  induction k with
  | zero =>
    intro fuel b i hb hrun hf
    obtain ⟨n, rfl⟩ : ∃ n, fuel = n + 1 := ⟨fuel - 1, by omega⟩
    rw [runFrom_zero_iff] at hrun
    have hv := valid_of_getDisc hb hrun
    have hco : ¬ color = opp := fun h => hne h.symm
    refine ⟨b, ?_, hb, rfl, ?_, fun _ _ _ => rfl⟩
    · simp only [flipLoop, hv, hrun, if_true, hco, if_false]
    · rintro x y ⟨j, hj, -⟩
      omega
  | succ k ih =>
    intro fuel b i hb hrun hf
    obtain ⟨n, rfl⟩ : ∃ n, fuel = n + 1 := ⟨fuel - 1, by omega⟩
    rw [runFrom_succ_iff] at hrun
    obtain ⟨h0, hrest⟩ := hrun
    have hv := valid_of_getDisc hb h0
    obtain ⟨b1, hs1, hwf1, hsz1, hget1⟩ := setDisc_spec hb hv color
    have hrun1 : b1.RunFrom row col dr dc color opp (i + 1) k := by
      have hne1 : ∀ m : Nat, ¬ (row + ((i + 1 + m : Nat) : Int) * dr = row + (i : Int) * dr ∧
          col + ((i + 1 + m : Nat) : Int) * dc = col + (i : Int) * dc) := by
        rintro m ⟨e1, e2⟩
        have := ray_index_inj hd e1 e2
        omega
      refine ⟨fun j hj => ?_, ?_⟩
      · rw [hget1, if_neg (hne1 j)]
        exact hrest.1 j hj
      · rw [hget1, if_neg (hne1 k)]
        exact hrest.2
    obtain ⟨b2, hl2, hwf2, hsz2, hin2, hout2⟩ := ih n b1 (i + 1) hwf1 hrun1 (by omega)
    have e1 : row + ((i + 1 : Nat) : Int) * dr = row + (i : Int) * dr + dr := by
      push_cast; ring
    have e2 : col + ((i + 1 : Nat) : Int) * dc = col + (i : Int) * dc + dc := by
      push_cast; ring
    rw [e1, e2] at hl2
    refine ⟨b2, ?_, hwf2, hsz2.trans hsz1, ?_, ?_⟩
    · simp only [flipLoop, hv, h0, if_true, hs1]
      exact hl2
    · rintro x y ⟨j, hj, hx, hy⟩
      by_cases hin : ∃ j : Nat, j < k ∧ x = row + ((i + 1 + j : Nat) : Int) * dr ∧
          y = col + ((i + 1 + j : Nat) : Int) * dc
      · exact hin2 x y hin
      · rw [hout2 x y hin, hget1]
        cases j with
        | zero =>
          simp only [Nat.add_zero] at hx hy
          rw [if_pos ⟨hx, hy⟩]
        | succ j =>
          exact absurd ⟨j, by omega, by rw [hx, show i + (j + 1) = i + 1 + j by omega],
            by rw [hy, show i + (j + 1) = i + 1 + j by omega]⟩ hin
    · intro x y hnot
      have hin : ¬ ∃ j : Nat, j < k ∧ x = row + ((i + 1 + j : Nat) : Int) * dr ∧
          y = col + ((i + 1 + j : Nat) : Int) * dc := by
        rintro ⟨j, hj, hx, hy⟩
        exact hnot ⟨j + 1, by omega, by rw [hx, show i + (j + 1) = i + 1 + j by omega],
          by rw [hy, show i + (j + 1) = i + 1 + j by omega]⟩
      rw [hout2 x y hin, hget1]
      have : ¬ (x = row + (i : Int) * dr ∧ y = col + (i : Int) * dc) := by
        rintro ⟨hx, hy⟩
        exact hnot ⟨0, by omega, by simpa using hx, by simpa using hy⟩
      rw [if_neg this]

theorem flipInDirection_spec {b : Board} (hb : b.WF) {row col dr dc : Int}
    (hd : (dr, dc) ∈ directions) (hp : b.isValidPosition row col = true) {color opp : Disc}
    (hne : opp ≠ color) {k : Nat} (hrun : b.RunFrom row col dr dc color opp 1 k) :
    ∃ b1, b._flipInDirection row col dr dc color opp = some b1 ∧ b1.WF ∧ b1.size = b.size ∧
      (∀ x y : Int, (∃ i : Nat, 1 ≤ i ∧ i ≤ k ∧ x = row + (i : Int) * dr ∧
          y = col + (i : Int) * dc) → b1.getDisc x y = some color) ∧
      (∀ x y : Int, ¬ (∃ i : Nat, 1 ≤ i ∧ i ≤ k ∧ x = row + (i : Int) * dr ∧
          y = col + (i : Int) * dc) → b1.getDisc x y = b.getDisc x y) := by
  have hk : 1 + k < b.size := index_lt_size hd hp (valid_of_getDisc hb hrun.2)
  obtain ⟨b1, h1, h2, h3, h4, h5⟩ := flipLoop_spec hd hne k (b.size + 1) b 1 hb hrun (by omega)
  refine ⟨b1, ?_, h2, h3, ?_, ?_⟩
  · simpa [_flipInDirection] using h1
  · rintro x y ⟨i, hi1, hi2, hx, hy⟩
    exact h4 x y ⟨i - 1, by omega, by rw [hx, show 1 + (i - 1) = i by omega],
      by rw [hy, show 1 + (i - 1) = i by omega]⟩
  · intro x y hnot
    refine h5 x y ?_
    rintro ⟨j, hj, hx, hy⟩
    exact hnot ⟨1 + j, by omega, by omega, hx, hy⟩

end Board

theorem ray_ne_origin {dr dc : Int} (hd : (dr, dc) ∈ directions) {row col : Int} {m : Nat}
    (hm : 1 ≤ m) : ¬ (row + (m : Int) * dr = row ∧ col + (m : Int) * dc = col) := by
  rintro ⟨h1, h2⟩
  have := @ray_index_inj dr dc hd row col m 0 (by simpa using h1) (by simpa using h2)
  omega

namespace Board

theorem flipInv_ray_eq {b0 b : Board} {row col : Int} {color opp : Disc} {P : Int × Int → Prop}
    (hP : ∀ d, P d → d ∈ directions) (hinv : FlipInv b0 row col color opp P b)
    {d : Int × Int} (hd : d ∈ directions) (hnP : ¬ P d) {m : Nat} (hm : 1 ≤ m) :
    b.getDisc (row + (m : Int) * d.1) (col + (m : Int) * d.2) =
      b0.getDisc (row + (m : Int) * d.1) (col + (m : Int) * d.2) := by
  apply hinv.2.2.2
  rintro (h | ⟨e, hPe, k, -, -, i, hi1, -, hx, hy⟩)
  · exact ray_ne_origin hd hm h
  · have := ray_disjoint hd (hP e hPe) hm hi1 hx hy
    exact hnP (this ▸ hPe)

theorem flipInv_runFrom_iff {b0 b : Board} {row col : Int} {color opp : Disc}
    {P : Int × Int → Prop}
    (hP : ∀ d, P d → d ∈ directions) (hinv : FlipInv b0 row col color opp P b)
    {d : Int × Int} (hd : d ∈ directions) (hnP : ¬ P d) (k : Nat) :
    b.RunFrom row col d.1 d.2 color opp 1 k ↔ b0.RunFrom row col d.1 d.2 color opp 1 k := by
  unfold RunFrom
  constructor
  · rintro ⟨h1, h2⟩
    refine ⟨fun j hj => ?_, ?_⟩
    · rw [← flipInv_ray_eq hP hinv hd hnP (by omega)]; exact h1 j hj
    · rw [← flipInv_ray_eq hP hinv hd hnP (by omega)]; exact h2
  · rintro ⟨h1, h2⟩
    refine ⟨fun j hj => ?_, ?_⟩
    · rw [flipInv_ray_eq hP hinv hd hnP (by omega)]; exact h1 j hj
    · rw [flipInv_ray_eq hP hinv hd hnP (by omega)]; exact h2

theorem flipDirections_spec {b0 : Board} {row col : Int}
    (hp : b0.isValidPosition row col = true) {color opp : Disc} (hne : opp ≠ color) :
    ∀ (ds : List (Int × Int)) (P : Int × Int → Prop) (b : Board),
      (∀ d ∈ ds, d ∈ directions ∧ ¬ P d) → (∀ d, P d → d ∈ directions) → ds.Nodup →
      FlipInv b0 row col color opp P b →
      ∃ b1, flipDirections row col color opp b ds = some b1 ∧
        FlipInv b0 row col color opp (fun d => P d ∨ d ∈ ds) b1 := by
  intro ds
  induction ds with
  | nil =>
    intro P b _ _ _ hinv
    refine ⟨b, rfl, ?_⟩
    simpa using hinv
  | cons d rest ih =>
    intro P b hds hP hnd hinv
    obtain ⟨hd, hnP⟩ := hds d (List.mem_cons_self _ _)
    have hpb : b.isValidPosition row col = true := by
      rw [isValidPosition_iff, hinv.2.1, ← isValidPosition_iff]; exact hp
    obtain ⟨res, hc1, hc2⟩ := canFlipInDirection_spec hinv.1 (show (d.1, d.2) ∈ directions from hd)
      hpb hne
    have hrest : ∀ e ∈ rest, e ∈ directions ∧ ¬ (P e ∨ e = d) := by
      intro e he
      refine ⟨(hds e (List.mem_cons_of_mem _ he)).1, ?_⟩
      rintro (h | h)
      · exact (hds e (List.mem_cons_of_mem _ he)).2 h
      · subst h; exact (List.nodup_cons.1 hnd).1 he
    have hP2 : ∀ e, (P e ∨ e = d) → e ∈ directions := by
      rintro e (h | h)
      · exact hP e h
      · subst h; exact hd
    have hfin : ∀ b2, FlipInv b0 row col color opp (fun e => P e ∨ e = d) b2 →
        ∃ b1, flipDirections row col color opp b2 rest = some b1 ∧
          FlipInv b0 row col color opp (fun e => P e ∨ e ∈ d :: rest) b1 := by
      intro b2 hinv2
      obtain ⟨b1, h1, h2⟩ := ih (fun e => P e ∨ e = d) b2 hrest hP2 (List.nodup_cons.1 hnd).2 hinv2
      refine ⟨b1, h1, ?_⟩
      have e : (fun e => (P e ∨ e = d) ∨ e ∈ rest) = (fun e => P e ∨ e ∈ d :: rest) := by
        funext e
        simp only [List.mem_cons, or_assoc]
      rw [← e]; exact h2
    cases res with
    | false =>
      have hno : ∀ k : Nat, 1 ≤ k → ¬ b0.RunFrom row col d.1 d.2 color opp 1 k := by
        intro k hk hrun
        have := hc2.2 ⟨k, hk, (flipInv_runFrom_iff hP hinv hd hnP k).2 hrun⟩
        cases this
      have hinv2 : FlipInv b0 row col color opp (fun e => P e ∨ e = d) b := by
        refine ⟨hinv.1, hinv.2.1, ?_, ?_⟩
        · rintro x y (h | ⟨e, hPe | rfl, hfl⟩)
          · exact hinv.2.2.1 x y (Or.inl h)
          · exact hinv.2.2.1 x y (Or.inr ⟨e, hPe, hfl⟩)
          · obtain ⟨k, hk, hrun, -⟩ := hfl
            exact absurd hrun (hno k hk)
        · intro x y hnot
          apply hinv.2.2.2
          rintro (h | ⟨e, hPe, hfl⟩)
          · exact hnot (Or.inl h)
          · exact hnot (Or.inr ⟨e, Or.inl hPe, hfl⟩)
      obtain ⟨b1, h1, h2⟩ := hfin b hinv2
      refine ⟨b1, ?_, h2⟩
      obtain ⟨dr, dc⟩ := d
      simp only [flipDirections, hc1]
      exact h1
    | true =>
      obtain ⟨k, hk, hrun⟩ := hc2.1 rfl
      have hrun0 := (flipInv_runFrom_iff hP hinv hd hnP k).1 hrun
      obtain ⟨b2, hf1, hwf2, hsz2, hin2, hout2⟩ :=
        flipInDirection_spec hinv.1 (show (d.1, d.2) ∈ directions from hd) hpb hne hrun
      have hinv2 : FlipInv b0 row col color opp (fun e => P e ∨ e = d) b2 := by
        refine ⟨hwf2, hsz2.trans hinv.2.1, ?_, ?_⟩
        · intro x y hxy
          by_cases hin : ∃ i : Nat, 1 ≤ i ∧ i ≤ k ∧ x = row + (i : Int) * d.1 ∧
              y = col + (i : Int) * d.2
          · exact hin2 x y hin
          · rw [hout2 x y hin]
            rcases hxy with h | ⟨e, hPe | rfl, hfl⟩
            · exact hinv.2.2.1 x y (Or.inl h)
            · exact hinv.2.2.1 x y (Or.inr ⟨e, hPe, hfl⟩)
            · obtain ⟨k2, hk2, hrun2, i, hi1, hi2, hx, hy⟩ := hfl
              have := runFrom_unique hne hrun0 hrun2
              subst this
              exact absurd ⟨i, hi1, hi2, hx, hy⟩ hin
        · intro x y hnot
          have hin : ¬ ∃ i : Nat, 1 ≤ i ∧ i ≤ k ∧ x = row + (i : Int) * d.1 ∧
              y = col + (i : Int) * d.2 := by
            rintro ⟨i, hi1, hi2, hx, hy⟩
            exact hnot (Or.inr ⟨d, Or.inr rfl, k, hk, hrun0, i, hi1, hi2, hx, hy⟩)
          rw [hout2 x y hin]
          apply hinv.2.2.2
          rintro (h | ⟨e, hPe, hfl⟩)
          · exact hnot (Or.inl h)
          · exact hnot (Or.inr ⟨e, Or.inl hPe, hfl⟩)
      obtain ⟨b1, h1, h2⟩ := hfin b2 hinv2
      refine ⟨b1, ?_, h2⟩
      obtain ⟨dr, dc⟩ := d
      simp only [flipDirections, hc1, hf1]
      exact h1

theorem directions_nodup : directions.Nodup := by decide

/-- On a well-formed board and for an in-bounds position, `flipDiscs` returns a board: the old
one with `(row, col)` and the opponent cells of every run from it set to `color`. -/
theorem flipDiscs_spec {b : Board} (hb : b.WF) {row col : Int}
    (hp : b.isValidPosition row col = true) (color : Disc) :
    ∃ b1, b.flipDiscs row col color = some b1 ∧
      FlipInv b row col color (opponentOf color) (fun d => d ∈ directions) b1 := by
  obtain ⟨b2, hs, hwf, hsz, hget⟩ := setDisc_spec hb hp color
  have hinv : FlipInv b row col color (opponentOf color) (fun _ => False) b2 := by
    refine ⟨hwf, hsz, ?_, ?_⟩
    · rintro x y (h | ⟨_, h, _⟩)
      · rw [hget, if_pos h]
      · exact h.elim
    · intro x y hnot
      rw [hget, if_neg (fun h => hnot (Or.inl h))]
  obtain ⟨b1, h1, h2⟩ := flipDirections_spec hp (opponentOf_ne color) directions (fun _ => False) b2
    (fun d hd => ⟨hd, id⟩) (fun _ h => h.elim) directions_nodup hinv
  refine ⟨b1, ?_, ?_⟩
  · simp only [flipDiscs, hs]; exact h1
  · simpa using h2

end Board

theorem filter_length_set (p : Disc → Bool) :
    ∀ (l : List Disc) (i : Nat) (a : Disc) (h : i < l.length),
      ((l.set i a).filter p).length + (if p (l.get ⟨i, h⟩) = true then 1 else 0) =
        (l.filter p).length + (if p a = true then 1 else 0) := by
  intro l
  induction l with
  | nil => intro i a h; simp at h
  | cons x xs ih =>
    intro i a h
    cases i with
    | zero =>
      simp only [List.set_cons_zero, List.get_eq_getElem, List.getElem_cons_zero, List.filter_cons]
      by_cases hx : p x = true <;> by_cases ha : p a = true <;> simp [hx, ha]
    | succ i =>
      have := ih i a (by simpa using h)
      simp only [List.get_eq_getElem] at this
      simp only [List.set_cons_succ, List.get_eq_getElem, List.getElem_cons_succ, List.filter_cons]
      by_cases hx : p x = true <;> simp [hx] <;> omega

theorem sum_map_set (f : List Disc → Nat) :
    ∀ (l : List (List Disc)) (i : Nat) (a : List Disc) (h : i < l.length),
      ((l.set i a).map f).sum + f (l.get ⟨i, h⟩) = (l.map f).sum + f a := by
  intro l
  induction l with
  | nil => intro i a h; simp at h
  | cons x xs ih =>
    intro i a h
    cases i with
    | zero => simp; omega
    | succ i =>
      have := ih i a (by simpa using h)
      simp only [List.get_eq_getElem] at this
      simp only [List.set_cons_succ, List.map_cons, List.sum_cons, List.get_eq_getElem,
        List.getElem_cons_succ]
      omega

namespace Board

theorem setDisc_count {b b1 : Board} {r c : Int} {disc old : Disc}
    (hs : b.setDisc r c disc = some b1) (hold : b.getDisc r c = some old) (x : Disc) :
    b1.countDiscs x + (if old = x then 1 else 0) =
      b.countDiscs x + (if disc = x then 1 else 0) := by
  unfold setDisc at hs
  unfold getDisc at hold
  split at hs
  · rename_i h0
    rw [if_pos h0] at hold
    split at hs
    · cases hs
    · rename_i row hrow
      rw [hrow] at hold
      simp only at hold
      obtain ⟨hr, hrow2⟩ := List.getElem?_eq_some.1 hrow
      obtain ⟨hc, hold2⟩ := List.getElem?_eq_some.1 hold
      rw [if_pos hc] at hs
      cases hs
      unfold countDiscs
      simp only
      have h1 := sum_map_set (fun row => (row.filter (fun d => decide (d = x))).length)
        b.grid r.toNat (row.set c.toNat disc) hr
      have h2 := filter_length_set (fun d => decide (d = x)) row c.toNat disc hc
      simp only [List.get_eq_getElem, hrow2, hold2, decide_eq_true_eq] at h1 h2
      omega
  · cases hs

theorem countDiscs_total {b : Board} (hb : b.WF) :
    b.countDiscs Disc.EMPTY + b.countDiscs Disc.BLACK + b.countDiscs Disc.WHITE =
      b.size * b.size := by
  have hrow : ∀ l : List Disc,
      (l.filter (fun d => decide (d = Disc.EMPTY))).length +
        (l.filter (fun d => decide (d = Disc.BLACK))).length +
        (l.filter (fun d => decide (d = Disc.WHITE))).length = l.length := by
    intro l
    induction l with
    | nil => rfl
    | cons d ds ih => cases d <;> simp [List.filter_cons] <;> omega
  have hgrid : ∀ (g : List (List Disc)) (n : Nat), (∀ row ∈ g, row.length = n) →
      (g.map (fun row => (row.filter (fun d => decide (d = Disc.EMPTY))).length)).sum +
        (g.map (fun row => (row.filter (fun d => decide (d = Disc.BLACK))).length)).sum +
        (g.map (fun row => (row.filter (fun d => decide (d = Disc.WHITE))).length)).sum =
          g.length * n := by
    intro g n
    induction g with
    | nil => intro _; simp
    | cons row rows ih =>
      intro h
      have h1 := ih (fun r hr => h r (List.mem_cons_of_mem _ hr))
      have h2 := hrow row
      have h3 := h row (List.mem_cons_self _ _)
      simp only [List.map_cons, List.sum_cons, List.length_cons]
      rw [Nat.succ_mul]
      omega
  have := hgrid b.grid b.size hb.2
  rw [hb.1] at this
  exact this

theorem flipLoop_count {dr dc : Int} {color opp x : Disc} (h1 : opp ≠ x) (h2 : color ≠ x) :
    ∀ (fuel : Nat) (b : Board) (r c : Int) (b1 : Board),
      flipLoop dr dc color opp fuel b r c = some b1 → b1.countDiscs x = b.countDiscs x := by
  intro fuel
  induction fuel with
  | zero => intro b r c b1 h; simp [flipLoop] at h
  | succ n ih =>
    intro b r c b1 h
    simp only [flipLoop] at h
    split at h
    · split at h
      · cases h
      · rename_i d hget
        split at h
        · rename_i hd
          split at h
          · cases h
          · rename_i b2 hs
            have e1 := ih _ _ _ _ h
            have e2 := setDisc_count hs hget x
            rw [hd, if_neg h1, if_neg h2] at e2
            omega
        · cases h; rfl
    · cases h; rfl

theorem flipDirections_count {row col : Int} {color opp x : Disc} (h1 : opp ≠ x)
    (h2 : color ≠ x) :
    ∀ (ds : List (Int × Int)) (b b1 : Board),
      flipDirections row col color opp b ds = some b1 → b1.countDiscs x = b.countDiscs x := by
  intro ds
  induction ds with
  | nil => intro b b1 h; simp only [flipDirections] at h; cases h; rfl
  | cons d rest ih =>
    intro b b1 h
    obtain ⟨dr, dc⟩ := d
    simp only [flipDirections] at h
    split at h
    · cases h
    · split at h
      · cases h
      · rename_i b2 hf
        rw [ih _ _ h]
        exact flipLoop_count h1 h2 _ _ _ _ _ hf
    · exact ih _ _ h

theorem opponentOf_ne_empty (color : Disc) : opponentOf color ≠ Disc.EMPTY := by
  cases color <;> simp [opponentOf]

/-- Placing a disc of a non-empty colour on an empty cell with `flipDiscs` lowers the number of
empty cells by one. -/
theorem flipDiscs_count_empty {b b1 : Board} {row col : Int} {color : Disc}
    (hc : color ≠ Disc.EMPTY) (hget : b.getDisc row col = some Disc.EMPTY)
    (h : b.flipDiscs row col color = some b1) :
    b1.countDiscs Disc.EMPTY + 1 = b.countDiscs Disc.EMPTY := by
  simp only [flipDiscs] at h
  split at h
  · cases h
  · rename_i b2 hs
    have e1 := flipDirections_count (opponentOf_ne_empty color) hc _ _ _ h
    have e2 := setDisc_count hs hget Disc.EMPTY
    rw [if_neg hc] at e2
    simp only [if_true] at e2
    omega

end Board

theorem Board.new_eight : Board.new 8 = some Board.fresh8 := by decide

theorem Board.fresh8_wf : Board.fresh8.WF := by decide

theorem any_eq_false_iff_not_mem (moves : List (Int × Int)) (row col : Int) :
    moves.any (fun rc => decide (rc.1 = row) && decide (rc.2 = col)) = false ↔
      (row, col) ∉ moves := by
  rw [← Bool.not_eq_true, List.any_eq_true]
  constructor
  · intro h hm
    exact h ⟨(row, col), hm, by simp⟩
  · rintro h ⟨⟨r, c⟩, hm, hrc⟩
    simp only [Bool.and_eq_true, decide_eq_true_eq] at hrc
    obtain ⟨rfl, rfl⟩ := hrc
    exact h hm

namespace OthelloGame

/-- What `makeMove` does on a game with a well-formed board. -/
theorem makeMove_spec {g : OthelloGame} (hb : g.board.WF) (row col : Int) :
    ∃ moves, g.board.getValidMoves g.currentPlayer.getColor = some moves ∧
      ((row, col) ∈ moves → ∃ b1, g.board.flipDiscs row col g.currentPlayer.getColor = some b1 ∧
        b1.WF ∧ g.makeMove row col = some (true, { g with board := b1 })) ∧
      ((row, col) ∉ moves → g.makeMove row col = some (false, g)) := by
  obtain ⟨moves, hm, hmem⟩ := Board.getValidMoves_spec hb g.currentPlayer.getColor
  refine ⟨moves, hm, ?_, ?_⟩
  · intro hin
    have hv : g.board.isValidPosition row col = true := ((hmem row col).1 hin).1.1
    obtain ⟨b1, hf, hinv⟩ := Board.flipDiscs_spec hb hv g.currentPlayer.getColor
    refine ⟨b1, hf, hinv.1, ?_⟩
    have hany : moves.any (fun rc => decide (rc.1 = row) && decide (rc.2 = col)) = true := by
      rw [← Bool.not_eq_false, any_eq_false_iff_not_mem]; exact fun h => h hin
    simp only [makeMove, hm, hany, Bool.true_eq_false, if_false, hf]
  · intro hnot
    have hany := (any_eq_false_iff_not_mem moves row col).2 hnot
    simp only [makeMove, hm, hany, if_true]

theorem isGameOver_spec {g : OthelloGame} (hb : g.board.WF) (hflag : g.gameOver = false) :
    ∃ res, g.isGameOver = some (res, { g with gameOver := res }) ∧
      (res = true ↔
        g.board.getValidMoves Disc.BLACK = some [] ∧ g.board.getValidMoves Disc.WHITE = some []) := by
  obtain ⟨bm, hbm, -⟩ := Board.getValidMoves_spec hb Disc.BLACK
  obtain ⟨wm, hwm, -⟩ := Board.getValidMoves_spec hb Disc.WHITE
  refine ⟨decide (bm.length = 0) && decide (wm.length = 0), ?_, ?_⟩
  · simp only [isGameOver, hflag, Bool.false_eq_true, if_false, hbm, hwm]
  · simp only [Bool.and_eq_true, decide_eq_true_eq, List.length_eq_zero, hbm, hwm,
      Option.some.injEq]

theorem inv_new {p1 p2 : Player} (h1 : p1.color = Disc.BLACK ∨ p1.color = Disc.WHITE)
    (h2 : p2.color = Disc.BLACK ∨ p2.color = Disc.WHITE) :
    ∃ g0, OthelloGame.new p1 p2 = some g0 ∧ g0.Inv ∧ g0.board = Board.fresh8 ∧
      g0.player1 = p1 ∧ g0.player2 = p2 ∧ g0.currentPlayer = p1 ∧ g0.gameOver = false := by
  refine ⟨OthelloGame.mk Board.fresh8 p1 p2 p1 false, by simp only [OthelloGame.new, Board.new_eight], ?_, rfl, rfl, rfl, rfl, rfl⟩
  exact ⟨Board.fresh8_wf, h1, h2, Or.inl rfl, fun h => by cases h⟩

theorem inv_makeMove_terminal {g : OthelloGame} (hinv : g.Inv) (hflag : g.gameOver = true)
    (row col : Int) : g.makeMove row col = some (false, g) := by
  obtain ⟨hb, h1, h2, hcur, hover⟩ := hinv
  obtain ⟨hbm, hwm⟩ := hover hflag
  obtain ⟨moves, hm, -, hno⟩ := makeMove_spec hb row col
  have hcol : g.currentPlayer.getColor = Disc.BLACK ∨ g.currentPlayer.getColor = Disc.WHITE := by
    rcases hcur with h | h <;> rw [h] <;> assumption
  apply hno
  rcases hcol with h | h <;> rw [h] at hm
  · rw [hbm] at hm; cases hm; simp
  · rw [hwm] at hm; cases hm; simp

theorem inv_step {g : OthelloGame} (hinv : g.Inv) (op : Op) :
    ∃ g1, g.step op = some g1 ∧ g1.Inv ∧ g1.player1 = g.player1 ∧ g1.player2 = g.player2 := by
  have hinv0 := hinv
  obtain ⟨hb, h1, h2, hcur, hover⟩ := hinv
  cases op with
  | makeMove row col =>
    cases hflag : g.gameOver with
    | true =>
      refine ⟨g, ?_, hinv0, rfl, rfl⟩
      simp only [step, inv_makeMove_terminal hinv0 hflag row col, Option.map_some']
    | false =>
      obtain ⟨moves, hm, hyes, hno⟩ := makeMove_spec hb row col
      by_cases hin : (row, col) ∈ moves
      · obtain ⟨b1, -, hwf1, hmk⟩ := hyes hin
        refine ⟨{ g with board := b1 }, ?_, ?_, rfl, rfl⟩
        · simp only [step, hmk, Option.map_some']
        · exact ⟨hwf1, h1, h2, hcur, fun h => by simp only [hflag] at h; cases h⟩
      · refine ⟨g, ?_, hinv0, rfl, rfl⟩
        simp only [step, hno hin, Option.map_some']
  | switchTurn =>
    refine ⟨g.switchTurn, rfl, ?_, rfl, rfl⟩
    refine ⟨hb, h1, h2, ?_, hover⟩
    simp only [switchTurn]
    by_cases h : g.currentPlayer = g.player1
    · rw [if_pos h]; exact Or.inr rfl
    · rw [if_neg h]; exact Or.inl rfl
  | isGameOver =>
    cases hflag : g.gameOver with
    | true =>
      refine ⟨g, ?_, hinv0, rfl, rfl⟩
      simp only [step, isGameOver, hflag, if_true, Option.map_some']
    | false =>
      obtain ⟨res, hres, hiff⟩ := isGameOver_spec hb hflag
      refine ⟨{ g with gameOver := res }, ?_, ?_, rfl, rfl⟩
      · simp only [step, hres, Option.map_some']
      · exact ⟨hb, h1, h2, hcur, fun h => hiff.1 h⟩
  | getWinner => exact ⟨g, rfl, hinv0, rfl, rfl⟩
  | reset =>
    refine ⟨{ g with board := Board.fresh8, currentPlayer := g.player1, gameOver := false }, ?_, ?_,
      rfl, rfl⟩
    · simp only [step, reset, Board.new_eight]
    · exact ⟨Board.fresh8_wf, h1, h2, Or.inl rfl, fun h => by cases h⟩

theorem inv_run {g : OthelloGame} (hinv : g.Inv) (ops : List Op) :
    ∃ g1, g.run ops = some g1 ∧ g1.Inv ∧ g1.player1 = g.player1 ∧ g1.player2 = g.player2 := by
  induction ops generalizing g with
  | nil => exact ⟨g, rfl, hinv, rfl, rfl⟩
  | cons op ops ih =>
    obtain ⟨g1, hs, hinv1, e1, e2⟩ := inv_step hinv op
    obtain ⟨g2, hr, hinv2, e3, e4⟩ := ih hinv1
    refine ⟨g2, ?_, hinv2, e3.trans e1, e4.trans e2⟩
    simp only [run, hs]
    exact hr

end OthelloGame

namespace Board

theorem inFlippedRun_iff {b : Board} (hb : b.WF) {row col : Int} {color : Disc} {x y : Int} :
    b.InFlippedRun row col color x y ↔
      ∃ d, d ∈ directions ∧ b.FlippedBy row col color (opponentOf color) d x y := by
  unfold InFlippedRun FlippedBy
  constructor
  · rintro ⟨d, hd, k, hrun, hi⟩
    exact ⟨d, hd, k, ((flippableRun_iff hb).1 hrun).1, ((flippableRun_iff hb).1 hrun).2, hi⟩
  · rintro ⟨d, hd, k, hk, hrun, hi⟩
    exact ⟨d, hd, k, (flippableRun_iff hb).2 ⟨hk, hrun⟩, hi⟩

/-- The cells of the board that `flipDiscs` returns for an in-bounds position. -/
theorem flipDiscs_cells_of_valid {b : Board} (hb : b.WF) {row col : Int}
    (hp : b.isValidPosition row col = true) (color : Disc) :
    ∃ b1, b.flipDiscs row col color = some b1 ∧ b1.WF ∧ b1.size = b.size ∧
      ∀ x y : Int,
        (((x = row ∧ y = col) ∨ b.InFlippedRun row col color x y) →
          b1.getDisc x y = some color) ∧
        (¬ ((x = row ∧ y = col) ∨ b.InFlippedRun row col color x y) →
          b1.getDisc x y = b.getDisc x y) := by
  obtain ⟨b1, hf, hwf, hsz, hin, hout⟩ := flipDiscs_spec hb hp color
  refine ⟨b1, hf, hwf, hsz, fun x y => ⟨fun h => hin x y ?_, fun h => hout x y ?_⟩⟩
  · rw [inFlippedRun_iff hb] at h; exact h
  · rw [inFlippedRun_iff hb] at h; exact h

theorem isLegalMove_of_mem {b : Board} (hb : b.WF) {color : Disc} {moves : List (Int × Int)}
    (hm : b.getValidMoves color = some moves) {r c : Int} (h : (r, c) ∈ moves) :
    b.IsLegalMove color r c := by
  obtain ⟨moves2, hm2, hmem⟩ := getValidMoves_spec hb color
  rw [hm] at hm2
  cases hm2
  exact (hmem r c).1 h

end Board

/-- C1: on every well-formed board and for every colour (in particular Black and White,
whose opponent is the other colour), `getValidMoves` returns a list, and `(r, c)` is in it exactly
when the cell is in bounds and Empty and some direction has `k >= 1` opponent cells at steps
`1..k` followed by a cell of the mover's colour at step `k + 1`, all in bounds. -/
theorem getValidMoves_mem_iff_legal (b : Board) (hb : b.WF) (color : Disc) :
    ∃ moves, b.getValidMoves color = some moves ∧
      ∀ r c : Int, (r, c) ∈ moves ↔
        (b.isValidPosition r c = true ∧ b.getDisc r c = some Disc.EMPTY) ∧
          ∃ d ∈ directions, ∃ k : Nat, 1 ≤ k ∧
            (∀ i : Nat, 1 ≤ i → i ≤ k →
              b.isValidPosition (r + (i : Int) * d.1) (c + (i : Int) * d.2) = true ∧
                b.getDisc (r + (i : Int) * d.1) (c + (i : Int) * d.2) = some (opponentOf color)) ∧
            (b.isValidPosition (r + ((k + 1 : Nat) : Int) * d.1) (c + ((k + 1 : Nat) : Int) * d.2) = true ∧
              b.getDisc (r + ((k + 1 : Nat) : Int) * d.1) (c + ((k + 1 : Nat) : Int) * d.2) = some color) :=
  Board.getValidMoves_spec hb color

theorem getValidMoves_mem_iff_legal_witness :
    Board.fresh8.WF ∧
      ∃ moves, Board.fresh8.getValidMoves Disc.BLACK = some moves ∧
        ∀ r c : Int, (r, c) ∈ moves ↔ Board.fresh8.IsLegalMove Disc.BLACK r c :=
  ⟨Board.fresh8_wf, getValidMoves_mem_iff_legal Board.fresh8 Board.fresh8_wf Disc.BLACK⟩

theorem Board.fresh8_moves_black :
    Board.fresh8.getValidMoves Disc.BLACK = some [(2, 3), (3, 2), (4, 5), (5, 4)] := by decide

theorem Board.fresh8_legal_black : Board.fresh8.IsLegalMove Disc.BLACK 2 3 :=
  Board.isLegalMove_of_mem Board.fresh8_wf Board.fresh8_moves_black (by decide)

/-- C2: for a well-formed board, a colour (in particular Black or White) and a legal move `(row, col)`,
`flipDiscs` returns a board of the same size in which a cell holds `color` if it is `(row, col)` or
an opponent disc of a flippable run of the old board in one of the eight directions, and holds its
old value otherwise. -/
theorem flipDiscs_cells (b : Board) (hb : b.WF) (color : Disc) (row col : Int)
    (hlegal : b.IsLegalMove color row col) :
    ∃ b1, b.flipDiscs row col color = some b1 ∧ b1.WF ∧ b1.size = b.size ∧
      ∀ x y : Int,
        (((x = row ∧ y = col) ∨ b.InFlippedRun row col color x y) →
          b1.getDisc x y = some color) ∧
        (¬ ((x = row ∧ y = col) ∨ b.InFlippedRun row col color x y) →
          b1.getDisc x y = b.getDisc x y) :=
  Board.flipDiscs_cells_of_valid hb hlegal.1.1 color

theorem flipDiscs_cells_witness :
    Board.fresh8.WF ∧ Board.fresh8.IsLegalMove Disc.BLACK 2 3 ∧
      ∃ b1, Board.fresh8.flipDiscs 2 3 Disc.BLACK = some b1 ∧ b1.WF ∧ b1.size = Board.fresh8.size ∧
        ∀ x y : Int,
          (((x = 2 ∧ y = 3) ∨ Board.fresh8.InFlippedRun 2 3 Disc.BLACK x y) →
            b1.getDisc x y = some Disc.BLACK) ∧
          (¬ ((x = 2 ∧ y = 3) ∨ Board.fresh8.InFlippedRun 2 3 Disc.BLACK x y) →
            b1.getDisc x y = Board.fresh8.getDisc x y) :=
  ⟨Board.fresh8_wf, Board.fresh8_legal_black,
    flipDiscs_cells Board.fresh8 Board.fresh8_wf Disc.BLACK 2 3 Board.fresh8_legal_black⟩

/-- C3: on a game with a well-formed board, `makeMove(row, col)` returns normally for every pair
of integers; it returns true exactly when `(row, col)` is in `getValidMoves` of the current
player's colour, and when it returns false the game (board, current player, flag) is unchanged. -/
theorem makeMove_true_iff_valid (g : OthelloGame) (hb : g.board.WF) (row col : Int) :
    ∃ moves res g1, g.board.getValidMoves g.currentPlayer.getColor = some moves ∧
      g.makeMove row col = some (res, g1) ∧
      (res = true ↔ (row, col) ∈ moves) ∧
      (res = false → g1 = g) := by
  obtain ⟨moves, hm, hyes, hno⟩ := OthelloGame.makeMove_spec hb row col
  by_cases hin : (row, col) ∈ moves
  · obtain ⟨b1, -, -, hmk⟩ := hyes hin
    exact ⟨moves, true, _, hm, hmk, by simp [hin], fun h => by cases h⟩
  · exact ⟨moves, false, g, hm, hno hin, by simp [hin], fun _ => rfl⟩

theorem makeMove_true_iff_valid_witness :
    exampleStart.board.WF ∧
      ∃ moves res g1,
        exampleStart.board.getValidMoves exampleStart.currentPlayer.getColor = some moves ∧
        exampleStart.makeMove (-1) 9 = some (res, g1) ∧
        (res = true ↔ ((-1 : Int), (9 : Int)) ∈ moves) ∧
        (res = false → g1 = exampleStart) :=
  ⟨Board.fresh8_wf, makeMove_true_iff_valid exampleStart Board.fresh8_wf (-1) 9⟩

theorem exampleStart_new : OthelloGame.new exampleBlack exampleWhite = some exampleStart := by
  simp only [OthelloGame.new, Board.new_eight, exampleStart]

set_option maxRecDepth 100000 in
theorem exampleTerminal_run :
    exampleStart.run [Op.makeMove 2 3, Op.makeMove 5 5, Op.isGameOver] = some exampleTerminal := by
  decide

set_option maxRecDepth 100000 in
/-- C4 (the code at the failing input): on a new game Black's `makeMove(2, 3)` returns true and
White then has the legal moves (2,2), (2,4), (4,2), yet `getCurrentPlayer()` is still the Black
player and not the White one. -/
theorem makeMove_keeps_mover_example :
    (exampleStart.makeMove 2 3).map (fun r => r.1) = some true ∧
      (exampleStart.makeMove 2 3).bind (fun r => r.2.board.getValidMoves Disc.WHITE) =
        some [(2, 2), (2, 4), (4, 2)] ∧
      (exampleStart.makeMove 2 3).map (fun r => r.2.getCurrentPlayer) = some exampleStart.player1 ∧
      exampleStart.player1 ≠ exampleStart.player2 := by
  refine ⟨by decide, by decide, by decide, by decide⟩

/-- C5: in every game reached from `new OthelloGame(p1, p2)` (players of colour Black or White)
by a sequence of `makeMove`, `switchTurn`, `isGameOver`, `getWinner` and `reset` calls,
`isGameOver()` returns true exactly when neither Black nor White has a legal move on the board. -/
theorem isGameOver_iff_no_moves (p1 p2 : Player)
    (h1 : p1.color = Disc.BLACK ∨ p1.color = Disc.WHITE)
    (h2 : p2.color = Disc.BLACK ∨ p2.color = Disc.WHITE)
    (ops : List Op) (g0 g : OthelloGame) (hnew : OthelloGame.new p1 p2 = some g0)
    (hrun : g0.run ops = some g) :
    ∃ res g1, g.isGameOver = some (res, g1) ∧
      (res = true ↔
        g.board.getValidMoves Disc.BLACK = some [] ∧ g.board.getValidMoves Disc.WHITE = some []) := by
  obtain ⟨g0', hn, hinv0, -⟩ := OthelloGame.inv_new h1 h2
  rw [hnew] at hn
  cases hn
  obtain ⟨g', hr, hinv, -⟩ := OthelloGame.inv_run hinv0 ops
  rw [hrun] at hr
  cases hr
  cases hflag : g.gameOver with
  | true =>
    refine ⟨true, g, by simp only [OthelloGame.isGameOver, hflag, if_true], ?_⟩
    simp only [true_iff]
    exact hinv.2.2.2.2 hflag
  | false =>
    obtain ⟨res, hres, hiff⟩ := OthelloGame.isGameOver_spec hinv.1 hflag
    exact ⟨res, _, hres, hiff⟩

theorem isGameOver_iff_no_moves_witness :
    (exampleBlack.color = Disc.BLACK ∨ exampleBlack.color = Disc.WHITE) ∧
      (exampleWhite.color = Disc.BLACK ∨ exampleWhite.color = Disc.WHITE) ∧
      OthelloGame.new exampleBlack exampleWhite = some exampleStart ∧
      exampleStart.run [Op.makeMove 2 3, Op.makeMove 5 5, Op.isGameOver] = some exampleTerminal ∧
      ∃ res g1, exampleTerminal.isGameOver = some (res, g1) ∧
        (res = true ↔
          exampleTerminal.board.getValidMoves Disc.BLACK = some [] ∧
            exampleTerminal.board.getValidMoves Disc.WHITE = some []) :=
  ⟨Or.inl rfl, Or.inr rfl, exampleStart_new, exampleTerminal_run,
    isGameOver_iff_no_moves exampleBlack exampleWhite (Or.inl rfl) (Or.inr rfl) _ _ _
      exampleStart_new exampleTerminal_run⟩

namespace OthelloGame

theorem isGameOver_true {g g1 : OthelloGame} (h : g.isGameOver = some (true, g1)) :
    g1.gameOver = true ∧ g1.board = g.board := by
  unfold isGameOver at h
  split at h
  · rename_i hflag
    cases h
    exact ⟨hflag, rfl⟩
  · split at h
    · cases h
    · split at h
      · cases h
      · simp only [Option.some.injEq, Prod.mk.injEq] at h
        obtain ⟨h1, h2⟩ := h
        subst h2
        exact ⟨h1, rfl⟩

theorem flag_run_no_reset :
    ∀ (ops : List Op) (g : OthelloGame), g.board.WF → g.gameOver = true → Op.reset ∉ ops →
      ∃ g2, g.run ops = some g2 ∧ g2.board.WF ∧ g2.gameOver = true := by
  intro ops
  induction ops with
  | nil => intro g hb hf _; exact ⟨g, rfl, hb, hf⟩
  | cons op ops ih =>
    intro g hb hf hnr
    have hnr2 : Op.reset ∉ ops := fun h => hnr (List.mem_cons_of_mem _ h)
    have hstep : ∃ g1, g.step op = some g1 ∧ g1.board.WF ∧ g1.gameOver = true := by
      cases op with
      | makeMove row col =>
        obtain ⟨moves, -, hyes, hno⟩ := makeMove_spec hb row col
        by_cases hin : (row, col) ∈ moves
        · obtain ⟨b1, -, hwf1, hmk⟩ := hyes hin
          exact ⟨{ g with board := b1 }, by simp only [step, hmk, Option.map_some'], hwf1, hf⟩
        · exact ⟨g, by simp only [step, hno hin, Option.map_some'], hb, hf⟩
      | switchTurn => exact ⟨g.switchTurn, rfl, hb, hf⟩
      | isGameOver =>
        exact ⟨g, by simp only [step, isGameOver, hf, if_true, Option.map_some'], hb, hf⟩
      | getWinner => exact ⟨g, rfl, hb, hf⟩
      | reset => exact absurd (List.mem_cons_self _ _) hnr
    obtain ⟨g1, hs, hb1, hf1⟩ := hstep
    obtain ⟨g2, hr, hb2, hf2⟩ := ih g1 hb1 hf1 hnr2
    exact ⟨g2, by simp only [run, hs]; exact hr, hb2, hf2⟩

end OthelloGame

/-- C6: once `isGameOver()` has returned true on a game with a well-formed board, any sequence of
`makeMove`, `switchTurn`, `getWinner` and `isGameOver` calls (no `reset`) runs to completion and a
following `isGameOver()` returns true again, leaving the game as it is. -/
theorem isGameOver_monotonic (g g1 : OthelloGame) (hb : g.board.WF)
    (h : g.isGameOver = some (true, g1)) (ops : List Op) (hnr : Op.reset ∉ ops) :
    ∃ g2, g1.run ops = some g2 ∧ g2.isGameOver = some (true, g2) := by
  obtain ⟨hf, hbd⟩ := OthelloGame.isGameOver_true h
  obtain ⟨g2, hr, -, hf2⟩ := OthelloGame.flag_run_no_reset ops g1 (hbd ▸ hb) hf hnr
  exact ⟨g2, hr, by simp only [OthelloGame.isGameOver, hf2, if_true]⟩

set_option maxRecDepth 100000 in
theorem isGameOver_monotonic_witness :
    exampleUnchecked.board.WF ∧ exampleUnchecked.isGameOver = some (true, exampleTerminal) ∧
      Op.reset ∉ [Op.makeMove 0 0, Op.switchTurn, Op.getWinner, Op.isGameOver, Op.makeMove 2 4] ∧
      ∃ g2, exampleTerminal.run
          [Op.makeMove 0 0, Op.switchTurn, Op.getWinner, Op.isGameOver, Op.makeMove 2 4] = some g2 ∧
        g2.isGameOver = some (true, g2) :=
  ⟨by decide, by decide, by decide,
    isGameOver_monotonic exampleUnchecked exampleTerminal (by decide) (by decide) _ (by decide)⟩

/-- C7: in every game reached from `new OthelloGame(p1, p2)` (players of colour Black or White)
whose `_gameOver` flag is set, that is, on which `isGameOver()` has returned true since the last
`reset`, `makeMove(row, col)` returns false for every pair and leaves the game unchanged. -/
theorem makeMove_false_when_terminal (p1 p2 : Player)
    (h1 : p1.color = Disc.BLACK ∨ p1.color = Disc.WHITE)
    (h2 : p2.color = Disc.BLACK ∨ p2.color = Disc.WHITE)
    (ops : List Op) (g0 g : OthelloGame) (hnew : OthelloGame.new p1 p2 = some g0)
    (hrun : g0.run ops = some g) (hterm : g.gameOver = true) (row col : Int) :
    g.makeMove row col = some (false, g) := by
  obtain ⟨g0', hn, hinv0, -⟩ := OthelloGame.inv_new h1 h2
  rw [hnew] at hn
  cases hn
  obtain ⟨g', hr, hinv, -⟩ := OthelloGame.inv_run hinv0 ops
  rw [hrun] at hr
  cases hr
  exact OthelloGame.inv_makeMove_terminal hinv hterm row col

theorem makeMove_false_when_terminal_witness :
    (exampleBlack.color = Disc.BLACK ∨ exampleBlack.color = Disc.WHITE) ∧
      (exampleWhite.color = Disc.BLACK ∨ exampleWhite.color = Disc.WHITE) ∧
      OthelloGame.new exampleBlack exampleWhite = some exampleStart ∧
      exampleStart.run [Op.makeMove 2 3, Op.makeMove 5 5, Op.isGameOver] = some exampleTerminal ∧
      exampleTerminal.gameOver = true ∧
      exampleTerminal.makeMove 2 4 = some (false, exampleTerminal) :=
  ⟨Or.inl rfl, Or.inr rfl, exampleStart_new, exampleTerminal_run, rfl,
    makeMove_false_when_terminal exampleBlack exampleWhite (Or.inl rfl) (Or.inr rfl) _ _ _
      exampleStart_new exampleTerminal_run rfl 2 4⟩

/-- C8: when the two players have the colours Black and White (in either order), `getWinner()`
returns the player of colour Black if Black has more discs, the player of colour White if White
has more discs, and null (`none`) if the counts are equal. -/
theorem getWinner_spec (g : OthelloGame)
    (hcol : (g.player1.color = Disc.BLACK ∧ g.player2.color = Disc.WHITE) ∨
      (g.player1.color = Disc.WHITE ∧ g.player2.color = Disc.BLACK)) :
    (g.board.countDiscs Disc.BLACK > g.board.countDiscs Disc.WHITE →
      ∃ p, g.getWinner = some p ∧ p.color = Disc.BLACK ∧ (p = g.player1 ∨ p = g.player2)) ∧
    (g.board.countDiscs Disc.WHITE > g.board.countDiscs Disc.BLACK →
      ∃ p, g.getWinner = some p ∧ p.color = Disc.WHITE ∧ (p = g.player1 ∨ p = g.player2)) ∧
    (g.board.countDiscs Disc.BLACK = g.board.countDiscs Disc.WHITE → g.getWinner = none) := by
  refine ⟨fun h => ?_, fun h => ?_, fun h => ?_⟩
  · rcases hcol with ⟨c1, c2⟩ | ⟨c1, c2⟩
    · exact ⟨g.player1, by simp [OthelloGame.getWinner, h, Player.getColor, c1], c1, Or.inl rfl⟩
    · exact ⟨g.player2, by simp [OthelloGame.getWinner, h, Player.getColor, c1], c2, Or.inr rfl⟩
  · have hn : ¬ g.board.countDiscs Disc.BLACK > g.board.countDiscs Disc.WHITE := by omega
    rcases hcol with ⟨c1, c2⟩ | ⟨c1, c2⟩
    · exact ⟨g.player2, by simp [OthelloGame.getWinner, h, hn, Player.getColor, c1], c2, Or.inr rfl⟩
    · exact ⟨g.player1, by simp [OthelloGame.getWinner, h, hn, Player.getColor, c1], c1, Or.inl rfl⟩
  · simp [OthelloGame.getWinner, h]

theorem getWinner_spec_witness :
    ((example33Game.player1.color = Disc.BLACK ∧ example33Game.player2.color = Disc.WHITE) ∨
      (example33Game.player1.color = Disc.WHITE ∧ example33Game.player2.color = Disc.BLACK)) ∧
    example33Game.board.countDiscs Disc.BLACK = 33 ∧
    example33Game.board.countDiscs Disc.WHITE = 31 ∧
    ∃ p, example33Game.getWinner = some p ∧ p.color = Disc.BLACK ∧
      (p = example33Game.player1 ∨ p = example33Game.player2) :=
  ⟨Or.inl ⟨rfl, rfl⟩, by decide, by decide,
    (getWinner_spec example33Game (Or.inl ⟨rfl, rfl⟩)).1 (by decide)⟩

theorem Board.fresh8_moves_white :
    Board.fresh8.getValidMoves Disc.WHITE = some [(2, 4), (3, 5), (4, 2), (5, 3)] := by decide

/-- C9: from every game, `reset()` returns normally; afterwards the board is the fresh 8x8 board
of `new Board()`, the current player is player 1, the flag is cleared and `isGameOver()` returns
false, and the two player fields are unchanged. -/
theorem reset_spec (g : OthelloGame) :
    ∃ g1, g.reset = some g1 ∧ Board.new 8 = some g1.board ∧ g1.board = Board.fresh8 ∧
      g1.getCurrentPlayer = g.player1 ∧ g1.gameOver = false ∧
      g1.isGameOver = some (false, g1) ∧ g1.player1 = g.player1 ∧ g1.player2 = g.player2 := by
  refine ⟨{ g with board := Board.fresh8, currentPlayer := g.player1, gameOver := false }, ?_,
    Board.new_eight, rfl, rfl, rfl, ?_, rfl, rfl⟩
  · simp only [OthelloGame.reset, Board.new_eight]
  · simp [OthelloGame.isGameOver, Board.fresh8_moves_black, Board.fresh8_moves_white]

/-- C10: for a well-formed board, a colour Black or White and a legal move `(row, col)`,
`flipDiscs` returns a board with one empty cell less and one disc (Black plus White) more, and
every cell other than `(row, col)` is empty afterwards exactly if it was empty before. -/
theorem flipDiscs_adds_one_disc (b : Board) (hb : b.WF) (color : Disc)
    (hc : color = Disc.BLACK ∨ color = Disc.WHITE) (row col : Int)
    (hlegal : b.IsLegalMove color row col) :
    ∃ b1, b.flipDiscs row col color = some b1 ∧
      b1.countDiscs Disc.EMPTY + 1 = b.countDiscs Disc.EMPTY ∧
      b1.countDiscs Disc.BLACK + b1.countDiscs Disc.WHITE =
        b.countDiscs Disc.BLACK + b.countDiscs Disc.WHITE + 1 ∧
      ∀ x y : Int, ¬ (x = row ∧ y = col) →
        (b1.getDisc x y = some Disc.EMPTY ↔ b.getDisc x y = some Disc.EMPTY) := by
  have hne : color ≠ Disc.EMPTY := by rcases hc with h | h <;> rw [h] <;> decide
  obtain ⟨b1, hf, hwf, hsz, hcells⟩ := Board.flipDiscs_cells_of_valid hb hlegal.1.1 color
  have he := Board.flipDiscs_count_empty hne hlegal.1.2 hf
  have t0 := Board.countDiscs_total hb
  have t1 := Board.countDiscs_total hwf
  rw [hsz] at t1
  refine ⟨b1, hf, he, by omega, fun x y hxy => ?_⟩
  by_cases hin : b.InFlippedRun row col color x y
  · rw [(hcells x y).1 (Or.inr hin)]
    obtain ⟨d, -, k, hrun, i, hi1, hi2, hx, hy⟩ := hin
    have := (hrun.2.1 i hi1 hi2).2
    rw [← hx, ← hy] at this
    rw [this]
    simp only [Option.some.injEq]
    exact ⟨fun h => absurd h hne, fun h => absurd h (Board.opponentOf_ne_empty color)⟩
  · rw [(hcells x y).2 (fun h => h.elim hxy hin)]

theorem flipDiscs_adds_one_disc_witness :
    Board.fresh8.WF ∧ (Disc.BLACK = Disc.BLACK ∨ Disc.BLACK = Disc.WHITE) ∧
      Board.fresh8.IsLegalMove Disc.BLACK 2 3 ∧
      ∃ b1, Board.fresh8.flipDiscs 2 3 Disc.BLACK = some b1 ∧
        b1.countDiscs Disc.EMPTY + 1 = Board.fresh8.countDiscs Disc.EMPTY ∧
        b1.countDiscs Disc.BLACK + b1.countDiscs Disc.WHITE =
          Board.fresh8.countDiscs Disc.BLACK + Board.fresh8.countDiscs Disc.WHITE + 1 ∧
        ∀ x y : Int, ¬ (x = 2 ∧ y = 3) →
          (b1.getDisc x y = some Disc.EMPTY ↔ Board.fresh8.getDisc x y = some Disc.EMPTY) :=
  ⟨Board.fresh8_wf, Or.inl rfl, Board.fresh8_legal_black,
    flipDiscs_adds_one_disc Board.fresh8 Board.fresh8_wf Disc.BLACK (Or.inl rfl) 2 3
      Board.fresh8_legal_black⟩

namespace Board

theorem getDisc_none_of_invalid {b : Board} (hb : b.WF) {r c : Int}
    (hv : ¬ b.isValidPosition r c = true) : b.getDisc r c = none := by
  cases h : b.getDisc r c with
  | none => rfl
  | some d => exact absurd (valid_of_getDisc hb h) hv

theorem blank_wf (n : Nat) :
    (Board.mk n (List.replicate n (List.replicate n Disc.EMPTY))).WF := by
  refine ⟨by simp, ?_⟩
  intro row hrow
  rw [(List.mem_replicate.1 hrow).2]
  simp

theorem blank_getDisc (n : Nat) {r c : Int}
    (hv : (Board.mk n (List.replicate n (List.replicate n Disc.EMPTY))).isValidPosition r c = true) :
    (Board.mk n (List.replicate n (List.replicate n Disc.EMPTY))).getDisc r c =
      some Disc.EMPTY := by
  rw [isValidPosition_iff] at hv
  obtain ⟨h1, h2, h3, h4⟩ := hv
  simp only at h2 h4
  have hr : r.toNat < n := by omega
  have hc : c.toNat < n := by omega
  simp [getDisc, h1, h3, List.getElem?_replicate, hr, hc]

theorem blank_count (n : Nat) :
    (Board.mk n (List.replicate n (List.replicate n Disc.EMPTY))).countDiscs Disc.BLACK = 0 ∧
    (Board.mk n (List.replicate n (List.replicate n Disc.EMPTY))).countDiscs Disc.WHITE = 0 ∧
    (Board.mk n (List.replicate n (List.replicate n Disc.EMPTY))).countDiscs Disc.EMPTY = n * n := by
  have hB : (Board.mk n (List.replicate n (List.replicate n Disc.EMPTY))).countDiscs Disc.BLACK = 0 := by
    simp [countDiscs, List.filter_replicate]
  have hW : (Board.mk n (List.replicate n (List.replicate n Disc.EMPTY))).countDiscs Disc.WHITE = 0 := by
    simp [countDiscs, List.filter_replicate]
  have := countDiscs_total (blank_wf n)
  simp only at this
  exact ⟨hB, hW, by omega⟩

/-- What `new Board(n)` builds for `n >= 2`, with `m = floor(n / 2)`. -/
theorem new_spec {n : Nat} (hn : 2 ≤ n) :
    ∃ b, Board.new n = some b ∧ b.WF ∧ b.size = n ∧
      (∀ x y : Int, b.getDisc x y =
        if (x = ((n / 2 : Nat) : Int) ∧ y = ((n / 2 : Nat) : Int)) then some Disc.WHITE
        else if (x = ((n / 2 : Nat) : Int) ∧ y = ((n / 2 : Nat) : Int) - 1) then some Disc.BLACK
        else if (x = ((n / 2 : Nat) : Int) - 1 ∧ y = ((n / 2 : Nat) : Int)) then some Disc.BLACK
        else if (x = ((n / 2 : Nat) : Int) - 1 ∧ y = ((n / 2 : Nat) : Int) - 1) then
          some Disc.WHITE
        else if b.isValidPosition x y = true then some Disc.EMPTY else none) ∧
      b.countDiscs Disc.BLACK = 2 ∧ b.countDiscs Disc.WHITE = 2 ∧
      b.countDiscs Disc.EMPTY + 4 = n * n := by
  have hb0 := blank_wf n
  have hv : ∀ x y : Int, 0 ≤ x → x < n → 0 ≤ y → y < n → ∀ b : Board, b.size = n →
      b.isValidPosition x y = true := by
    intro x y h1 h2 h3 h4 b hs
    rw [isValidPosition_iff, hs]; exact ⟨h1, h2, h3, h4⟩
  have hm1 : (0 : Int) ≤ ((n / 2 : Nat) : Int) - 1 := by omega
  have hm2 : ((n / 2 : Nat) : Int) < n := by omega
  obtain ⟨b1, hs1, hwf1, hsz1, hg1⟩ := setDisc_spec hb0
    (hv _ _ hm1 (by omega) hm1 (by omega) _ rfl) Disc.WHITE
  obtain ⟨b2, hs2, hwf2, hsz2, hg2⟩ := setDisc_spec hwf1
    (hv _ _ hm1 (by omega) (by omega) hm2 b1 hsz1) Disc.BLACK
  obtain ⟨b3, hs3, hwf3, hsz3, hg3⟩ := setDisc_spec hwf2
    (hv _ _ (by omega) hm2 hm1 (by omega) b2 (hsz2.trans hsz1)) Disc.BLACK
  obtain ⟨b4, hs4, hwf4, hsz4, hg4⟩ := setDisc_spec hwf3
    (hv _ _ (by omega) hm2 (by omega) hm2 b3 (hsz3.trans (hsz2.trans hsz1))) Disc.WHITE
  have hsize : b4.size = n := hsz4.trans (hsz3.trans (hsz2.trans hsz1))
  have hblank : ∀ x y : Int,
      (Board.mk n (List.replicate n (List.replicate n Disc.EMPTY))).getDisc x y =
        if b4.isValidPosition x y = true then some Disc.EMPTY else none := by
    intro x y
    by_cases hxy : b4.isValidPosition x y = true
    · rw [if_pos hxy]
      apply blank_getDisc
      rw [isValidPosition_iff] at hxy ⊢
      rw [hsize] at hxy
      exact hxy
    · rw [if_neg hxy]
      apply getDisc_none_of_invalid hb0
      rw [isValidPosition_iff] at hxy ⊢
      rw [hsize] at hxy
      exact hxy
  have hcells : ∀ x y : Int, b4.getDisc x y =
        if (x = ((n / 2 : Nat) : Int) ∧ y = ((n / 2 : Nat) : Int)) then some Disc.WHITE
        else if (x = ((n / 2 : Nat) : Int) ∧ y = ((n / 2 : Nat) : Int) - 1) then some Disc.BLACK
        else if (x = ((n / 2 : Nat) : Int) - 1 ∧ y = ((n / 2 : Nat) : Int)) then some Disc.BLACK
        else if (x = ((n / 2 : Nat) : Int) - 1 ∧ y = ((n / 2 : Nat) : Int) - 1) then
          some Disc.WHITE
        else if b4.isValidPosition x y = true then some Disc.EMPTY else none := by
    intro x y
    rw [hg4, hg3, hg2, hg1, hblank]
  have c1 := setDisc_count hs1 (blank_getDisc n (hv _ _ hm1 (by omega) hm1 (by omega) _ rfl))
  have o2 : b1.getDisc (((n / 2 : Nat) : Int) - 1) ((n / 2 : Nat) : Int) = some Disc.EMPTY := by
    rw [hg1, if_neg (by omega)]
    exact blank_getDisc n (hv _ _ hm1 (by omega) (by omega) hm2 _ rfl)
  have c2 := setDisc_count hs2 o2
  have o3 : b2.getDisc ((n / 2 : Nat) : Int) (((n / 2 : Nat) : Int) - 1) = some Disc.EMPTY := by
    rw [hg2, if_neg (by omega), hg1, if_neg (by omega)]
    exact blank_getDisc n (hv _ _ (by omega) hm2 hm1 (by omega) _ rfl)
  have c3 := setDisc_count hs3 o3
  have o4 : b3.getDisc ((n / 2 : Nat) : Int) ((n / 2 : Nat) : Int) = some Disc.EMPTY := by
    rw [hg3, if_neg (by omega), hg2, if_neg (by omega), hg1, if_neg (by omega)]
    exact blank_getDisc n (hv _ _ (by omega) hm2 (by omega) hm2 _ rfl)
  have c4 := setDisc_count hs4 o4
  obtain ⟨k1, k2, k3⟩ := blank_count n
  have eB := c1 Disc.BLACK
  have eB2 := c2 Disc.BLACK
  have eB3 := c3 Disc.BLACK
  have eB4 := c4 Disc.BLACK
  have eW := c1 Disc.WHITE
  have eW2 := c2 Disc.WHITE
  have eW3 := c3 Disc.WHITE
  have eW4 := c4 Disc.WHITE
  have eE := c1 Disc.EMPTY
  have eE2 := c2 Disc.EMPTY
  have eE3 := c3 Disc.EMPTY
  have eE4 := c4 Disc.EMPTY
  simp only [reduceCtorEq, if_false, if_true] at eB eB2 eB3 eB4 eW eW2 eW3 eW4 eE eE2 eE3 eE4
  refine ⟨b4, ?_, hwf4, hsize, hcells, by omega, by omega, by omega⟩
  simp only [Board.new, _initializeBoard, hs1, hs2, hs3, hs4]

theorem flipSeq_spec :
    ∀ (calls : List (Int × Int × Disc)) (b : Board), b.WF →
      (∀ call ∈ calls, 0 ≤ call.1 ∧ call.1 < b.size ∧ 0 ≤ call.2.1 ∧ call.2.1 < b.size) →
      ∃ b1, b.flipSeq calls = some b1 ∧ b1.WF ∧ b1.size = b.size := by
  intro calls
  induction calls with
  | nil => intro b hb _; exact ⟨b, rfl, hb, rfl⟩
  | cons call rest ih =>
    intro b hb hcalls
    obtain ⟨row, col, color⟩ := call
    have hv : b.isValidPosition row col = true := by
      rw [isValidPosition_iff]
      exact hcalls (row, col, color) (List.mem_cons_self _ _)
    obtain ⟨b1, hf, hinv⟩ := flipDiscs_spec hb hv color
    obtain ⟨b2, hr, hwf2, hsz2⟩ := ih b1 hinv.1 (fun call hc => by
      rw [hinv.2.1]; exact hcalls call (List.mem_cons_of_mem _ hc))
    exact ⟨b2, by simp only [flipSeq, hf]; exact hr, hwf2, hsz2.trans hinv.2.1⟩

end Board

/-- C11: for `size >= 2` and every sequence of `flipDiscs` calls with in-bounds positions (and
any colours, in particular Black or White), `new Board(size)` and all the calls return normally,
every in-bounds cell of the resulting board holds one of Empty, Black, White, and
`countDiscs(Black) + countDiscs(White) + countDiscs(Empty) = size * size`. -/
theorem countDiscs_sum_reachable (size : Nat) (hsize : 2 ≤ size)
    (calls : List (Int × Int × Disc))
    (hcalls : ∀ call ∈ calls, 0 ≤ call.1 ∧ call.1 < size ∧ 0 ≤ call.2.1 ∧ call.2.1 < size) :
    ∃ b0 b, Board.new size = some b0 ∧ b0.flipSeq calls = some b ∧ b.size = size ∧
      (∀ x y : Int, b.isValidPosition x y = true →
        b.getDisc x y = some Disc.EMPTY ∨ b.getDisc x y = some Disc.BLACK ∨
          b.getDisc x y = some Disc.WHITE) ∧
      b.countDiscs Disc.BLACK + b.countDiscs Disc.WHITE + b.countDiscs Disc.EMPTY = size * size := by
  obtain ⟨b0, hnew, hwf0, hsz0, -⟩ := Board.new_spec hsize
  obtain ⟨b, hseq, hwf, hsz⟩ := Board.flipSeq_spec calls b0 hwf0 (by rw [hsz0]; exact hcalls)
  have htot := Board.countDiscs_total hwf
  rw [hsz, hsz0] at htot
  refine ⟨b0, b, hnew, hseq, hsz.trans hsz0, ?_, by omega⟩
  intro x y hv
  obtain ⟨d, hd⟩ := Board.getDisc_of_valid hwf hv
  rw [hd]
  cases d <;> simp

set_option maxRecDepth 100000 in
theorem countDiscs_sum_reachable_witness :
    2 ≤ 8 ∧
      (∀ call ∈ [((2 : Int), (3 : Int), Disc.BLACK), (2, 2, Disc.WHITE), (0, 0, Disc.BLACK)],
        0 ≤ call.1 ∧ call.1 < ((8 : Nat) : Int) ∧ 0 ≤ call.2.1 ∧ call.2.1 < ((8 : Nat) : Int)) ∧
      ∃ b0 b, Board.new 8 = some b0 ∧
        b0.flipSeq [(2, 3, Disc.BLACK), (2, 2, Disc.WHITE), (0, 0, Disc.BLACK)] = some b ∧
        b.size = 8 ∧
        (∀ x y : Int, b.isValidPosition x y = true →
          b.getDisc x y = some Disc.EMPTY ∨ b.getDisc x y = some Disc.BLACK ∨
            b.getDisc x y = some Disc.WHITE) ∧
        b.countDiscs Disc.BLACK + b.countDiscs Disc.WHITE + b.countDiscs Disc.EMPTY = 8 * 8 :=
  ⟨by decide, by decide,
    countDiscs_sum_reachable 8 (by decide)
      [(2, 3, Disc.BLACK), (2, 2, Disc.WHITE), (0, 0, Disc.BLACK)] (by decide)⟩

/-- C12: on the board of `new Board()` (size 8) `getValidMoves(Black)` returns exactly the list
(2,3), (3,2), (4,5), (5,4) of (row, col) pairs. -/
theorem fresh_board_black_moves :
    ∃ b, Board.new 8 = some b ∧
      b.getValidMoves Disc.BLACK = some [(2, 3), (3, 2), (4, 5), (5, 4)] ∧
      ∀ r c : Int, b.IsLegalMove Disc.BLACK r c ↔
        (r = 2 ∧ c = 3) ∨ (r = 3 ∧ c = 2) ∨ (r = 4 ∧ c = 5) ∨ (r = 5 ∧ c = 4) := by
  refine ⟨Board.fresh8, Board.new_eight, Board.fresh8_moves_black, fun r c => ?_⟩
  obtain ⟨moves, hm, hmem⟩ := Board.getValidMoves_spec Board.fresh8_wf Disc.BLACK
  rw [Board.fresh8_moves_black] at hm
  cases hm
  rw [← hmem r c]
  simp

set_option maxRecDepth 100000 in
theorem Board.fresh8_first_move :
    Board.fresh8.flipDiscs 2 3 Disc.BLACK = some Board.exampleAfterFirstMove := by decide

theorem Board.exampleAfterFirstMove_wf : Board.exampleAfterFirstMove.WF := by decide

set_option maxRecDepth 100000 in
theorem Board.first_move_other_cells (x y : Int) (h1 : ¬ (x = 2 ∧ y = 3))
    (h2 : ¬ (x = 3 ∧ y = 3)) :
    Board.exampleAfterFirstMove.getDisc x y = Board.fresh8.getDisc x y := by
  by_cases hv : Board.fresh8.isValidPosition x y = true
  · rw [Board.isValidPosition_iff] at hv
    obtain ⟨hx1, hx2, hy1, hy2⟩ := hv
    have hx3 : x < 8 := hx2
    have hy3 : y < 8 := hy2
    interval_cases x <;> interval_cases y <;> first | rfl | (exfalso; simp at h1 h2)
  · have hv2 : ¬ Board.exampleAfterFirstMove.isValidPosition x y = true := hv
    rw [Board.getDisc_none_of_invalid Board.fresh8_wf hv,
      Board.getDisc_none_of_invalid Board.exampleAfterFirstMove_wf hv2]

set_option maxRecDepth 100000 in
/-- C13: on the fresh 8x8 board Black's move at (2,3), through `flipDiscs(2, 3, Black)` or
`makeMove(2, 3)` on a new game, changes exactly the two cells (2,3), from Empty to Black, and
(3,3), from White to Black, and leaves `countDiscs(Black) = 4` and `countDiscs(White) = 1`. -/
theorem first_move_two_three :
    ∃ b0 b1, Board.new 8 = some b0 ∧ b0.flipDiscs 2 3 Disc.BLACK = some b1 ∧
      (exampleStart.makeMove 2 3).map (fun r => (r.1, r.2.board)) = some (true, b1) ∧
      b0.getDisc 2 3 = some Disc.EMPTY ∧ b1.getDisc 2 3 = some Disc.BLACK ∧
      b0.getDisc 3 3 = some Disc.WHITE ∧ b1.getDisc 3 3 = some Disc.BLACK ∧
      (∀ x y : Int, ¬ (x = 2 ∧ y = 3) → ¬ (x = 3 ∧ y = 3) → b1.getDisc x y = b0.getDisc x y) ∧
      b1.countDiscs Disc.BLACK = 4 ∧ b1.countDiscs Disc.WHITE = 1 :=
  ⟨Board.fresh8, Board.exampleAfterFirstMove, Board.new_eight, Board.fresh8_first_move,
    by decide, by decide, by decide, by decide, by decide, Board.first_move_other_cells,
    by decide, by decide⟩

/-- C14: for every `n >= 2`, `new Board(n)` returns a board of size `n` whose cells, with
`m = floor(n / 2)`, are White at `(m-1, m-1)` and `(m, m)`, Black at `(m-1, m)` and `(m, m-1)`
(all four in bounds) and Empty everywhere else, so that there are 2 black, 2 white and
`n * n - 4` empty cells; for `n = 8` these are (3,3), (4,4) White and (3,4), (4,3) Black with
counts 2, 2 and 60. -/
theorem new_board_cells (n : Nat) (hn : 2 ≤ n) :
    ∃ b, Board.new n = some b ∧ b.size = n ∧
      b.Holds (((n / 2 : Nat) : Int) - 1) (((n / 2 : Nat) : Int) - 1) Disc.WHITE ∧
      b.Holds ((n / 2 : Nat) : Int) ((n / 2 : Nat) : Int) Disc.WHITE ∧
      b.Holds (((n / 2 : Nat) : Int) - 1) ((n / 2 : Nat) : Int) Disc.BLACK ∧
      b.Holds ((n / 2 : Nat) : Int) (((n / 2 : Nat) : Int) - 1) Disc.BLACK ∧
      (∀ x y : Int, b.isValidPosition x y = true →
        ¬ (x = ((n / 2 : Nat) : Int) - 1 ∧ y = ((n / 2 : Nat) : Int) - 1) →
        ¬ (x = ((n / 2 : Nat) : Int) ∧ y = ((n / 2 : Nat) : Int)) →
        ¬ (x = ((n / 2 : Nat) : Int) - 1 ∧ y = ((n / 2 : Nat) : Int)) →
        ¬ (x = ((n / 2 : Nat) : Int) ∧ y = ((n / 2 : Nat) : Int) - 1) →
        b.getDisc x y = some Disc.EMPTY) ∧
      b.countDiscs Disc.BLACK = 2 ∧ b.countDiscs Disc.WHITE = 2 ∧
      b.countDiscs Disc.EMPTY + 4 = n * n ∧
      (n = 8 → b.getDisc 3 3 = some Disc.WHITE ∧ b.getDisc 4 4 = some Disc.WHITE ∧
        b.getDisc 3 4 = some Disc.BLACK ∧ b.getDisc 4 3 = some Disc.BLACK ∧
        b.countDiscs Disc.EMPTY = 60) := by
  obtain ⟨b, hnew, hwf, hsz, hcells, cB, cW, cE⟩ := Board.new_spec hn
  have h1 : b.getDisc (((n / 2 : Nat) : Int) - 1) (((n / 2 : Nat) : Int) - 1) = some Disc.WHITE := by
    rw [hcells, if_neg (by omega), if_neg (by omega), if_neg (by omega), if_pos ⟨rfl, rfl⟩]
  have h2 : b.getDisc ((n / 2 : Nat) : Int) ((n / 2 : Nat) : Int) = some Disc.WHITE := by
    rw [hcells, if_pos ⟨rfl, rfl⟩]
  have h3 : b.getDisc (((n / 2 : Nat) : Int) - 1) ((n / 2 : Nat) : Int) = some Disc.BLACK := by
    rw [hcells, if_neg (by omega), if_neg (by omega), if_pos ⟨rfl, rfl⟩]
  have h4 : b.getDisc ((n / 2 : Nat) : Int) (((n / 2 : Nat) : Int) - 1) = some Disc.BLACK := by
    rw [hcells, if_neg (by omega), if_pos ⟨rfl, rfl⟩]
  refine ⟨b, hnew, hsz, (Board.holds_iff hwf).2 h1, (Board.holds_iff hwf).2 h2,
    (Board.holds_iff hwf).2 h3, (Board.holds_iff hwf).2 h4, ?_, cB, cW, cE, ?_⟩
  · intro x y hv n1 n2 n3 n4
    rw [hcells, if_neg n2, if_neg n4, if_neg n3, if_neg n1, if_pos hv]
  · intro h8
    subst h8
    exact ⟨h1, h2, h3, h4, by omega⟩

theorem new_board_cells_witness :
    2 ≤ 8 ∧ ∃ b, Board.new 8 = some b ∧ b.size = 8 ∧
      b.Holds 3 3 Disc.WHITE ∧ b.Holds 4 4 Disc.WHITE ∧ b.Holds 3 4 Disc.BLACK ∧
      b.Holds 4 3 Disc.BLACK ∧
      (∀ x y : Int, b.isValidPosition x y = true →
        ¬ (x = 3 ∧ y = 3) → ¬ (x = 4 ∧ y = 4) → ¬ (x = 3 ∧ y = 4) → ¬ (x = 4 ∧ y = 3) →
        b.getDisc x y = some Disc.EMPTY) ∧
      b.countDiscs Disc.BLACK = 2 ∧ b.countDiscs Disc.WHITE = 2 ∧
      b.countDiscs Disc.EMPTY + 4 = 8 * 8 ∧
      (8 = 8 → b.getDisc 3 3 = some Disc.WHITE ∧ b.getDisc 4 4 = some Disc.WHITE ∧
        b.getDisc 3 4 = some Disc.BLACK ∧ b.getDisc 4 3 = some Disc.BLACK ∧
        b.countDiscs Disc.EMPTY = 60) :=
  ⟨by decide, new_board_cells 8 (by decide)⟩

namespace Board

theorem getValidMoves_sorted {b : Board} (hb : b.WF) (color : Disc) :
    ∃ moves, b.getValidMoves color = some moves ∧ moves.Pairwise RowMajorLt := by
  refine ⟨_, getValidMoves_eq hb color, ?_⟩
  rw [List.pairwise_flatMap]
  constructor
  · intro row _
    rw [List.pairwise_map]
    apply List.Pairwise.filter
    exact List.Pairwise.imp (fun {c1 c2 : Nat} (h : c1 < c2) =>
      Or.inr ⟨rfl, Int.ofNat_lt.2 h⟩) (List.pairwise_lt_range _)
  · refine List.Pairwise.imp ?_ (List.pairwise_lt_range _)
    intro r1 r2 h x hx y hy
    obtain ⟨c1, -, rfl⟩ := List.mem_map.1 hx
    obtain ⟨c2, -, rfl⟩ := List.mem_map.1 hy
    exact Or.inl (Int.ofNat_lt.2 h)

end Board

theorem rowMajorLt_irrefl (p : Int × Int) : ¬ RowMajorLt p p := by
  unfold RowMajorLt; omega

theorem rowMajorLt_asymm {p q : Int × Int} (h : RowMajorLt p q) : ¬ RowMajorLt q p := by
  unfold RowMajorLt at *; omega

/-- In a list sorted by `RowMajorLt`, a member smaller than `m` stands before `m`. -/
theorem mem_prefix_of_sorted {l1 l2 : List (Int × Int)} {m x : Int × Int}
    (hs : (l1 ++ m :: l2).Pairwise RowMajorLt) (hx : x ∈ l1 ++ m :: l2)
    (hlt : RowMajorLt x m) : x ∈ l1 := by
  rw [List.pairwise_append] at hs
  obtain ⟨-, h2, -⟩ := hs
  rcases List.mem_append.1 hx with h | h
  · exact h
  · rcases List.mem_cons.1 h with h | h
    · subst h; exact absurd hlt (rowMajorLt_irrefl _)
    · exact absurd hlt (rowMajorLt_asymm ((List.pairwise_cons.1 h2).1 x h))

/-- In a list sorted by `RowMajorLt`, the members after `m` are larger than `m`. -/
theorem lt_of_sorted_suffix {l1 l2 : List (Int × Int)} {m x : Int × Int}
    (hs : (l1 ++ m :: l2).Pairwise RowMajorLt) (hx : x ∈ l2) : RowMajorLt m x := by
  rw [List.pairwise_append] at hs
  exact (List.pairwise_cons.1 hs.2.1).1 x hx

namespace CPUPlayer

theorem corner_test_iff (row col : Int) :
    corners.any (fun cr => decide (cr.1 = row) && decide (cr.2 = col)) = true ↔
      (row, col) ∈ corners := by
  rw [List.any_eq_true]
  constructor
  · rintro ⟨⟨a, b⟩, hm, h⟩
    simp only [Bool.and_eq_true, decide_eq_true_eq] at h
    obtain ⟨rfl, rfl⟩ := h
    exact hm
  · intro h
    exact ⟨(row, col), h, by simp⟩

theorem firstCorner_spec :
    ∀ l : List (Int × Int),
      (firstCorner l = none ∧ ∀ x ∈ l, x ∉ corners) ∨
      (∃ l1 m l2, l = l1 ++ m :: l2 ∧ firstCorner l = some m ∧ m ∈ corners ∧
        ∀ x ∈ l1, x ∉ corners) := by
  intro l
  induction l with
  | nil => exact Or.inl ⟨rfl, fun x h => absurd h (List.not_mem_nil x)⟩
  | cons a rest ih =>
    obtain ⟨row, col⟩ := a
    by_cases hc : (row, col) ∈ corners
    · refine Or.inr ⟨[], (row, col), rest, rfl, ?_, hc, fun x h => absurd h (List.not_mem_nil x)⟩
      simp only [firstCorner, (corner_test_iff row col).2 hc, if_true]
    · have hf : firstCorner ((row, col) :: rest) = firstCorner rest := by
        have : ¬ corners.any (fun cr => decide (cr.1 = row) && decide (cr.2 = col)) = true :=
          fun h => hc ((corner_test_iff row col).1 h)
        rw [firstCorner, if_neg this]
      rcases ih with ⟨h1, h2⟩ | ⟨l1, m, l2, h1, h2, h3, h4⟩
      · refine Or.inl ⟨hf.trans h1, ?_⟩
        intro x hx
        rcases List.mem_cons.1 hx with h | h
        · subst h; exact hc
        · exact h2 x h
      · refine Or.inr ⟨(row, col) :: l1, m, l2, by rw [h1]; rfl, hf.trans h2, h3, ?_⟩
        intro x hx
        rcases List.mem_cons.1 hx with h | h
        · subst h; exact hc
        · exact h4 x h

theorem bestLoop_spec (board : Board) :
    ∀ (l : List (Int × Int)) (bestMove : Option (Int × Int)) (bestScore : Int),
      (bestLoop board l bestMove bestScore = bestMove ∧
        ∀ x ∈ l, _evaluateMove board x.1 x.2 ≤ bestScore) ∨
      (∃ l1 m l2, l = l1 ++ m :: l2 ∧ bestLoop board l bestMove bestScore = some m ∧
        bestScore < _evaluateMove board m.1 m.2 ∧
        (∀ x ∈ l1, _evaluateMove board x.1 x.2 < _evaluateMove board m.1 m.2) ∧
        (∀ x ∈ l2, _evaluateMove board x.1 x.2 ≤ _evaluateMove board m.1 m.2)) := by
  intro l
  induction l with
  | nil => intro bm bs; exact Or.inl ⟨rfl, fun x h => absurd h (List.not_mem_nil x)⟩
  | cons a rest ih =>
    intro bm bs
    obtain ⟨row, col⟩ := a
    by_cases hgt : _evaluateMove board row col > bs
    · have hf : bestLoop board ((row, col) :: rest) bm bs =
          bestLoop board rest (some (row, col)) (_evaluateMove board row col) := by
        simp only [bestLoop, hgt, if_true]
      rcases ih (some (row, col)) (_evaluateMove board row col) with
        ⟨h1, h2⟩ | ⟨l1, m, l2, h1, h2, h3, h4, h5⟩
      · exact Or.inr ⟨[], (row, col), rest, rfl, hf.trans h1, hgt, fun x h => absurd h (List.not_mem_nil x), h2⟩
      · refine Or.inr ⟨(row, col) :: l1, m, l2, by rw [h1]; rfl, hf.trans h2, by omega, ?_, h5⟩
        intro x hx
        rcases List.mem_cons.1 hx with h | h
        · subst h; exact h3
        · exact h4 x h
    · have hf : bestLoop board ((row, col) :: rest) bm bs = bestLoop board rest bm bs := by
        simp only [bestLoop, hgt, if_false]
      rcases ih bm bs with ⟨h1, h2⟩ | ⟨l1, m, l2, h1, h2, h3, h4, h5⟩
      · refine Or.inl ⟨hf.trans h1, ?_⟩
        intro x hx
        rcases List.mem_cons.1 hx with h | h
        · subst h; simp only; omega
        · exact h2 x h
      · refine Or.inr ⟨(row, col) :: l1, m, l2, by rw [h1]; rfl, hf.trans h2, h3, ?_, h5⟩
        intro x hx
        rcases List.mem_cons.1 hx with h | h
        · subst h; simp only; omega
        · exact h4 x h

theorem evaluateMove_pos (board : Board) (row col : Int) : 1 ≤ _evaluateMove board row col := by
  unfold _evaluateMove
  split
  · omega
  · split
    · omega
    · split <;> omega

/-- What `getMove` returns on a well-formed board, by the three cases of its body. -/
theorem getMove_spec (p : Player) {b : Board} (hb : b.WF) :
    ∃ moves, b.getValidMoves p.color = some moves ∧ moves.Pairwise RowMajorLt ∧
      ((moves = [] ∧ getMove p b = some none) ∨
       (∃ l1 m l2, moves = l1 ++ m :: l2 ∧ getMove p b = some (some m) ∧ m ∈ corners ∧
          ∀ x ∈ l1, x ∉ corners) ∨
       (∃ l1 m l2, moves = l1 ++ m :: l2 ∧ getMove p b = some (some m) ∧
          (∀ x ∈ moves, x ∉ corners) ∧
          (∀ x ∈ l1, _evaluateMove b x.1 x.2 < _evaluateMove b m.1 m.2) ∧
          (∀ x ∈ l2, _evaluateMove b x.1 x.2 ≤ _evaluateMove b m.1 m.2))) := by
  obtain ⟨moves, hm, hsorted⟩ := Board.getValidMoves_sorted hb p.color
  refine ⟨moves, hm, hsorted, ?_⟩
  by_cases hnil : moves = []
  · refine Or.inl ⟨hnil, ?_⟩
    simp only [getMove, hm, hnil, List.length_nil, if_true]
  · have hlen : ¬ moves.length = 0 := fun h => hnil (List.length_eq_zero.1 h)
    rcases firstCorner_spec moves with ⟨h1, h2⟩ | ⟨l1, m, l2, h1, h2, h3, h4⟩
    · rcases bestLoop_spec b moves none (-1) with ⟨-, h4⟩ | ⟨l1, m, l2, h3, h4, -, h6, h7⟩
      · obtain ⟨x, rest, rfl⟩ := List.exists_cons_of_ne_nil hnil
        have := h4 x (List.mem_cons_self _ _)
        have := evaluateMove_pos b x.1 x.2
        omega
      · refine Or.inr (Or.inr ⟨l1, m, l2, h3, ?_, h2, h6, h7⟩)
        simp only [getMove, hm, hlen, if_false, h1, h4]
    · refine Or.inr (Or.inl ⟨l1, m, l2, h1, ?_, h3, h4⟩)
      simp only [getMove, hm, hlen, if_false, h2]

end CPUPlayer

/-- C15: on a well-formed board `getValidMoves` returns its list in row-major scan order: the list
is strictly increasing in the lexicographic order on `(row, col)`, so it has no duplicates; the
method is a function of the board and the colour, so every call returns this same list. -/
theorem getValidMoves_row_major (b : Board) (hb : b.WF) (color : Disc) :
    ∃ moves, b.getValidMoves color = some moves ∧ moves.Pairwise RowMajorLt ∧ moves.Nodup ∧
      ∀ moves2, b.getValidMoves color = some moves2 → moves2 = moves := by
  obtain ⟨moves, hm, hs⟩ := Board.getValidMoves_sorted hb color
  refine ⟨moves, hm, hs, ?_, ?_⟩
  · exact List.Pairwise.imp (fun {p q} (h : RowMajorLt p q) (e : p = q) =>
      rowMajorLt_irrefl q (e ▸ h)) hs
  · intro moves2 h2
    rw [hm] at h2
    exact (Option.some.inj h2).symm

theorem getValidMoves_row_major_witness :
    Board.fresh8.WF ∧
      ∃ moves, Board.fresh8.getValidMoves Disc.WHITE = some moves ∧
        moves.Pairwise RowMajorLt ∧ moves.Nodup ∧
        ∀ moves2, Board.fresh8.getValidMoves Disc.WHITE = some moves2 → moves2 = moves :=
  ⟨Board.fresh8_wf, getValidMoves_row_major Board.fresh8 Board.fresh8_wf Disc.WHITE⟩

/-- C16: on a well-formed board `CPUPlayer.getMove` returns normally for a player of any colour
(in particular Black or White); it returns null (`none`) exactly when `getValidMoves` of the
player's colour is empty, and any position it returns is a member of that list. -/
theorem getMove_null_iff_no_moves (p : Player) (b : Board) (hb : b.WF) :
    ∃ moves res, b.getValidMoves p.color = some moves ∧ CPUPlayer.getMove p b = some res ∧
      (res = none ↔ moves = []) ∧ (∀ m, res = some m → m ∈ moves) := by
  obtain ⟨moves, hm, -, h⟩ := CPUPlayer.getMove_spec p hb
  rcases h with ⟨h1, h2⟩ | ⟨l1, m, l2, h1, h2, -⟩ | ⟨l1, m, l2, h1, h2, -⟩
  · exact ⟨moves, none, hm, h2, by simp [h1], fun m h => by cases h⟩
  · refine ⟨moves, some m, hm, h2, by simp [h1], fun m2 h => ?_⟩
    cases h
    rw [h1]; simp
  · refine ⟨moves, some m, hm, h2, by simp [h1], fun m2 h => ?_⟩
    cases h
    rw [h1]; simp

theorem getMove_null_iff_no_moves_witness :
    Board.fresh8.WF ∧
      ∃ moves res, Board.fresh8.getValidMoves exampleWhite.color = some moves ∧
        CPUPlayer.getMove exampleWhite Board.fresh8 = some res ∧
        (res = none ↔ moves = []) ∧ (∀ m, res = some m → m ∈ moves) :=
  ⟨Board.fresh8_wf, getMove_null_iff_no_moves exampleWhite Board.fresh8 Board.fresh8_wf⟩

/-- C17: on a well-formed board (of any size, in particular 8x8), if the legal moves of the CPU's
colour contain one of (0,0), (0,7), (7,0), (7,7), then `getMove` returns such a corner that is a
legal move, and every other legal corner comes after it in row-major order. -/
theorem getMove_first_corner (p : Player) (b : Board) (hb : b.WF) (moves : List (Int × Int))
    (hm : b.getValidMoves p.color = some moves)
    (hc : ∃ c ∈ CPUPlayer.corners, c ∈ moves) :
    ∃ m, CPUPlayer.getMove p b = some (some m) ∧ m ∈ CPUPlayer.corners ∧ m ∈ moves ∧
      ∀ c ∈ CPUPlayer.corners, c ∈ moves → c = m ∨ RowMajorLt m c := by
  obtain ⟨moves2, hm2, hs, h⟩ := CPUPlayer.getMove_spec p hb
  rw [hm] at hm2
  cases hm2
  obtain ⟨c, hc1, hc2⟩ := hc
  rcases h with ⟨h1, -⟩ | ⟨l1, m, l2, h1, h2, h3, h4⟩ | ⟨l1, m, l2, -, -, h3, -⟩
  · rw [h1] at hc2; cases hc2
  · refine ⟨m, h2, h3, by rw [h1]; simp, ?_⟩
    intro c2 hc3 hc4
    rw [h1] at hc4 hs
    rcases List.mem_append.1 hc4 with h | h
    · exact absurd hc3 (h4 c2 h)
    · rcases List.mem_cons.1 h with h | h
      · exact Or.inl h
      · exact Or.inr (lt_of_sorted_suffix hs h)
  · exact absurd hc1 (h3 c hc2)

/-- C18: on a well-formed board (of any size, in particular 8x8) with at least one legal move and
no legal corner, `getMove` returns a legal move `m` whose `_evaluateMove` score is at least that of
every legal move and strictly greater than that of every legal move before `m` in row-major
order. -/
theorem getMove_first_max (p : Player) (b : Board) (hb : b.WF) (moves : List (Int × Int))
    (hm : b.getValidMoves p.color = some moves) (hne : moves ≠ [])
    (hnc : ∀ c ∈ CPUPlayer.corners, c ∉ moves) :
    ∃ m, CPUPlayer.getMove p b = some (some m) ∧ m ∈ moves ∧
      (∀ x ∈ moves, CPUPlayer._evaluateMove b x.1 x.2 ≤ CPUPlayer._evaluateMove b m.1 m.2) ∧
      (∀ x ∈ moves, RowMajorLt x m →
        CPUPlayer._evaluateMove b x.1 x.2 < CPUPlayer._evaluateMove b m.1 m.2) := by
  obtain ⟨moves2, hm2, hs, h⟩ := CPUPlayer.getMove_spec p hb
  rw [hm] at hm2
  cases hm2
  rcases h with ⟨h1, -⟩ | ⟨l1, m, l2, h1, -, h3, -⟩ | ⟨l1, m, l2, h1, h2, -, h4, h5⟩
  · exact absurd h1 hne
  · exact absurd (by rw [h1]; simp) (hnc m h3)
  · refine ⟨m, h2, by rw [h1]; simp, ?_, ?_⟩
    · intro x hx
      rw [h1] at hx
      rcases List.mem_append.1 hx with h | h
      · exact le_of_lt (h4 x h)
      · rcases List.mem_cons.1 h with h | h
        · rw [h]
        · exact h5 x h
    · intro x hx hlt
      rw [h1] at hx hs
      exact h4 x (mem_prefix_of_sorted hs hx hlt)

set_option maxRecDepth 100000 in
theorem Board.exampleCorner_moves :
    Board.exampleCorner.getValidMoves exampleBlack.color = some [(0, 3), (0, 7)] := by decide

theorem Board.exampleCorner_wf : Board.exampleCorner.WF := by decide

theorem getMove_first_corner_witness :
    Board.exampleCorner.WF ∧
      Board.exampleCorner.getValidMoves exampleBlack.color = some [(0, 3), (0, 7)] ∧
      (∃ c ∈ CPUPlayer.corners, c ∈ [((0 : Int), (3 : Int)), (0, 7)]) ∧
      ∃ m, CPUPlayer.getMove exampleBlack Board.exampleCorner = some (some m) ∧
        m ∈ CPUPlayer.corners ∧ m ∈ [((0 : Int), (3 : Int)), (0, 7)] ∧
        ∀ c ∈ CPUPlayer.corners, c ∈ [((0 : Int), (3 : Int)), (0, 7)] → c = m ∨ RowMajorLt m c :=
  ⟨Board.exampleCorner_wf, Board.exampleCorner_moves, ⟨(0, 7), by decide, by decide⟩,
    getMove_first_corner exampleBlack Board.exampleCorner Board.exampleCorner_wf _
      Board.exampleCorner_moves ⟨(0, 7), by decide, by decide⟩⟩

theorem getMove_first_max_witness :
    Board.fresh8.WF ∧
      Board.fresh8.getValidMoves exampleBlack.color = some [(2, 3), (3, 2), (4, 5), (5, 4)] ∧
      [((2 : Int), (3 : Int)), (3, 2), (4, 5), (5, 4)] ≠ [] ∧
      (∀ c ∈ CPUPlayer.corners, c ∉ [((2 : Int), (3 : Int)), (3, 2), (4, 5), (5, 4)]) ∧
      ∃ m, CPUPlayer.getMove exampleBlack Board.fresh8 = some (some m) ∧
        m ∈ [((2 : Int), (3 : Int)), (3, 2), (4, 5), (5, 4)] ∧
        (∀ x ∈ [((2 : Int), (3 : Int)), (3, 2), (4, 5), (5, 4)],
          CPUPlayer._evaluateMove Board.fresh8 x.1 x.2 ≤
            CPUPlayer._evaluateMove Board.fresh8 m.1 m.2) ∧
        (∀ x ∈ [((2 : Int), (3 : Int)), (3, 2), (4, 5), (5, 4)], RowMajorLt x m →
          CPUPlayer._evaluateMove Board.fresh8 x.1 x.2 <
            CPUPlayer._evaluateMove Board.fresh8 m.1 m.2) :=
  ⟨Board.fresh8_wf, Board.fresh8_moves_black, by decide, by decide,
    getMove_first_max exampleBlack Board.fresh8 Board.fresh8_wf _ Board.fresh8_moves_black
      (by decide) (by decide)⟩

/-- C19: for every cell `(row, col)` of an 8x8 board `_evaluateMove` returns 100 on the four
corners, 1 on the cells adjacent (orthogonally or diagonally) to a corner, 50 on the other
boundary cells and 10 on the interior cells; the `badPositions` list has 12 distinct entries and
its in-board members are exactly the corner-adjacent cells; the board argument is not used. -/
theorem evaluateMove_table (board : Board) (row col : Int)
    (hr : 0 ≤ row ∧ row < 8) (hc : 0 ≤ col ∧ col < 8) :
    (CPUPlayer.IsCorner row col → CPUPlayer._evaluateMove board row col = 100) ∧
    (CPUPlayer.CornerAdjacent row col → CPUPlayer._evaluateMove board row col = 1) ∧
    (CPUPlayer.OnBoundary row col → ¬ CPUPlayer.IsCorner row col →
      ¬ CPUPlayer.CornerAdjacent row col → CPUPlayer._evaluateMove board row col = 50) ∧
    (¬ CPUPlayer.OnBoundary row col → ¬ CPUPlayer.CornerAdjacent row col →
      CPUPlayer._evaluateMove board row col = 10) ∧
    (¬ CPUPlayer.OnBoundary row col → ¬ CPUPlayer.IsCorner row col) ∧
    ((row, col) ∈ CPUPlayer.badPositions ↔ CPUPlayer.CornerAdjacent row col) ∧
    CPUPlayer.badPositions.length = 12 ∧ CPUPlayer.badPositions.Nodup ∧
    (∀ p ∈ CPUPlayer.badPositions, 0 ≤ p.1 ∧ p.1 < 8 ∧ 0 ≤ p.2 ∧ p.2 < 8) ∧
    (∀ board2 : Board,
      CPUPlayer._evaluateMove board2 row col = CPUPlayer._evaluateMove board row col) := by
  obtain ⟨hr1, hr2⟩ := hr
  obtain ⟨hc1, hc2⟩ := hc
  have e : CPUPlayer._evaluateMove board row col =
      CPUPlayer._evaluateMove (Board.mk 0 []) row col := rfl
  rw [e]
  refine ⟨?_, ?_, ?_, ?_, ?_, ?_, by decide, by decide, by decide, fun _ => rfl⟩ <;>
    (interval_cases row <;> interval_cases col <;> decide)

theorem evaluateMove_table_witness :
    ((0 : Int) ≤ 1 ∧ (1 : Int) < 8) ∧ ((0 : Int) ≤ 6 ∧ (6 : Int) < 8) ∧
    (CPUPlayer.IsCorner 1 6 → CPUPlayer._evaluateMove Board.fresh8 1 6 = 100) ∧
    (CPUPlayer.CornerAdjacent 1 6 → CPUPlayer._evaluateMove Board.fresh8 1 6 = 1) ∧
    (CPUPlayer.OnBoundary 1 6 → ¬ CPUPlayer.IsCorner 1 6 →
      ¬ CPUPlayer.CornerAdjacent 1 6 → CPUPlayer._evaluateMove Board.fresh8 1 6 = 50) ∧
    (¬ CPUPlayer.OnBoundary 1 6 → ¬ CPUPlayer.CornerAdjacent 1 6 →
      CPUPlayer._evaluateMove Board.fresh8 1 6 = 10) ∧
    (¬ CPUPlayer.OnBoundary 1 6 → ¬ CPUPlayer.IsCorner 1 6) ∧
    ((1, 6) ∈ CPUPlayer.badPositions ↔ CPUPlayer.CornerAdjacent 1 6) ∧
    CPUPlayer.badPositions.length = 12 ∧ CPUPlayer.badPositions.Nodup ∧
    (∀ p ∈ CPUPlayer.badPositions, 0 ≤ p.1 ∧ p.1 < 8 ∧ 0 ≤ p.2 ∧ p.2 < 8) ∧
    (∀ board2 : Board,
      CPUPlayer._evaluateMove board2 1 6 = CPUPlayer._evaluateMove Board.fresh8 1 6) :=
  ⟨by decide, by decide, evaluateMove_table Board.fresh8 1 6 (by decide) (by decide)⟩

namespace Board

theorem flipLoop_flips {dr dc : Int} {color opp : Disc} (hne : opp ≠ color) :
    ∀ (fuel : Nat) (b : Board) (r c : Int) (b1 : Board),
      flipLoop dr dc color opp fuel b r c = some b1 →
      ∃ k : Nat, b1.countDiscs color = b.countDiscs color + k ∧
        b1.countDiscs opp + k = b.countDiscs opp ∧ (k = 0 → b1 = b) := by
  intro fuel
  induction fuel with
  | zero => intro b r c b1 h; simp [flipLoop] at h
  | succ n ih =>
    intro b r c b1 h
    simp only [flipLoop] at h
    split at h
    · split at h
      · cases h
      · rename_i d hget
        split at h
        · rename_i hd
          split at h
          · cases h
          · rename_i b2 hs
            obtain ⟨k, e1, e2, -⟩ := ih _ _ _ _ h
            have c1 := setDisc_count hs hget color
            have c2 := setDisc_count hs hget opp
            have hne2 : ¬ color = opp := fun h => hne h.symm
            simp only [hd, hne, hne2, if_true, if_false] at c1 c2
            exact ⟨k + 1, by omega, by omega, fun h0 => by omega⟩
        · cases h; exact ⟨0, rfl, rfl, fun _ => rfl⟩
    · cases h; exact ⟨0, rfl, rfl, fun _ => rfl⟩

theorem flipDirections_flips {row col : Int} {color opp : Disc} (hne : opp ≠ color) :
    ∀ (ds : List (Int × Int)) (b b1 : Board),
      flipDirections row col color opp b ds = some b1 →
      ∃ k : Nat, b1.countDiscs color = b.countDiscs color + k ∧
        b1.countDiscs opp + k = b.countDiscs opp ∧ (k = 0 → b1 = b) := by
  intro ds
  induction ds with
  | nil => intro b b1 h; simp only [flipDirections] at h; cases h; exact ⟨0, rfl, rfl, fun _ => rfl⟩
  | cons d rest ih =>
    intro b b1 h
    obtain ⟨dr, dc⟩ := d
    simp only [flipDirections] at h
    split at h
    · cases h
    · split at h
      · cases h
      · rename_i b2 hf
        obtain ⟨k2, e1, e2, e3⟩ := ih _ _ h
        obtain ⟨k1, f1, f2, f3⟩ := flipLoop_flips hne _ _ _ _ _ hf
        refine ⟨k1 + k2, by omega, by omega, fun h0 => ?_⟩
        rw [e3 (by omega), f3 (by omega)]
    · exact ih _ _ h

theorem le_sum_of_mem_nat : ∀ (l : List Nat) (x : Nat), x ∈ l → x ≤ l.sum := by
  intro l
  induction l with
  | nil => intro x h; cases h
  | cons a rest ih =>
    intro x h
    rcases List.mem_cons.1 h with h | h
    · subst h; simp
    · have := ih x h
      simp only [List.sum_cons]; omega

theorem countDiscs_pos_of_getDisc {b : Board} {r c : Int} {d : Disc}
    (h : b.getDisc r c = some d) : 1 ≤ b.countDiscs d := by
  unfold getDisc at h
  split at h
  · split at h
    · cases h
    · rename_i row hrow
      have hmem : row ∈ b.grid := by
        obtain ⟨hr, e⟩ := List.getElem?_eq_some.1 hrow
        rw [← e]; exact List.getElem_mem _
      have hd : d ∈ row := by
        obtain ⟨hc, e⟩ := List.getElem?_eq_some.1 h
        rw [← e]; exact List.getElem_mem _
      have h1 : 1 ≤ (row.filter (fun disc => decide (disc = d))).length := by
        apply List.length_pos_of_mem (a := d)
        exact List.mem_filter.2 ⟨hd, by simp⟩
      have h2 := le_sum_of_mem_nat
        (b.grid.map (fun row => (row.filter (fun disc => decide (disc = d))).length)) _
        (List.mem_map.2 ⟨row, hmem, rfl⟩)
      unfold countDiscs
      omega
  · cases h

theorem no_moves_of_no_empty {b : Board} (hb : b.WF) (h0 : b.countDiscs Disc.EMPTY = 0)
    (color : Disc) : b.getValidMoves color = some [] := by
  obtain ⟨moves, hm, hmem⟩ := getValidMoves_spec hb color
  cases moves with
  | nil => exact hm
  | cons m rest =>
    obtain ⟨r, c⟩ := m
    have := ((hmem r c).1 (List.mem_cons_self _ _)).1.2
    have := countDiscs_pos_of_getDisc this
    omega

theorem cornersOf_eight {b : Board} (h : b.size = 8) : b.cornersOf = CPUPlayer.corners := by
  simp [cornersOf, CPUPlayer.corners, h]

end Board

namespace OthelloGame

theorem successes_run :
    ∀ (ops : List Op) (g : OthelloGame), g.Inv → Op.reset ∉ ops →
      ∃ g2, g.run ops = some g2 ∧ g2.Inv ∧
        g.successes ops + g2.board.countDiscs Disc.EMPTY = g.board.countDiscs Disc.EMPTY := by
  intro ops
  induction ops with
  | nil => intro g hinv _; exact ⟨g, rfl, hinv, by simp [successes]⟩
  | cons op ops ih =>
    intro g hinv hnr
    have hnr2 : Op.reset ∉ ops := fun h => hnr (List.mem_cons_of_mem _ h)
    obtain ⟨g1, hs, hinv1, -, -⟩ := inv_step hinv op
    obtain ⟨g2, hr, hinv2, hcount⟩ := ih g1 hinv1 hnr2
    refine ⟨g2, by simp only [run, hs]; exact hr, hinv2, ?_⟩
    have hcol : g.currentPlayer.getColor ≠ Disc.EMPTY := by
      obtain ⟨-, h1, h2, hcur, -⟩ := hinv
      rcases hcur with h | h <;> rw [Player.getColor, h]
      · rcases h1 with h | h <;> rw [h] <;> decide
      · rcases h2 with h | h <;> rw [h] <;> decide
    cases op with
    | makeMove row col =>
      obtain ⟨moves, hm, hyes, hno⟩ := makeMove_spec hinv.1 row col
      by_cases hin : (row, col) ∈ moves
      · obtain ⟨b1, hf, -, hmk⟩ := hyes hin
        have hleg := Board.isLegalMove_of_mem hinv.1 hm hin
        have hdec := Board.flipDiscs_count_empty hcol hleg.1.2 hf
        simp only [step, hmk, Option.map_some'] at hs
        cases hs
        simp only [successes, hmk, Option.map_some', if_true, step]
        simp only at hcount hdec
        omega
      · have hmk := hno hin
        simp only [step, hmk, Option.map_some'] at hs
        cases hs
        simp only [successes, hmk, Option.map_some', step, Option.some.injEq,
          Bool.false_eq_true, if_false]
        omega
    | switchTurn =>
      simp only [step] at hs
      cases hs
      simp only [successes, step]
      have hb : g.switchTurn.board = g.board := rfl
      rw [hb] at hcount
      omega
    | isGameOver =>
      have hb : g1.board = g.board := by
        simp only [step] at hs
        unfold isGameOver at hs
        split at hs
        · simp only [Option.map_some'] at hs; cases hs; rfl
        · split at hs
          · cases hs
          · split at hs
            · cases hs
            · simp only [Option.map_some'] at hs; cases hs; rfl
      simp only [successes, hs]
      rw [hb] at hcount
      omega
    | getWinner =>
      simp only [step] at hs
      cases hs
      simp only [successes, step]
      omega
    | reset => exact absurd (List.mem_cons_self _ _) hnr

end OthelloGame

theorem Board.exampleFour_wf : Board.exampleFour.WF := by decide

theorem Board.exampleFour_moves :
    Board.exampleFour.getValidMoves exampleBlack.color = some [(0, 1), (0, 2), (0, 3)] := by
  decide

theorem Board.fresh8_count_empty : Board.fresh8.countDiscs Disc.EMPTY = 60 := by decide

/-- C22 (counterexample): on a 4x4 board the corner (0,3) of that board is a legal move for
Black, yet `getMove` returns (0,2), which is not a corner of that board. -/
theorem getMove_misses_corner_four :
    Board.exampleFour.WF ∧ Board.exampleFour.size = 4 ∧
      Board.exampleFour.getValidMoves exampleBlack.color = some [(0, 1), (0, 2), (0, 3)] ∧
      ((0 : Int), (3 : Int)) ∈ Board.exampleFour.cornersOf ∧
      CPUPlayer.getMove exampleBlack Board.exampleFour = some (some (0, 2)) ∧
      ((0 : Int), (2 : Int)) ∉ Board.exampleFour.cornersOf := by
  refine ⟨by decide, rfl, by decide, by decide, by decide, by decide⟩

/-- C22 (amended): on every well-formed board of size 8, if one of the four corners of the
board, (0,0), (0,7), (7,0), (7,7), is a legal move for the CPU's colour, then `getMove` returns a
corner of the board that is a legal move, and every other legal corner comes after it in
row-major order. -/
theorem getMove_corner_of_board_eight (p : Player) (b : Board) (hb : b.WF) (hsize : b.size = 8)
    (moves : List (Int × Int)) (hm : b.getValidMoves p.color = some moves)
    (hc : ∃ c ∈ b.cornersOf, c ∈ moves) :
    ∃ m, CPUPlayer.getMove p b = some (some m) ∧ m ∈ b.cornersOf ∧ m ∈ moves ∧
      ∀ c ∈ b.cornersOf, c ∈ moves → c = m ∨ RowMajorLt m c := by
  rw [Board.cornersOf_eight hsize] at hc ⊢
  obtain ⟨moves2, hm2, hs, h⟩ := CPUPlayer.getMove_spec p hb
  rw [hm] at hm2
  cases hm2
  obtain ⟨c, hc1, hc2⟩ := hc
  rcases h with ⟨h1, -⟩ | ⟨l1, m, l2, h1, h2, h3, h4⟩ | ⟨l1, m, l2, -, -, h3, -⟩
  · rw [h1] at hc2; cases hc2
  · refine ⟨m, h2, h3, by rw [h1]; simp, ?_⟩
    intro c2 hc3 hc4
    rw [h1] at hc4 hs
    rcases List.mem_append.1 hc4 with h | h
    · exact absurd hc3 (h4 c2 h)
    · rcases List.mem_cons.1 h with h | h
      · exact Or.inl h
      · exact Or.inr (lt_of_sorted_suffix hs h)
  · exact absurd hc1 (h3 c hc2)

theorem getMove_corner_of_board_eight_witness :
    Board.exampleCorner.WF ∧ Board.exampleCorner.size = 8 ∧
      Board.exampleCorner.getValidMoves exampleBlack.color = some [(0, 3), (0, 7)] ∧
      (∃ c ∈ Board.exampleCorner.cornersOf, c ∈ [((0 : Int), (3 : Int)), (0, 7)]) ∧
      ∃ m, CPUPlayer.getMove exampleBlack Board.exampleCorner = some (some m) ∧
        m ∈ Board.exampleCorner.cornersOf ∧ m ∈ [((0 : Int), (3 : Int)), (0, 7)] ∧
        ∀ c ∈ Board.exampleCorner.cornersOf, c ∈ [((0 : Int), (3 : Int)), (0, 7)] →
          c = m ∨ RowMajorLt m c :=
  ⟨Board.exampleCorner_wf, rfl, Board.exampleCorner_moves, ⟨(0, 7), by decide, by decide⟩,
    getMove_corner_of_board_eight exampleBlack Board.exampleCorner Board.exampleCorner_wf rfl _
      Board.exampleCorner_moves ⟨(0, 7), by decide, by decide⟩⟩

/-- C23: `flipDiscs` does not re-validate: on a well-formed board, for every colour and every
in-bounds position from which no direction has a flippable run (the cell may be empty or
occupied), `flipDiscs` returns the old board with that cell set to the colour and every other
cell unchanged. -/
theorem flipDiscs_without_run (b : Board) (hb : b.WF) (color : Disc) (row col : Int)
    (hp : b.isValidPosition row col = true)
    (hno : ∀ d ∈ directions, ∀ k : Nat, ¬ b.FlippableRun row col color d k) :
    ∃ b1, b.flipDiscs row col color = some b1 ∧ b1.size = b.size ∧
      b1.getDisc row col = some color ∧
      ∀ x y : Int, ¬ (x = row ∧ y = col) → b1.getDisc x y = b.getDisc x y := by
  obtain ⟨b1, hf, -, hsz, hcells⟩ := Board.flipDiscs_cells_of_valid hb hp color
  refine ⟨b1, hf, hsz, (hcells row col).1 (Or.inl ⟨rfl, rfl⟩), fun x y hxy => ?_⟩
  apply (hcells x y).2
  rintro (h | ⟨d, hd, k, hrun, -⟩)
  · exact hxy h
  · exact hno d hd k hrun

theorem Board.fresh8_origin_no_run :
    ∀ d ∈ directions, ∀ k : Nat, ¬ Board.fresh8.FlippableRun 0 0 Disc.BLACK d k := by
  intro d hd k hrun
  have hleg : Board.fresh8.IsLegalMove Disc.BLACK 0 0 :=
    ⟨⟨by decide, by decide⟩, d, hd, k, hrun⟩
  obtain ⟨moves, hm, hmem⟩ := Board.getValidMoves_spec Board.fresh8_wf Disc.BLACK
  rw [Board.fresh8_moves_black] at hm
  cases hm
  have := (hmem 0 0).2 hleg
  revert this
  decide

theorem flipDiscs_without_run_witness :
    Board.fresh8.WF ∧ Board.fresh8.isValidPosition 0 0 = true ∧
      (∀ d ∈ directions, ∀ k : Nat, ¬ Board.fresh8.FlippableRun 0 0 Disc.BLACK d k) ∧
      ∃ b1, Board.fresh8.flipDiscs 0 0 Disc.BLACK = some b1 ∧ b1.size = Board.fresh8.size ∧
        b1.getDisc 0 0 = some Disc.BLACK ∧
        ∀ x y : Int, ¬ (x = 0 ∧ y = 0) → b1.getDisc x y = Board.fresh8.getDisc x y :=
  ⟨Board.fresh8_wf, by decide, Board.fresh8_origin_no_run,
    flipDiscs_without_run Board.fresh8 Board.fresh8_wf Disc.BLACK 0 0 (by decide)
      Board.fresh8_origin_no_run⟩

/-- C24: for a well-formed board, a colour Black or White and a legal move, `flipDiscs` returns a
board on which, for some `k >= 1`, the mover has exactly `1 + k` discs more and the opponent
exactly `k` discs fewer; so the mover gains at least 2 and the opponent loses at least 1. -/
theorem flipDiscs_gain (b : Board) (hb : b.WF) (color : Disc)
    (hc : color = Disc.BLACK ∨ color = Disc.WHITE) (row col : Int)
    (hlegal : b.IsLegalMove color row col) :
    ∃ b1 k, b.flipDiscs row col color = some b1 ∧ 1 ≤ k ∧
      b1.countDiscs color = b.countDiscs color + 1 + k ∧
      b1.countDiscs (opponentOf color) + k = b.countDiscs (opponentOf color) ∧
      b.countDiscs color + 2 ≤ b1.countDiscs color ∧
      b1.countDiscs (opponentOf color) + 1 ≤ b.countDiscs (opponentOf color) := by
  have hne : color ≠ Disc.EMPTY := by rcases hc with h | h <;> rw [h] <;> decide
  have hp := hlegal.1.1
  obtain ⟨b1, hf, -, -, hcells⟩ := Board.flipDiscs_cells_of_valid hb hp color
  obtain ⟨b2, hs, -, -, hget2⟩ := Board.setDisc_spec hb hp color
  have hfd : Board.flipDirections row col color (opponentOf color) b2 directions = some b1 := by
    have := hf
    simp only [Board.flipDiscs, hs] at this
    exact this
  obtain ⟨k, e1, e2, e3⟩ := Board.flipDirections_flips (opponentOf_ne color) _ _ _ hfd
  have c1 := Board.setDisc_count hs hlegal.1.2 color
  have c2 := Board.setDisc_count hs hlegal.1.2 (opponentOf color)
  have hne2 : ¬ Disc.EMPTY = color := fun h => hne h.symm
  have hne3 : ¬ Disc.EMPTY = opponentOf color := fun h => Board.opponentOf_ne_empty color h.symm
  have hne4 : ¬ color = opponentOf color := fun h => opponentOf_ne color h.symm
  simp only [hne2, hne3, hne4, if_true, if_false] at c1 c2
  have hk : 1 ≤ k := by
    by_contra hk0
    have hb12 := e3 (by omega)
    obtain ⟨d, hd, j, hrun⟩ := hlegal.2
    have hcell := (hrun.2.1 1 (le_refl 1) hrun.1).2
    have hin : b.InFlippedRun row col color (row + ((1 : Nat) : Int) * d.1)
        (col + ((1 : Nat) : Int) * d.2) :=
      ⟨d, hd, j, hrun, 1, le_refl 1, hrun.1, rfl, rfl⟩
    have h1 := (hcells _ _).1 (Or.inr hin)
    rw [hb12, hget2, if_neg (ray_ne_origin (show (d.1, d.2) ∈ directions from hd) (le_refl 1)),
      hcell] at h1
    exact opponentOf_ne color (Option.some.inj h1)
  exact ⟨b1, k, hf, hk, by omega, by omega, by omega, by omega⟩

theorem flipDiscs_gain_witness :
    Board.fresh8.WF ∧ (Disc.BLACK = Disc.BLACK ∨ Disc.BLACK = Disc.WHITE) ∧
      Board.fresh8.IsLegalMove Disc.BLACK 2 3 ∧
      ∃ b1 k, Board.fresh8.flipDiscs 2 3 Disc.BLACK = some b1 ∧ 1 ≤ k ∧
        b1.countDiscs Disc.BLACK = Board.fresh8.countDiscs Disc.BLACK + 1 + k ∧
        b1.countDiscs (opponentOf Disc.BLACK) + k =
          Board.fresh8.countDiscs (opponentOf Disc.BLACK) ∧
        Board.fresh8.countDiscs Disc.BLACK + 2 ≤ b1.countDiscs Disc.BLACK ∧
        b1.countDiscs (opponentOf Disc.BLACK) + 1 ≤
          Board.fresh8.countDiscs (opponentOf Disc.BLACK) :=
  ⟨Board.fresh8_wf, Or.inl rfl, Board.fresh8_legal_black,
    flipDiscs_gain Board.fresh8 Board.fresh8_wf Disc.BLACK (Or.inl rfl) 2 3
      Board.fresh8_legal_black⟩

/-- C25: on a new game whose players have the colours Black or White, for every sequence of
calls without `reset` (in particular of `makeMove` and `switchTurn` calls), the number of
`makeMove` calls that returned true plus the number of Empty cells left is 60, so at most 60
calls return true; and when no Empty cell is left `isGameOver()` returns true. -/
theorem at_most_sixty_moves (p1 p2 : Player)
    (h1 : p1.color = Disc.BLACK ∨ p1.color = Disc.WHITE)
    (h2 : p2.color = Disc.BLACK ∨ p2.color = Disc.WHITE)
    (ops : List Op) (hnr : Op.reset ∉ ops) :
    ∃ g0 g, OthelloGame.new p1 p2 = some g0 ∧ g0.run ops = some g ∧
      g0.successes ops + g.board.countDiscs Disc.EMPTY = 60 ∧ g0.successes ops ≤ 60 ∧
      (g.board.countDiscs Disc.EMPTY = 0 → ∃ g1, g.isGameOver = some (true, g1)) := by
  obtain ⟨g0, hn, hinv0, hb0, -⟩ := OthelloGame.inv_new h1 h2
  obtain ⟨g, hr, hinv, hcount⟩ := OthelloGame.successes_run ops g0 hinv0 hnr
  rw [hb0, Board.fresh8_count_empty] at hcount
  refine ⟨g0, g, hn, hr, hcount, by omega, fun h0 => ?_⟩
  cases hflag : g.gameOver with
  | true => exact ⟨g, by simp only [OthelloGame.isGameOver, hflag, if_true]⟩
  | false =>
    obtain ⟨res, hres, hiff⟩ := OthelloGame.isGameOver_spec hinv.1 hflag
    have : res = true := hiff.2 ⟨Board.no_moves_of_no_empty hinv.1 h0 _,
      Board.no_moves_of_no_empty hinv.1 h0 _⟩
    subst this
    exact ⟨_, hres⟩

set_option maxRecDepth 100000 in
theorem at_most_sixty_moves_witness :
    (exampleBlack.color = Disc.BLACK ∨ exampleBlack.color = Disc.WHITE) ∧
      (exampleWhite.color = Disc.BLACK ∨ exampleWhite.color = Disc.WHITE) ∧
      Op.reset ∉ [Op.makeMove 2 3, Op.switchTurn, Op.makeMove 0 0, Op.makeMove 2 2] ∧
      ∃ g0 g, OthelloGame.new exampleBlack exampleWhite = some g0 ∧
        g0.run [Op.makeMove 2 3, Op.switchTurn, Op.makeMove 0 0, Op.makeMove 2 2] = some g ∧
        g0.successes [Op.makeMove 2 3, Op.switchTurn, Op.makeMove 0 0, Op.makeMove 2 2] +
          g.board.countDiscs Disc.EMPTY = 60 ∧
        g0.successes [Op.makeMove 2 3, Op.switchTurn, Op.makeMove 0 0, Op.makeMove 2 2] ≤ 60 ∧
        (g.board.countDiscs Disc.EMPTY = 0 → ∃ g1, g.isGameOver = some (true, g1)) :=
  ⟨Or.inl rfl, Or.inr rfl, by decide,
    at_most_sixty_moves exampleBlack exampleWhite (Or.inl rfl) (Or.inr rfl) _ (by decide)⟩

end Othello

namespace DrawingApp

namespace History

variable {Shape : Type}

theorem current_of_inv {h : History Shape} (hinv : h.Inv) :
    ∃ s, h.current = some s := by
  obtain ⟨h1, h2⟩ := hinv
  have : h.currentIndex.toNat < h.states.length := by omega
  exact ⟨h.states[h.currentIndex.toNat], by simp [current, h1, List.getElem?_eq_getElem this]⟩

theorem saveState_states {h : History Shape} (hinv : h.Inv) (shapes : List Shape) :
    (h.saveState shapes).states = h.states.take (h.currentIndex.toNat + 1) ++ [shapes] := by
  obtain ⟨h1, h2⟩ := hinv
  have e : (h.currentIndex + 1).toNat = h.currentIndex.toNat + 1 := by omega
  simp only [saveState, sliceFromZero, if_pos (show (0 : Int) ≤ h.currentIndex + 1 by omega), e]

theorem saveState_length {h : History Shape} (hinv : h.Inv) (shapes : List Shape) :
    ((h.saveState shapes).states.length : Int) = h.currentIndex + 2 := by
  obtain ⟨h1, h2⟩ := hinv
  rw [saveState_states ⟨h1, h2⟩]
  simp only [List.length_append, List.length_take, List.length_singleton]
  omega

theorem history_inv_new : (new : History Shape).Inv := by
  simp [Inv, new]

theorem history_inv_saveState {h : History Shape} (hinv : h.Inv) (shapes : List Shape) :
    (h.saveState shapes).Inv := by
  have hl := saveState_length hinv shapes
  obtain ⟨h1, h2⟩ := hinv
  refine ⟨?_, ?_⟩
  · simp only [saveState]; omega
  · rw [hl]; simp only [saveState]; omega

theorem undo_spec {h : History Shape} (hinv : h.Inv) :
    (h.canUndo = false ∧ h.undo = some (none, h)) ∨
    (h.canUndo = true ∧ ∃ s, current { h with currentIndex := h.currentIndex - 1 } = some s ∧
      h.undo = some (some s, { h with currentIndex := h.currentIndex - 1 }) ∧
      Inv { h with currentIndex := h.currentIndex - 1 }) := by
  obtain ⟨h1, h2⟩ := hinv
  by_cases hc : h.canUndo = true
  · have hpos : h.currentIndex > 0 := by simpa [canUndo] using hc
    have hinv2 : Inv { h with currentIndex := h.currentIndex - 1 } := by
      refine ⟨?_, ?_⟩ <;> simp only <;> omega
    obtain ⟨s, hs⟩ := current_of_inv hinv2
    exact Or.inr ⟨hc, s, hs, by simp only [undo, hc, if_true, hs], hinv2⟩
  · have hc2 : h.canUndo = false := by simpa using hc
    exact Or.inl ⟨hc2, by simp [undo, hc2]⟩

theorem redo_spec {h : History Shape} (hinv : h.Inv) :
    (h.canRedo = false ∧ h.redo = some (none, h)) ∨
    (h.canRedo = true ∧ ∃ s, current { h with currentIndex := h.currentIndex + 1 } = some s ∧
      h.redo = some (some s, { h with currentIndex := h.currentIndex + 1 }) ∧
      Inv { h with currentIndex := h.currentIndex + 1 }) := by
  obtain ⟨h1, h2⟩ := hinv
  by_cases hc : h.canRedo = true
  · have hpos : h.currentIndex < (h.states.length : Int) - 1 := by simpa [canRedo] using hc
    have hinv2 : Inv { h with currentIndex := h.currentIndex + 1 } := by
      refine ⟨?_, ?_⟩ <;> simp only <;> omega
    obtain ⟨s, hs⟩ := current_of_inv hinv2
    exact Or.inr ⟨hc, s, hs, by simp only [redo, hc, if_true, hs], hinv2⟩
  · have hc2 : h.canRedo = false := by simpa using hc
    exact Or.inl ⟨hc2, by simp [redo, hc2]⟩

theorem history_inv_step {h : History Shape} (hinv : h.Inv) (op : HistoryOp Shape) :
    ∃ h1, h.step op = some h1 ∧ h1.Inv := by
  cases op with
  | saveState shapes => exact ⟨_, rfl, history_inv_saveState hinv shapes⟩
  | undo =>
    rcases undo_spec hinv with ⟨-, h2⟩ | ⟨-, s, -, h2, h3⟩
    · exact ⟨h, by simp only [step, h2, Option.map_some'], hinv⟩
    · exact ⟨_, by simp only [step, h2, Option.map_some'], h3⟩
  | redo =>
    rcases redo_spec hinv with ⟨-, h2⟩ | ⟨-, s, -, h2, h3⟩
    · exact ⟨h, by simp only [step, h2, Option.map_some'], hinv⟩
    · exact ⟨_, by simp only [step, h2, Option.map_some'], h3⟩

theorem history_inv_run {h : History Shape} (hinv : h.Inv) (ops : List (HistoryOp Shape)) :
    ∃ h1, h.run ops = some h1 ∧ h1.Inv := by
  induction ops generalizing h with
  | nil => exact ⟨h, rfl, hinv⟩
  | cons op ops ih =>
    obtain ⟨h1, hs, hinv1⟩ := history_inv_step hinv op
    obtain ⟨h2, hr, hinv2⟩ := ih hinv1
    exact ⟨h2, by simp only [run, hs]; exact hr, hinv2⟩

/-- After `saveState(shapes)` on a history that satisfies the index invariant. -/
theorem saveState_spec {h : History Shape} (hinv : h.Inv) (shapes : List Shape) :
    (h.saveState shapes).states = h.states.take (h.currentIndex.toNat + 1) ++ [shapes] ∧
    (h.saveState shapes).canRedo = false ∧
    (h.saveState shapes).redo = some (none, h.saveState shapes) ∧
    (h.saveState shapes).current = some shapes ∧
    ∃ before h2, h.current = some before ∧
      (h.saveState shapes).undo = some (some before, h2) ∧ h2.current = some before := by
  have hst := saveState_states hinv shapes
  have hl := saveState_length hinv shapes
  have hinv1 := history_inv_saveState hinv shapes
  obtain ⟨h1, h2⟩ := hinv
  have hidx : (h.saveState shapes).currentIndex = h.currentIndex + 1 := rfl
  have hcr : (h.saveState shapes).canRedo = false := by
    simp only [canRedo, hl, hidx, decide_eq_false_iff_not]; omega
  have hlt : h.currentIndex.toNat < h.states.length := by omega
  have htake : (h.states.take (h.currentIndex.toNat + 1)).length = h.currentIndex.toNat + 1 := by
    rw [List.length_take]; omega
  refine ⟨hst, hcr, by simp [redo, hcr], ?_, ?_⟩
  · have e : (h.currentIndex + 1).toNat = (h.states.take (h.currentIndex.toNat + 1)).length := by
      rw [htake]; omega
    simp only [current, hidx, if_pos (show (0 : Int) ≤ h.currentIndex + 1 by omega), hst, e,
      List.getElem?_concat_length]
  · obtain ⟨before, hb⟩ := current_of_inv (show h.Inv from ⟨h1, h2⟩)
    have hcu : (h.saveState shapes).canUndo = true := by
      simp only [canUndo, hidx, decide_eq_true_eq]; omega
    have hcur2 : current { h.saveState shapes with
        currentIndex := (h.saveState shapes).currentIndex - 1 } = some before := by
      have hb2 := hb
      simp only [current, if_pos h1] at hb2
      have e2 : h.currentIndex + 1 - 1 = h.currentIndex := by omega
      simp only [current, hidx, e2, if_pos h1, hst]
      rw [List.getElem?_append_left (by rw [htake]; omega), List.getElem?_take_of_lt (by omega)]
      exact hb2
    exact ⟨before, _, hb, by simp only [undo, hcu, if_true, hcur2], hcur2⟩

end History

/-- C20: for every history reached from `new History()` by `saveState`, `undo` and `redo` calls,
`saveState(shapes)` drops the states after the current position and appends the new one:
afterwards `canRedo()` is false, `redo()` returns null and changes nothing, the current state is
the saved one, and `undo()` returns the state that was current before the save. -/
theorem saveState_clears_redo {Shape : Type} (ops : List (HistoryOp Shape)) (h : History Shape)
    (hrun : (History.new : History Shape).run ops = some h) (shapes : List Shape) :
    (h.saveState shapes).states = h.states.take (h.currentIndex.toNat + 1) ++ [shapes] ∧
    (h.saveState shapes).canRedo = false ∧
    (h.saveState shapes).redo = some (none, h.saveState shapes) ∧
    (h.saveState shapes).current = some shapes ∧
    ∃ before h2, h.current = some before ∧
      (h.saveState shapes).undo = some (some before, h2) ∧ h2.current = some before := by
  obtain ⟨h1, hr, hinv⟩ :=
    History.history_inv_run (History.history_inv_new : (History.new : History Shape).Inv) ops
  rw [hrun] at hr
  cases hr
  exact History.saveState_spec hinv shapes

theorem saveState_clears_redo_witness :
    (History.new : History Nat).run
        [HistoryOp.saveState [1], HistoryOp.saveState [1, 2], HistoryOp.undo] =
      some (History.mk [[], [1], [1, 2]] 1) ∧
    ((History.mk [[], [1], [1, 2]] 1).saveState [1, 3]).states =
      (History.mk [[], [1], [1, 2]] 1 : History Nat).states.take
        ((History.mk [[], [1], [1, 2]] 1 : History Nat).currentIndex.toNat + 1) ++ [[1, 3]] ∧
    ((History.mk [[], [1], [1, 2]] 1).saveState [1, 3]).canRedo = false ∧
    ((History.mk [[], [1], [1, 2]] 1).saveState [1, 3]).redo =
      some (none, (History.mk [[], [1], [1, 2]] 1).saveState [1, 3]) ∧
    ((History.mk [[], [1], [1, 2]] 1).saveState [1, 3]).current = some [1, 3] ∧
    ∃ before h2, (History.mk [[], [1], [1, 2]] 1 : History Nat).current = some before ∧
      ((History.mk [[], [1], [1, 2]] 1).saveState [1, 3]).undo = some (some before, h2) ∧
      h2.current = some before :=
  ⟨rfl, saveState_clears_redo
    [HistoryOp.saveState [1], HistoryOp.saveState [1, 2], HistoryOp.undo]
    (History.mk [[], [1], [1, 2]] 1) rfl [1, 3]⟩

namespace History

variable {Shape : Type}

theorem undo_then_redo {h : History Shape} (hinv : h.Inv) (hc : h.canUndo = true) :
    ∃ before s h1, h.current = some before ∧ h.undo = some (some s, h1) ∧
      h1.redo = some (some before, h) := by
  obtain ⟨before, hb⟩ := current_of_inv hinv
  rcases undo_spec hinv with ⟨h0, -⟩ | ⟨-, s, -, hu, hinv1⟩
  · rw [hc] at h0; cases h0
  · refine ⟨before, s, _, hb, hu, ?_⟩
    obtain ⟨states, idx⟩ := h
    obtain ⟨h1, h2⟩ := hinv
    simp only at h1 h2
    have hcr : canRedo (History.mk states (idx - 1)) = true := by
      simp only [canRedo, decide_eq_true_eq]; omega
    have e : idx - 1 + 1 = idx := by omega
    simp only [redo, hcr, if_true, e, hb]

theorem redo_then_undo {h : History Shape} (hinv : h.Inv) (hc : h.canRedo = true) :
    ∃ before s h1, h.current = some before ∧ h.redo = some (some s, h1) ∧
      h1.undo = some (some before, h) := by
  obtain ⟨before, hb⟩ := current_of_inv hinv
  rcases redo_spec hinv with ⟨h0, -⟩ | ⟨-, s, -, hu, hinv1⟩
  · rw [hc] at h0; cases h0
  · refine ⟨before, s, _, hb, hu, ?_⟩
    obtain ⟨states, idx⟩ := h
    obtain ⟨h1, h2⟩ := hinv
    simp only at h1 h2
    have hcu : canUndo (History.mk states (idx + 1)) = true := by
      simp only [canUndo, decide_eq_true_eq]; omega
    have e : idx + 1 - 1 = idx := by omega
    simp only [undo, hcu, if_true, e, hb]

end History

/-- C26: every history reached from `new History()` by `saveState`, `undo` and `redo` calls
satisfies `0 <= _currentIndex < _states.length`; when `canUndo()` is true, `undo()` followed by
`redo()` gives back the same history and `redo()` returns the state that was current before the
`undo()`; and symmetrically `redo()` followed by `undo()` when `canRedo()` is true. -/
theorem undo_redo_inverse {Shape : Type} (ops : List (HistoryOp Shape)) (h : History Shape)
    (hrun : (History.new : History Shape).run ops = some h) :
    (0 ≤ h.currentIndex ∧ h.currentIndex < (h.states.length : Int)) ∧
    (h.canUndo = true →
      ∃ before s h1, h.current = some before ∧ h.undo = some (some s, h1) ∧
        h1.redo = some (some before, h)) ∧
    (h.canRedo = true →
      ∃ before s h1, h.current = some before ∧ h.redo = some (some s, h1) ∧
        h1.undo = some (some before, h)) := by
  obtain ⟨h1, hr, hinv⟩ :=
    History.history_inv_run (History.history_inv_new : (History.new : History Shape).Inv) ops
  rw [hrun] at hr
  cases hr
  exact ⟨hinv, History.undo_then_redo hinv, History.redo_then_undo hinv⟩

theorem undo_redo_inverse_witness :
    (History.new : History Nat).run
        [HistoryOp.saveState [1], HistoryOp.saveState [1, 2], HistoryOp.undo] =
      some (History.mk [[], [1], [1, 2]] 1) ∧
    ((0 : Int) ≤ (History.mk [[], [1], [1, 2]] 1 : History Nat).currentIndex ∧
      (History.mk [[], [1], [1, 2]] 1 : History Nat).currentIndex <
        ((History.mk [[], [1], [1, 2]] 1 : History Nat).states.length : Int)) ∧
    ((History.mk [[], [1], [1, 2]] 1 : History Nat).canUndo = true →
      ∃ before s h1, (History.mk [[], [1], [1, 2]] 1 : History Nat).current = some before ∧
        (History.mk [[], [1], [1, 2]] 1 : History Nat).undo = some (some s, h1) ∧
        h1.redo = some (some before, History.mk [[], [1], [1, 2]] 1)) ∧
    ((History.mk [[], [1], [1, 2]] 1 : History Nat).canRedo = true →
      ∃ before s h1, (History.mk [[], [1], [1, 2]] 1 : History Nat).current = some before ∧
        (History.mk [[], [1], [1, 2]] 1 : History Nat).redo = some (some s, h1) ∧
        h1.undo = some (some before, History.mk [[], [1], [1, 2]] 1)) :=
  ⟨rfl, undo_redo_inverse
    [HistoryOp.saveState [1], HistoryOp.saveState [1, 2], HistoryOp.undo]
    (History.mk [[], [1], [1, 2]] 1) rfl⟩

end DrawingApp

namespace AnalogClock

theorem jsRem_of_nonneg_lt {a m : ℚ} (h0 : 0 ≤ a) (h1 : a < m) : jsRem a m = a := by
  have hm : 0 < m := lt_of_le_of_lt h0 h1
  have hq : 0 ≤ a / m := div_nonneg h0 hm.le
  have hf : ⌊a / m⌋ = 0 := by
    rw [Int.floor_eq_iff]
    refine ⟨by simpa using hq, ?_⟩
    rw [div_lt_iff₀ hm]
    simpa using h1
  simp [jsRem, hq, hf]

theorem jsRem_of_range {a m : ℚ} (hm : 0 < m) (h0 : m ≤ a) (h1 : a < 2 * m) :
    jsRem a m = a - m := by
  have hq : 0 ≤ a / m := div_nonneg (le_trans hm.le h0) hm.le
  have hf : ⌊a / m⌋ = 1 := by
    rw [Int.floor_eq_iff]
    refine ⟨?_, ?_⟩
    · rw [le_div_iff₀ hm]; simpa using h0
    · rw [div_lt_iff₀ hm]; push_cast; linarith
  simp [jsRem, hq, hf]

theorem jsRem_hour (hour : Int) (h0 : 0 ≤ hour) (h1 : hour < 24) :
    jsRem (hour : ℚ) 12 = ((hour % 12 : Int) : ℚ) := by
  have c0 : (0 : ℚ) ≤ (hour : ℚ) := by exact_mod_cast h0
  by_cases h : hour < 12
  · have c1 : (hour : ℚ) < 12 := by exact_mod_cast h
    rw [jsRem_of_nonneg_lt c0 c1, Int.emod_eq_of_lt h0 h]
  · have h' : 12 ≤ hour := by omega
    have c1 : (12 : ℚ) ≤ (hour : ℚ) := by exact_mod_cast h'
    have c2 : (hour : ℚ) < 2 * 12 := by
      have : (hour : ℚ) < 24 := by exact_mod_cast h1
      linarith
    rw [jsRem_of_range (by norm_num) c1 c2]
    have : hour % 12 = hour - 12 := by omega
    rw [this]
    push_cast
    ring

theorem floor_div_eq {a d : ℚ} (z : Int) (hd : 0 < d) (h0 : (z : ℚ) * d ≤ a)
    (h1 : a < ((z : ℚ) + 1) * d) : ⌊a / d⌋ = z := by
  rw [Int.floor_eq_iff]
  exact ⟨by rw [le_div_iff₀ hd]; exact h0, by rw [div_lt_iff₀ hd]; exact h1⟩

/-- C27: in exact rational arithmetic, for integers `0 <= hour < 24`, `0 <= minute < 60`,
`0 <= second < 60`, `setTime(hour, minute, second)` followed by `getTime()` returns
`hour mod 12`, `minute` and `second`. -/
theorem setTime_getTime (c : ClockFace) (hour minute second : Int)
    (hh : 0 ≤ hour ∧ hour < 24) (hm : 0 ≤ minute ∧ minute < 60)
    (hs : 0 ≤ second ∧ second < 60) :
    (c.setTime (hour : ℚ) (minute : ℚ) (second : ℚ)).getTime =
      { hour := ((hour % 12 : Int) : ℚ), minute := (minute : ℚ), second := (second : ℚ) } := by
  obtain ⟨hh0, hh1⟩ := hh
  obtain ⟨hm0, hm1⟩ := hm
  obtain ⟨hs0, hs1⟩ := hs
  have H0 : 0 ≤ hour % 12 := by omega
  have H1 : hour % 12 ≤ 11 := by omega
  have qH0 : (0 : ℚ) ≤ ((hour % 12 : Int) : ℚ) := by exact_mod_cast H0
  have qH1 : ((hour % 12 : Int) : ℚ) ≤ 11 := by exact_mod_cast H1
  have qm0 : (0 : ℚ) ≤ (minute : ℚ) := by exact_mod_cast hm0
  have qm1 : (minute : ℚ) ≤ 59 := by exact_mod_cast (show minute ≤ 59 by omega)
  have qs0 : (0 : ℚ) ≤ (second : ℚ) := by exact_mod_cast hs0
  have qs1 : (second : ℚ) ≤ 59 := by exact_mod_cast (show second ≤ 59 by omega)
  have eh : jsRem (30 * jsRem (hour : ℚ) 12 + 1 / 2 * (minute : ℚ) + 1 / 2 * (second : ℚ) / 60) 360
      = 30 * ((hour % 12 : Int) : ℚ) + 1 / 2 * (minute : ℚ) + 1 / 2 * (second : ℚ) / 60 := by
    rw [jsRem_hour hour hh0 hh1]
    exact jsRem_of_nonneg_lt (by linarith) (by linarith)
  have em : jsRem (6 * (minute : ℚ) + 1 / 10 * (second : ℚ)) 360
      = 6 * (minute : ℚ) + 1 / 10 * (second : ℚ) :=
    jsRem_of_nonneg_lt (by linarith) (by linarith)
  have es : jsRem (6 * (second : ℚ)) 360 = 6 * (second : ℚ) :=
    jsRem_of_nonneg_lt (by linarith) (by linarith)
  have fh : ⌊(30 * ((hour % 12 : Int) : ℚ) + 1 / 2 * (minute : ℚ) + 1 / 2 * (second : ℚ) / 60) / 30⌋
      = hour % 12 := floor_div_eq _ (by norm_num) (by linarith) (by linarith)
  have fm : ⌊(6 * (minute : ℚ) + 1 / 10 * (second : ℚ)) / 6⌋ = minute :=
    floor_div_eq _ (by norm_num) (by linarith) (by linarith)
  have fs : ⌊(6 * (second : ℚ)) / 6⌋ = second :=
    floor_div_eq _ (by norm_num) (by linarith) (by linarith)
  simp only [ClockFace.getTime, ClockFace.setTime, Hand.setAngle, Hand.getAngle, eh, em, es, fh,
    fm, fs]
  rw [jsRem_of_nonneg_lt qH0 (by linarith), jsRem_of_nonneg_lt qm0 (by linarith),
    jsRem_of_nonneg_lt qs0 (by linarith)]

theorem setTime_getTime_witness :
    ((0 : Int) ≤ 13 ∧ (13 : Int) < 24) ∧ ((0 : Int) ≤ 45 ∧ (45 : Int) < 60) ∧
      ((0 : Int) ≤ 30 ∧ (30 : Int) < 60) ∧
      (ClockFace.new.setTime ((13 : Int) : ℚ) ((45 : Int) : ℚ) ((30 : Int) : ℚ)).getTime =
        { hour := (((13 : Int) % 12 : Int) : ℚ), minute := ((45 : Int) : ℚ),
          second := ((30 : Int) : ℚ) } :=
  ⟨by decide, by decide, by decide,
    setTime_getTime ClockFace.new 13 45 30 (by decide) (by decide) (by decide)⟩

theorem jsRem_neg_ninety : jsRem (-90) 360 = -90 := by
  have hq : ¬ (0 : ℚ) ≤ -90 / 360 := by norm_num
  have hc : ⌈(-90 : ℚ) / 360⌉ = 0 := by
    rw [Int.ceil_eq_iff]; norm_num
  simp [jsRem, hq, hc]

/-- C21 (the code at the failing input): after `setAngle(-90)` on a new hand of speed 6,
`getAngle()` returns -90, which is below 0; `rotate(-15)` on a new hand gives the same angle. -/
theorem getAngle_negative_example :
    ((Hand.new 6).setAngle (-90)).getAngle = -90 ∧ ((Hand.new 6).setAngle (-90)).getAngle < 0 ∧
      ((Hand.new 6).run [HandOp.rotate (-15)]).getAngle = -90 := by
  have e : ((Hand.new 6).run [HandOp.rotate (-15)]).getAngle = jsRem (-90) 360 := by
    simp only [Hand.run, Hand.rotate, Hand.new, Hand.getAngle]
    norm_num
  refine ⟨jsRem_neg_ninety, ?_, e.trans jsRem_neg_ninety⟩
  show jsRem (-90) 360 < 0
  rw [jsRem_neg_ninety]; norm_num

end AnalogClock

namespace LibraryManagement

theorem findFirst_some {α : Type} (p : α → Bool) :
    ∀ (l : List α) (i : Nat) (a : α), findFirst p l = some (i, a) →
      l[i]? = some a ∧ p a = true := by
  intro l
  induction l with
  | nil => intro i a h; simp [findFirst] at h
  | cons x rest ih =>
    intro i a h
    simp only [findFirst] at h
    split at h
    · rename_i hp
      simp only [Option.some.injEq, Prod.mk.injEq] at h
      obtain ⟨rfl, rfl⟩ := h
      exact ⟨by simp, hp⟩
    · split at h
      · cases h
      · rename_i j b hj
        simp only [Option.some.injEq, Prod.mk.injEq] at h
        obtain ⟨rfl, rfl⟩ := h
        have := ih j b hj
        exact ⟨by simpa using this.1, this.2⟩

theorem findFirst_set {α : Type} (p : α → Bool) :
    ∀ (l : List α) (i : Nat) (a b : α), findFirst p l = some (i, a) → p b = true →
      findFirst p (l.set i b) = some (i, b) := by
  intro l
  induction l with
  | nil => intro i a b h; simp [findFirst] at h
  | cons x rest ih =>
    intro i a b h hb
    simp only [findFirst] at h
    split at h
    · simp only [Option.some.injEq, Prod.mk.injEq] at h
      obtain ⟨rfl, rfl⟩ := h
      simp [findFirst, hb]
    · rename_i hp
      split at h
      · cases h
      · rename_i j c hj
        simp only [Option.some.injEq, Prod.mk.injEq] at h
        obtain ⟨rfl, rfl⟩ := h
        have := ih j c b hj hb
        simp [findFirst, hp, this]

namespace Library

theorem unreturned_eq_zero {l : Library} {bi : Nat}
    (h : ∀ r ∈ l.loanRecords, r.book ≠ bi) : l.unreturned bi = 0 := by
  unfold unreturned
  rw [List.countP_eq_zero]
  intro r hr
  simp [h r hr]

theorem library_inv_new : Library.new.Inv := by
  refine ⟨fun r hr => ?_, fun bi book h => ?_⟩
  · simp [Library.new] at hr
  · simp [Library.new] at h

theorem library_inv_addBook {l : Library} (hinv : l.Inv) (isbn title author : String) :
    (l.addBook isbn title author).Inv := by
  obtain ⟨ha, hb⟩ := hinv
  refine ⟨fun r hr => ?_, fun bi book h => ?_⟩
  · have := ha r hr
    simp only [addBook, List.length_append, List.length_singleton]
    omega
  · simp only [addBook] at h
    by_cases hlt : bi < l.books.length
    · rw [List.getElem?_append_left hlt] at h
      exact hb bi book h
    · by_cases heq : bi = l.books.length
      · subst heq
        rw [List.getElem?_concat_length] at h
        cases h
        simp only [if_true]
        exact unreturned_eq_zero (fun r hr => by have := ha r hr; omega)
      · rw [List.getElem?_eq_none (by simp only [List.length_append, List.length_singleton]; omega)]
          at h
        cases h

theorem loanBook_cases (l : Library) (isbn memberId : String) :
    (l.loanBook isbn memberId = (false, l) ∧
      ¬ ∃ bi book mi member, l._findBook isbn = some (bi, book) ∧
        l._findMember memberId = some (mi, member) ∧ book.isAvailable = true) ∨
    (∃ bi book mi member, l._findBook isbn = some (bi, book) ∧
      l._findMember memberId = some (mi, member) ∧ book.isAvailable = true ∧
      l.loanBook isbn memberId =
        (true,
          { loanRecords := l.loanRecords ++ [{ book := bi, member := mi, returned := false }]
            members := l.members.set mi
              { member with loanHistory := member.loanHistory ++ [l.loanRecords.length] }
            books := l.books.set bi { book with isAvailable := false } })) := by
  cases hb : l._findBook isbn with
  | none => exact Or.inl ⟨by simp [loanBook, hb], by simp⟩
  | some bb =>
    obtain ⟨bi, book⟩ := bb
    cases hm : l._findMember memberId with
    | none => exact Or.inl ⟨by simp [loanBook, hb, hm], by simp⟩
    | some mm =>
      obtain ⟨mi, member⟩ := mm
      cases ha : book.isAvailable with
      | false =>
        refine Or.inl ⟨by simp [loanBook, hb, hm, ha], ?_⟩
        rintro ⟨bi2, book2, mi2, member2, h1, -, h3⟩
        simp only [Option.some.injEq, Prod.mk.injEq] at h1
        obtain ⟨-, rfl⟩ := h1
        rw [ha] at h3
        cases h3
      | true =>
        exact Or.inr ⟨bi, book, mi, member, rfl, rfl, ha, by simp [loanBook, hb, hm, ha]⟩

theorem library_inv_loanBook {l : Library} (hinv : l.Inv) (isbn memberId : String) :
    (l.loanBook isbn memberId).2.Inv := by
  rcases loanBook_cases l isbn memberId with ⟨h, -⟩ | ⟨bi, book, mi, member, hb, -, hav, h⟩
  · rw [h]; exact hinv
  · rw [h]
    obtain ⟨ha, hinvb⟩ := hinv
    obtain ⟨hget, -⟩ := findFirst_some _ _ _ _ hb
    have hlt : bi < l.books.length := (List.getElem?_eq_some.1 hget).1
    refine ⟨fun r hr => ?_, fun bj bk hbk => ?_⟩
    · simp only [List.length_set]
      simp only at hr
      rcases List.mem_append.1 hr with h1 | h1
      · exact ha r h1
      · simp only [List.mem_singleton] at h1
        subst h1
        exact hlt
    · simp only at hbk
      have hcount : ∀ bj, Library.unreturned
          { loanRecords := l.loanRecords ++ [{ book := bi, member := mi, returned := false }]
            members := l.members.set mi
              { member with loanHistory := member.loanHistory ++ [l.loanRecords.length] }
            books := l.books.set bi { book with isAvailable := false } } bj =
          l.unreturned bj + if bi = bj then 1 else 0 := by
        intro bj
        simp [unreturned, List.countP_append, List.countP_cons]
      rw [hcount]
      by_cases hj : bi = bj
      · subst hj
        rw [List.getElem?_set_self hlt] at hbk
        cases hbk
        have := hinvb bi book hget
        rw [hav] at this
        simp only [if_true] at this
        simp [this]
      · rw [List.getElem?_set_ne hj] at hbk
        rw [if_neg hj, Nat.add_zero]
        exact hinvb bj bk hbk

theorem returnLoop_spec {l : Library} (hinv : l.Inv) (isbn : String) :
    ∀ n : Nat, n ≤ l.loanRecords.length →
      l.returnLoop isbn n = some (false, l) ∨
      ∃ i record book, l.loanRecords[i]? = some record ∧ l.books[record.book]? = some book ∧
        book.isbn = isbn ∧ record.returned = false ∧
        l.returnLoop isbn n = some (true,
          { l with
            loanRecords := l.loanRecords.set i { record with returned := true }
            books := l.books.set record.book { book with isAvailable := true } }) := by
  intro n
  induction n with
  | zero => intro _; exact Or.inl rfl
  | succ i ih =>
    intro hn
    have hi : i < l.loanRecords.length := by omega
    have hrec : l.loanRecords[i]? = some l.loanRecords[i] := List.getElem?_eq_getElem hi
    have hblt : (l.loanRecords[i]).book < l.books.length :=
      hinv.1 _ (List.getElem_mem _)
    have hbook : l.books[(l.loanRecords[i]).book]? = some l.books[(l.loanRecords[i]).book] :=
      List.getElem?_eq_getElem hblt
    by_cases hc : (l.books[(l.loanRecords[i]).book]).isbn = isbn ∧
        (l.loanRecords[i]).returned = false
    · refine Or.inr ⟨i, _, _, hrec, hbook, hc.1, hc.2, ?_⟩
      simp only [returnLoop, hrec, hbook, hc, and_self, if_true]
    · have hstep : l.returnLoop isbn (i + 1) = l.returnLoop isbn i := by
        simp only [returnLoop, hrec, hbook, hc, if_false]
      rw [hstep]
      exact ih (by omega)

theorem library_inv_return {l : Library} (hinv : l.Inv) {i : Nat} {record : LoanRecord}
    {book : Book} (hrec : l.loanRecords[i]? = some record)
    (hbook : l.books[record.book]? = some book) (hret : record.returned = false) :
    Inv { l with
      loanRecords := l.loanRecords.set i { record with returned := true }
      books := l.books.set record.book { book with isAvailable := true } } := by
  obtain ⟨ha, hinvb⟩ := hinv
  obtain ⟨hi, hreci⟩ := List.getElem?_eq_some.1 hrec
  have hblt : record.book < l.books.length := (List.getElem?_eq_some.1 hbook).1
  have hcount : ∀ bj, Library.unreturned { l with
      loanRecords := l.loanRecords.set i { record with returned := true }
      books := l.books.set record.book { book with isAvailable := true } } bj + 
        (if record.book = bj then 1 else 0) = l.unreturned bj := by
    intro bj
    have h1 := List.countP_set (fun r => decide (r.book = bj) && !r.returned) l.loanRecords i
      { record with returned := true } hi
    have h2 := List.boole_getElem_le_countP (fun r => decide (r.book = bj) && !r.returned)
      l.loanRecords i hi
    simp only [unreturned]
    rw [h1]
    rw [hreci] at h2 ⊢
    by_cases hj : record.book = bj
    · simp only [hj, decide_True, hret, Bool.not_false, Bool.and_self, if_true,
        Bool.not_true, Bool.and_false, Bool.false_eq_true, if_false] at h2 ⊢
      omega
    · simp only [hj, decide_False, Bool.false_and, Bool.false_eq_true, if_false,
        Nat.sub_zero, Nat.add_zero]
  refine ⟨fun r hr => ?_, fun bj bk hbk => ?_⟩
  · simp only [List.length_set]
    simp only at hr
    rcases List.mem_or_eq_of_mem_set hr with h1 | h1
    · exact ha r h1
    · subst h1; exact hblt
  · simp only at hbk
    have hc := hcount bj
    by_cases hj : record.book = bj
    · subst hj
      rw [List.getElem?_set_self hblt] at hbk
      cases hbk
      have := hinvb record.book book hbook
      simp only [if_true] at hc ⊢
      split at this <;> omega
    · rw [List.getElem?_set_ne hj] at hbk
      rw [if_neg hj, Nat.add_zero] at hc
      rw [hc]
      exact hinvb bj bk hbk

theorem library_inv_step {l : Library} (hinv : l.Inv) (op : LibraryOp) :
    ∃ l1, l.step op = some l1 ∧ l1.Inv := by
  cases op with
  | addBook isbn title author => exact ⟨_, rfl, library_inv_addBook hinv isbn title author⟩
  | addMember memberId name => exact ⟨_, rfl, hinv⟩
  | loanBook isbn memberId => exact ⟨_, rfl, library_inv_loanBook hinv isbn memberId⟩
  | returnBook isbn =>
    rcases returnLoop_spec hinv isbn l.loanRecords.length (le_refl _) with
      h | ⟨i, record, book, h1, h2, -, h4, h5⟩
    · exact ⟨l, by simp only [step, returnBook, h, Option.map_some'], hinv⟩
    · exact ⟨_, by simp only [step, returnBook, h5, Option.map_some'],
        library_inv_return hinv h1 h2 h4⟩

theorem library_inv_run {l : Library} (hinv : l.Inv) (ops : List LibraryOp) :
    ∃ l1, l.run ops = some l1 ∧ l1.Inv := by
  induction ops generalizing l with
  | nil => exact ⟨l, rfl, hinv⟩
  | cons op ops ih =>
    obtain ⟨l1, hs, hinv1⟩ := library_inv_step hinv op
    obtain ⟨l2, hr, hinv2⟩ := ih hinv1
    exact ⟨l2, by simp only [run, hs]; exact hr, hinv2⟩

end Library

theorem Library.second_loan (l : Library) (isbn m1 m2 : String)
    (h : (l.loanBook isbn m1).1 = true) :
    (l.loanBook isbn m1).2.loanBook isbn m2 = (false, (l.loanBook isbn m1).2) := by
  rcases Library.loanBook_cases l isbn m1 with ⟨h1, -⟩ | ⟨bi, book, mi, member, hb, -, -, h1⟩
  · rw [h1] at h; cases h
  · rw [h1]
    have hfind : Library._findBook
        { loanRecords := l.loanRecords ++ [{ book := bi, member := mi, returned := false }]
          members := l.members.set mi
            { member with loanHistory := member.loanHistory ++ [l.loanRecords.length] }
          books := l.books.set bi { book with isAvailable := false } } isbn =
        some (bi, { book with isAvailable := false }) := by
      have hp := (findFirst_some _ _ _ _ hb).2
      exact findFirst_set _ _ _ _ _ hb hp
    rcases Library.loanBook_cases
        { loanRecords := l.loanRecords ++ [{ book := bi, member := mi, returned := false }]
          members := l.members.set mi
            { member with loanHistory := member.loanHistory ++ [l.loanRecords.length] }
          books := l.books.set bi { book with isAvailable := false } } isbn m2 with
      ⟨h2, -⟩ | ⟨bi2, book2, mi2, member2, hb2, -, hav2, -⟩
    · exact h2
    · rw [hfind] at hb2
      simp only [Option.some.injEq, Prod.mk.injEq] at hb2
      obtain ⟨-, rfl⟩ := hb2
      cases hav2

/-- C28: every sequence of `addBook`, `addMember`, `loanBook` and `returnBook` calls on a new
library runs to completion, and in the library reached a book is unavailable exactly when it has
one unreturned loan record, no book has two unreturned records, `loanBook` returns true exactly
when the book and the member are found and the book is available, and a second `loanBook` of the
same book right after a successful one returns false and changes nothing. -/
theorem loan_records_invariant (ops : List LibraryOp) :
    ∃ l, Library.new.run ops = some l ∧
      (∀ (bi : Nat) (book : Book), l.books[bi]? = some book →
        (book.isAvailable = false ↔ l.unreturned bi = 1)) ∧
      (∀ bi : Nat, l.unreturned bi ≤ 1) ∧
      (∀ isbn memberId : String, (l.loanBook isbn memberId).1 = true ↔
        ∃ bi book mi member, l._findBook isbn = some (bi, book) ∧
          l._findMember memberId = some (mi, member) ∧ book.isAvailable = true) ∧
      (∀ isbn m1 m2 : String, (l.loanBook isbn m1).1 = true →
        (l.loanBook isbn m1).2.loanBook isbn m2 = (false, (l.loanBook isbn m1).2)) := by
  obtain ⟨l, hr, hinv⟩ := Library.library_inv_run Library.library_inv_new ops
  refine ⟨l, hr, ?_, ?_, ?_, fun isbn m1 m2 h => Library.second_loan l isbn m1 m2 h⟩
  · intro bi book hb
    have := hinv.2 bi book hb
    cases hav : book.isAvailable <;> simp [hav] at this ⊢ <;> omega
  · intro bi
    cases hb : l.books[bi]? with
    | none =>
      have hge : l.books.length ≤ bi := List.getElem?_eq_none_iff.1 hb
      rw [Library.unreturned_eq_zero (fun r hr2 => by have := hinv.1 r hr2; omega)]
      omega
    | some book =>
      have := hinv.2 bi book hb
      split at this <;> omega
  · intro isbn memberId
    rcases Library.loanBook_cases l isbn memberId with ⟨h1, h2⟩ | ⟨bi, book, mi, member, h1, h2, h3, h4⟩
    · rw [h1]
      exact ⟨fun h => (by cases h), fun h => absurd h h2⟩
    · rw [h4]
      exact ⟨fun _ => ⟨bi, book, mi, member, h1, h2, h3⟩, fun _ => rfl⟩

end LibraryManagement

namespace ElevatorControl

namespace ElevatorController

theorem foldl_closer (f : Int) :
    ∀ (l : List Request) (prev : Request),
      (l.foldl (closer f) prev = prev ∧ ∀ x ∈ l, dist f prev ≤ dist f x) ∨
      (∃ l1 r l2, l = l1 ++ r :: l2 ∧ l.foldl (closer f) prev = r ∧ dist f r < dist f prev ∧
        (∀ x ∈ l1, dist f r < dist f x) ∧ (∀ x ∈ l2, dist f r ≤ dist f x)) := by
  intro l
  induction l with
  | nil => intro prev; exact Or.inl ⟨rfl, fun x h => absurd h (List.not_mem_nil x)⟩
  | cons a rest ih =>
    intro prev
    by_cases hlt : dist f a < dist f prev
    · have hc : closer f prev a = a := by
        unfold dist at hlt
        simp only [closer, hlt, if_true]
      rcases ih a with ⟨h1, h2⟩ | ⟨l1, r, l2, h1, h2, h3, h4, h5⟩
      · refine Or.inr ⟨[], a, rest, rfl, ?_, hlt, fun x h => absurd h (List.not_mem_nil x), h2⟩
        simp only [List.foldl_cons, hc, h1]
      · refine Or.inr ⟨a :: l1, r, l2, by rw [h1]; rfl, ?_, by omega, ?_, h5⟩
        · simp only [List.foldl_cons, hc, h2]
        · intro x hx
          rcases List.mem_cons.1 hx with h | h
          · subst h; exact h3
          · exact h4 x h
    · have hc : closer f prev a = prev := by
        unfold dist at hlt
        simp only [closer, hlt, if_false]
      rcases ih prev with ⟨h1, h2⟩ | ⟨l1, r, l2, h1, h2, h3, h4, h5⟩
      · refine Or.inl ⟨by simp only [List.foldl_cons, hc, h1], ?_⟩
        intro x hx
        rcases List.mem_cons.1 hx with h | h
        · subst h; omega
        · exact h2 x h
      · refine Or.inr ⟨a :: l1, r, l2, by rw [h1]; rfl, ?_, h3, ?_, h5⟩
        · simp only [List.foldl_cons, hc, h2]
        · intro x hx
          rcases List.mem_cons.1 hx with h | h
          · subst h; omega
          · exact h4 x h

theorem floors_nodup_addRequest {c : ElevatorController}
    (h : (c.requests.map Request.floor).Nodup) (request : Request) :
    ((c.addRequest request).requests.map Request.floor).Nodup := by
  unfold addRequest
  split
  · exact h
  · rename_i hany
    simp only [List.map_append, List.map_cons, List.map_nil]
    rw [List.nodup_append]
    refine ⟨h, List.nodup_singleton _, ?_⟩
    intro x hx hx2
    simp only [List.mem_singleton] at hx2
    subst hx2
    obtain ⟨r, hr, hrf⟩ := List.mem_map.1 hx
    exact hany (List.any_eq_true.2 ⟨r, hr, by simp [hrf]⟩)

theorem floors_nodup_removeFloor {c : ElevatorController}
    (h : (c.requests.map Request.floor).Nodup) (nextFloor : Int) :
    ((c.removeFloor nextFloor).requests.map Request.floor).Nodup := by
  unfold removeFloor
  simp only
  exact List.Nodup.sublist (List.Sublist.map _ (List.filter_sublist _)) h

theorem floors_nodup_run :
    ∀ (ops : List ControllerOp) (c : ElevatorController),
      (c.requests.map Request.floor).Nodup → ((c.run ops).requests.map Request.floor).Nodup := by
  intro ops
  induction ops with
  | nil => intro c h; exact h
  | cons op ops ih =>
    intro c h
    apply ih
    cases op with
    | addRequest request => exact floors_nodup_addRequest h request
    | removeFloor nextFloor => exact floors_nodup_removeFloor h nextFloor
    | moveTo floor => exact h

end ElevatorController

/-- C29: `_getNextFloor` returns null exactly for an empty request list; for a non-empty list it
returns the floor of a request whose distance to the current floor is minimal, every request
added earlier being strictly farther away; and after any sequence of `addRequest` calls, served
floor removals and elevator moves on a controller without requests, no two pending requests have
the same floor. -/
theorem getNextFloor_closest_first (c : ElevatorController) :
    (c._getNextFloor = none ↔ c.requests = []) ∧
    (c.requests ≠ [] → ∃ l1 r l2, c.requests = l1 ++ r :: l2 ∧ c._getNextFloor = some r.floor ∧
      (∀ x ∈ l1, ElevatorController.dist c.currentFloor r < ElevatorController.dist c.currentFloor x) ∧
      (∀ x ∈ l2, ElevatorController.dist c.currentFloor r ≤ ElevatorController.dist c.currentFloor x)) ∧
    (∀ ops : List ControllerOp,
      (((ElevatorController.mk c.currentFloor []).run ops).requests.map Request.floor).Nodup) := by
  refine ⟨?_, ?_, fun ops => ElevatorController.floors_nodup_run ops _ (by simp)⟩
  · cases hreq : c.requests with
    | nil => simp [ElevatorController._getNextFloor, hreq]
    | cons a rest => simp [ElevatorController._getNextFloor, hreq]
  · intro hne
    cases hreq : c.requests with
    | nil => exact absurd hreq hne
    | cons a rest =>
      rcases ElevatorController.foldl_closer c.currentFloor rest a with
        ⟨h1, h2⟩ | ⟨l1, r, l2, h1, h2, h3, h4, h5⟩
      · refine ⟨[], a, rest, rfl, ?_, fun x h => absurd h (List.not_mem_nil x), h2⟩
        simp only [ElevatorController._getNextFloor, hreq, h1]
      · refine ⟨a :: l1, r, l2, by rw [h1]; rfl, ?_, ?_, h5⟩
        · simp only [ElevatorController._getNextFloor, hreq, h2]
        · intro x hx
          rcases List.mem_cons.1 hx with h | h
          · subst h; exact h3
          · exact h4 x h

theorem getNextFloor_closest_first_witness :
    (ElevatorController.mk 3 [⟨5⟩, ⟨1⟩, ⟨2⟩, ⟨4⟩]).requests ≠ [] ∧
      ∃ l1 r l2, (ElevatorController.mk 3 [⟨5⟩, ⟨1⟩, ⟨2⟩, ⟨4⟩]).requests = l1 ++ r :: l2 ∧
        (ElevatorController.mk 3 [⟨5⟩, ⟨1⟩, ⟨2⟩, ⟨4⟩])._getNextFloor = some r.floor ∧
        (∀ x ∈ l1, ElevatorController.dist 3 r < ElevatorController.dist 3 x) ∧
        (∀ x ∈ l2, ElevatorController.dist 3 r ≤ ElevatorController.dist 3 x) :=
  ⟨by decide,
    (getNextFloor_closest_first (ElevatorController.mk 3 [⟨5⟩, ⟨1⟩, ⟨2⟩, ⟨4⟩])).2.1 (by decide)⟩

end ElevatorControl

namespace RolePlayingGame

namespace Number

theorem roundHalfEven_intCast (k : Int) : roundHalfEven (k : ℚ) = k := by
  simp [roundHalfEven]

theorem roundHalfEven_cases (x : ℚ) :
    (roundHalfEven x = ⌊x⌋ ∧ (x - (⌊x⌋ : Int) < 1 / 2 ∨ (x - (⌊x⌋ : Int) = 1 / 2 ∧ ⌊x⌋ % 2 = 0))) ∨
    (roundHalfEven x = ⌊x⌋ + 1 ∧
      (1 / 2 < x - (⌊x⌋ : Int) ∨ (x - (⌊x⌋ : Int) = 1 / 2 ∧ ¬ ⌊x⌋ % 2 = 0))) := by
  unfold roundHalfEven
  by_cases h1 : x - (⌊x⌋ : Int) < 1 / 2
  · left; rw [if_pos h1]; exact ⟨rfl, Or.inl h1⟩
  · rw [if_neg h1]
    by_cases h2 : 1 / 2 < x - (⌊x⌋ : Int)
    · right; rw [if_pos h2]; exact ⟨rfl, Or.inl h2⟩
    · rw [if_neg h2]
      have h3 : x - (⌊x⌋ : Int) = 1 / 2 := le_antisymm (not_lt.1 h2) (not_lt.1 h1)
      by_cases h4 : ⌊x⌋ % 2 = 0
      · left; rw [if_pos h4]; exact ⟨rfl, Or.inr ⟨h3, h4⟩⟩
      · right; rw [if_neg h4]; exact ⟨rfl, Or.inr ⟨h3, h4⟩⟩

theorem roundHalfEven_mono {x y : ℚ} (h : x ≤ y) : roundHalfEven x ≤ roundHalfEven y := by
  have hf : ⌊x⌋ ≤ ⌊y⌋ := Int.floor_le_floor h
  rcases roundHalfEven_cases x with ⟨hx, hx2⟩ | ⟨hx, hx2⟩ <;>
    rcases roundHalfEven_cases y with ⟨hy, hy2⟩ | ⟨hy, hy2⟩ <;> rw [hx, hy]
  · exact hf
  · omega
  · rcases lt_or_eq_of_le hf with hlt | heq
    · omega
    · exfalso
      rw [heq] at hx2
      rcases hx2 with hx2 | ⟨hx2, hx3⟩ <;> rcases hy2 with hy2 | ⟨hy2, hy3⟩
      · linarith
      · linarith
      · linarith
      · exact hx3 hy3
  · omega

theorem roundHalfEven_le_of_le {x : ℚ} {k : Int} (h : x ≤ k) : roundHalfEven x ≤ k := by
  have := roundHalfEven_mono h
  rwa [roundHalfEven_intCast] at this

theorem le_roundHalfEven_of_le {x : ℚ} {k : Int} (h : (k : ℚ) ≤ x) : k ≤ roundHalfEven x := by
  have := roundHalfEven_mono h
  rwa [roundHalfEven_intCast] at this

theorem roundHalfEven_le_of_lt_add_half {x : ℚ} {k : Int} (h : x < k + 1 / 2) :
    roundHalfEven x ≤ k := by
  have hfl : (⌊x⌋ : ℚ) ≤ x := Int.floor_le x
  rcases roundHalfEven_cases x with ⟨hx, _⟩ | ⟨hx, hx2⟩ <;> rw [hx]
  · have : ⌊x⌋ < k + 1 := by
      have : ((⌊x⌋ : Int) : ℚ) < ((k + 1 : Int) : ℚ) := by push_cast; linarith
      exact_mod_cast this
    omega
  · have h12 : (1 : ℚ) / 2 ≤ x - (⌊x⌋ : Int) := by
      rcases hx2 with h | ⟨h, _⟩
      · exact le_of_lt h
      · exact le_of_eq h.symm
    have : ⌊x⌋ < k := by
      have : ((⌊x⌋ : Int) : ℚ) < ((k : Int) : ℚ) := by linarith
      exact_mod_cast this
    omega

theorem exponent_ge (q : ℚ) : -1022 ≤ exponent q := le_max_right _ _

theorem log_le_exponent (q : ℚ) : Int.log 2 |q| ≤ exponent q := le_max_left _ _

theorem ulp_pos (q : ℚ) : 0 < ulp q := by
  unfold ulp; positivity

theorem two_zpow_mono {a b : Int} (h : a ≤ b) : (2 : ℚ) ^ a ≤ (2 : ℚ) ^ b :=
  zpow_le_zpow_right₀ (by norm_num) h

theorem abs_lt_exponent (q : ℚ) : |q| < (2 : ℚ) ^ (exponent q + 1) := by
  have h1 : |q| < ((2 : Nat) : ℚ) ^ (Int.log 2 |q| + 1) := Int.lt_zpow_succ_log_self (by norm_num) _
  have h2 : (2 : ℚ) ^ (Int.log 2 |q| + 1) ≤ (2 : ℚ) ^ (exponent q + 1) :=
    two_zpow_mono (by have := log_le_exponent q; omega)
  exact lt_of_lt_of_le (by exact_mod_cast h1) h2

theorem exponent_mono {x y : ℚ} (hx : x ≠ 0) (h : |x| ≤ |y|) : exponent x ≤ exponent y := by
  unfold exponent
  exact max_le_max (Int.log_mono_right (abs_pos.2 hx) h) (le_refl _)

theorem zpow_exponent_le {q : ℚ} (hq : q ≠ 0) (h : -1022 < exponent q) :
    (2 : ℚ) ^ exponent q ≤ |q| := by
  have he : exponent q = Int.log 2 |q| := by
    unfold exponent at h ⊢
    rcases max_cases (Int.log 2 |q|) (-1022) with ⟨h1, _⟩ | ⟨h1, _⟩
    · exact h1
    · rw [h1] at h; exact absurd h (lt_irrefl _)
  rw [he]
  have := Int.zpow_log_le_self (b := 2) (r := |q|) (by norm_num) (abs_pos.2 hq)
  exact_mod_cast this

theorem exponent_le_of_abs_lt {q : ℚ} {e : Int} (hq : q ≠ 0) (he : -1022 ≤ e)
    (h : |q| < (2 : ℚ) ^ (e + 1)) : exponent q ≤ e := by
  unfold exponent
  refine max_le ?_ he
  have h2 : |q| < ((2 : Nat) : ℚ) ^ (e + 1) := by exact_mod_cast h
  have := (Int.lt_zpow_iff_log_lt (b := 2) (by norm_num) (abs_pos.2 hq)).1 h2
  omega

theorem div_ulp_abs_lt (q : ℚ) : |q / ulp q| < 2 ^ 53 := by
  rw [abs_div, abs_of_pos (ulp_pos q), div_lt_iff₀ (ulp_pos q)]
  have h := abs_lt_exponent q
  have : (2 : ℚ) ^ 53 * ulp q = (2 : ℚ) ^ (exponent q + 1) := by
    unfold ulp
    rw [show exponent q + 1 = 53 + (exponent q - 52) by ring, zpow_add₀ (by norm_num)]
    norm_num
  rw [this]; exact h

theorem roundHalfEven_div_ulp_le (q : ℚ) : roundHalfEven (q / ulp q) ≤ 2 ^ 53 := by
  apply roundHalfEven_le_of_le
  have := (abs_lt.1 (div_ulp_abs_lt q)).2
  push_cast; exact le_of_lt this

theorem roundHalfEven_div_ulp_ge (q : ℚ) : -(2 ^ 53) ≤ roundHalfEven (q / ulp q) := by
  apply le_roundHalfEven_of_le
  have := (abs_lt.1 (div_ulp_abs_lt q)).1
  push_cast; exact le_of_lt this

theorem roundQ_zero : roundQ 0 = 0 := by
  simp [roundQ, roundHalfEven]

theorem roundQ_nonneg {q : ℚ} (h : 0 ≤ q) : 0 ≤ roundQ q := by
  unfold roundQ
  apply mul_nonneg _ (le_of_lt (ulp_pos q))
  have : (0 : Int) ≤ roundHalfEven (q / ulp q) :=
    le_roundHalfEven_of_le (by push_cast; exact div_nonneg h (le_of_lt (ulp_pos q)))
  exact_mod_cast this

theorem roundQ_nonpos {q : ℚ} (h : q ≤ 0) : roundQ q ≤ 0 := by
  unfold roundQ
  apply mul_nonpos_of_nonpos_of_nonneg _ (le_of_lt (ulp_pos q))
  have : roundHalfEven (q / ulp q) ≤ (0 : Int) :=
    roundHalfEven_le_of_le (by push_cast; exact div_nonpos_of_nonpos_of_nonneg h (le_of_lt (ulp_pos q)))
  exact_mod_cast this

theorem roundQ_le_zpow (q : ℚ) : roundQ q ≤ (2 : ℚ) ^ (exponent q + 1) := by
  unfold roundQ
  have h1 : ((roundHalfEven (q / ulp q) : Int) : ℚ) ≤ 2 ^ 53 := by
    exact_mod_cast roundHalfEven_div_ulp_le q
  have h2 : (2 : ℚ) ^ 53 * ulp q = (2 : ℚ) ^ (exponent q + 1) := by
    unfold ulp
    rw [show exponent q + 1 = 53 + (exponent q - 52) by ring, zpow_add₀ (by norm_num)]
    norm_num
  rw [← h2]
  exact mul_le_mul_of_nonneg_right h1 (le_of_lt (ulp_pos q))

/-- A value on the grid of an exponent is not changed by rounding. -/
theorem roundQ_grid (n e : Int) (he : -1022 ≤ e) (hn : |n| ≤ 2 ^ 53) :
    roundQ ((n : ℚ) * (2 : ℚ) ^ (e - 52)) = (n : ℚ) * (2 : ℚ) ^ (e - 52) := by
  by_cases hn0 : n = 0
  · subst hn0; simp [roundQ_zero]
  have hp : (0 : ℚ) < (2 : ℚ) ^ (e - 52) := by positivity
  have hr0 : (n : ℚ) * (2 : ℚ) ^ (e - 52) ≠ 0 :=
    mul_ne_zero (by exact_mod_cast hn0) (ne_of_gt hp)
  have habs : |(n : ℚ) * (2 : ℚ) ^ (e - 52)| = (|n| : Int) * (2 : ℚ) ^ (e - 52) := by
    rw [abs_mul, abs_of_pos hp]; push_cast; rfl
  -- the quotient by the unit is an integer
  have hint : ∃ k : Int, (n : ℚ) * (2 : ℚ) ^ (e - 52) / ulp ((n : ℚ) * (2 : ℚ) ^ (e - 52)) = k := by
    rcases lt_or_eq_of_le hn with hlt | heq
    · have hex : exponent ((n : ℚ) * (2 : ℚ) ^ (e - 52)) ≤ e := by
        apply exponent_le_of_abs_lt hr0 he
        rw [habs, show e + 1 = 53 + (e - 52) by ring, zpow_add₀ (by norm_num)]
        apply mul_lt_mul_of_pos_right _ hp
        have : ((|n| : Int) : ℚ) < ((2 ^ 53 : Int) : ℚ) := by exact_mod_cast hlt
        norm_num at this ⊢; exact this
      obtain ⟨d, hd⟩ : ∃ d : Nat, e = exponent ((n : ℚ) * (2 : ℚ) ^ (e - 52)) + d :=
        ⟨(e - exponent ((n : ℚ) * (2 : ℚ) ^ (e - 52))).toNat, by omega⟩
      refine ⟨n * 2 ^ d, ?_⟩
      unfold ulp
      generalize exponent ((n : ℚ) * (2 : ℚ) ^ (e - 52)) = e2 at hd
      subst hd
      rw [show e2 + (d : Int) - 52 = (e2 - 52) + (d : Int) by ring, zpow_add₀ (by norm_num),
        zpow_natCast]
      have : (2 : ℚ) ^ (e2 - 52) ≠ 0 := by positivity
      field_simp
      ring
    · have hex : exponent ((n : ℚ) * (2 : ℚ) ^ (e - 52)) = e + 1 := by
        unfold exponent
        have : |(n : ℚ) * (2 : ℚ) ^ (e - 52)| = ((2 : Nat) : ℚ) ^ (e + 1) := by
          rw [habs, heq, show e + 1 = 53 + (e - 52) by ring, zpow_add₀ (by norm_num)]
          norm_num
        rw [this, Int.log_zpow (by norm_num)]
        exact max_eq_left (by omega)
      have hn2 : ∃ k : Int, n = 2 * k := by
        rcases abs_cases n with ⟨h1, _⟩ | ⟨h1, _⟩
        · exact ⟨2 ^ 52, by omega⟩
        · exact ⟨-2 ^ 52, by omega⟩
      obtain ⟨k, hk⟩ := hn2
      refine ⟨k, ?_⟩
      unfold ulp
      rw [hex, hk, show e + 1 - 52 = (e - 52) + 1 by ring, zpow_add₀ (by norm_num)]
      have : (2 : ℚ) ^ (e - 52) ≠ 0 := by positivity
      field_simp
      ring
  obtain ⟨k, hk⟩ := hint
  unfold roundQ
  rw [hk, roundHalfEven_intCast, ← hk]
  exact div_mul_cancel₀ _ (ne_of_gt (ulp_pos _))

theorem roundQ_roundQ (q : ℚ) : roundQ (roundQ q) = roundQ q := by
  have h : roundQ q = ((roundHalfEven (q / ulp q) : Int) : ℚ) * (2 : ℚ) ^ (exponent q - 52) := rfl
  rw [h]
  apply roundQ_grid _ _ (exponent_ge q)
  rw [abs_le]
  exact ⟨roundHalfEven_div_ulp_ge q, roundHalfEven_div_ulp_le q⟩

theorem roundQ_intCast (n : Int) (hn : |n| ≤ 2 ^ 53) : roundQ (n : ℚ) = n := by
  have := roundQ_grid n 52 (by norm_num) hn
  simpa using this

/-- Rounding does not pass a representable value above it. -/
theorem roundQ_le_of_le {x m : ℚ} (hx : 0 ≤ x) (hxm : x ≤ m) (hm : roundQ m = m) :
    roundQ x ≤ m := by
  rcases eq_or_lt_of_le hx with h0 | hpos
  · rw [← h0, roundQ_zero]; exact le_trans hx hxm
  have hx0 : x ≠ 0 := ne_of_gt hpos
  have hm0 : m ≠ 0 := ne_of_gt (lt_of_lt_of_le hpos hxm)
  have hexp : exponent x ≤ exponent m :=
    exponent_mono hx0 (by rw [abs_of_pos hpos, abs_of_pos (lt_of_lt_of_le hpos hxm)]; exact hxm)
  rcases eq_or_lt_of_le hexp with heq | hlt
  · have hu : ulp x = ulp m := by unfold ulp; rw [heq]
    rw [← hm]
    unfold roundQ
    rw [hu]
    apply mul_le_mul_of_nonneg_right _ (le_of_lt (ulp_pos m))
    have : roundHalfEven (x / ulp m) ≤ roundHalfEven (m / ulp m) :=
      roundHalfEven_mono (div_le_div_of_nonneg_right hxm (le_of_lt (ulp_pos m)))
    exact_mod_cast this
  · have h1 := roundQ_le_zpow x
    have h2 : (2 : ℚ) ^ (exponent x + 1) ≤ (2 : ℚ) ^ exponent m := two_zpow_mono (by omega)
    have h3 := zpow_exponent_le hm0 (by have := exponent_ge x; omega)
    rw [abs_of_pos (lt_of_lt_of_le hpos hxm)] at h3
    linarith

theorem maxValue_pos : 0 < maxValue := by
  unfold maxValue; norm_num

theorem round_cases (q : ℚ) :
    (round q = posInf ∧ maxValue < roundQ q) ∨ (round q = negInf ∧ roundQ q < -maxValue) ∨
    (round q = fin (roundQ q) ∧ -maxValue ≤ roundQ q ∧ roundQ q ≤ maxValue) := by
  unfold round
  by_cases h1 : maxValue < roundQ q
  · left; rw [if_pos h1]; exact ⟨rfl, h1⟩
  · rw [if_neg h1]
    by_cases h2 : roundQ q < -maxValue
    · right; left; rw [if_pos h2]; exact ⟨rfl, h2⟩
    · right; right; rw [if_neg h2]; exact ⟨rfl, not_lt.1 h2, not_lt.1 h1⟩

theorem round_of_bounds {q : ℚ} (h1 : -maxValue ≤ roundQ q) (h2 : roundQ q ≤ maxValue) :
    round q = fin (roundQ q) := by
  unfold round
  rw [if_neg (not_lt.2 h2), if_neg (not_lt.2 h1)]

theorem round_intCast (n : Int) (hn : |n| ≤ 2 ^ 53) : round (n : ℚ) = fin n := by
  have h := roundQ_intCast n hn
  have hb : |(n : ℚ)| ≤ maxValue := by
    have h1 : |(n : ℚ)| ≤ 2 ^ 53 := by
      have : ((|n| : Int) : ℚ) ≤ ((2 ^ 53 : Int) : ℚ) := by exact_mod_cast hn
      push_cast at this; exact this
    refine le_trans h1 ?_
    unfold maxValue; norm_num
  rw [round_of_bounds (by rw [h]; exact neg_le_of_abs_le hb) (by rw [h]; exact le_of_abs_le hb), h]

theorem isDouble_intCast (n : Int) (hn : |n| ≤ 2 ^ 53) : (fin (n : ℚ)).IsDouble := by
  refine ⟨roundQ_intCast n hn, ?_⟩
  have h1 : |(n : ℚ)| ≤ 2 ^ 53 := by
    have : ((|n| : Int) : ℚ) ≤ ((2 ^ 53 : Int) : ℚ) := by exact_mod_cast hn
    push_cast at this; exact this
  refine le_trans h1 ?_
  unfold maxValue; norm_num

theorem ge_zero_cases {d : Number} (h : Number.ge d (fin 0) = true) :
    d = posInf ∨ ∃ q : ℚ, d = fin q ∧ 0 ≤ q := by
  cases d with
  | nan => simp [Number.ge, Number.le] at h
  | posInf => exact Or.inl rfl
  | negInf => simp [Number.ge, Number.le] at h
  | fin q => exact Or.inr ⟨q, rfl, by simpa [Number.ge, Number.le] using h⟩

/-- Adding 10 to a finite value does not overflow. -/
theorem roundQ_add_ten_le {m : ℚ} (h0 : 0 ≤ m) (hm : m ≤ maxValue) :
    roundQ (m + 10) ≤ maxValue := by
  have hx : 0 < m + 10 := by linarith
  have hx0 : m + 10 ≠ 0 := ne_of_gt hx
  have hlt : |m + 10| < (2 : ℚ) ^ ((1023 : Int) + 1) := by
    rw [abs_of_pos hx]
    have : (2 : ℚ) ^ ((1023 : Int) + 1) = 2 ^ 1024 := by norm_num
    rw [this]
    unfold maxValue at hm
    have h10 : (10 : ℚ) < 2 ^ 971 := by norm_num
    have h2 : ((2 : ℚ) ^ 53 - 1) * 2 ^ 971 + 2 ^ 971 = 2 ^ 1024 := by norm_num
    linarith
  have hexp : exponent (m + 10) ≤ 1023 := exponent_le_of_abs_lt hx0 (by norm_num) hlt
  rcases lt_or_eq_of_le hexp with hl | he
  · have h1 := roundQ_le_zpow (m + 10)
    have h2 : (2 : ℚ) ^ (exponent (m + 10) + 1) ≤ (2 : ℚ) ^ (1023 : Int) :=
      two_zpow_mono (by omega)
    have h3 : (2 : ℚ) ^ (1023 : Int) ≤ maxValue := by
      have : (2 : ℚ) ^ (1023 : Int) = 2 ^ 1023 := by norm_num
      rw [this]; unfold maxValue; norm_num
    linarith
  · obtain ⟨P, hP, hP20⟩ : ∃ P : ℚ, (2 : ℚ) ^ (971 : Int) = P ∧ 20 < P :=
      ⟨_, rfl, by norm_num⟩
    have hPm : maxValue = (2 ^ 53 - 1) * P := by
      rw [← hP]; unfold maxValue; norm_num
    have hu : ulp (m + 10) = P := by
      unfold ulp; rw [he, ← hP]; norm_num
    have hPpos : 0 < P := by linarith
    unfold roundQ
    rw [hu, hPm]
    rw [hPm] at hm
    have hr : roundHalfEven ((m + 10) / P) ≤ 2 ^ 53 - 1 := by
      apply roundHalfEven_le_of_lt_add_half
      rw [div_lt_iff₀ hPpos]
      push_cast
      nlinarith
    have hr2 : ((roundHalfEven ((m + 10) / P) : Int) : ℚ) ≤ 2 ^ 53 - 1 := by
      exact_mod_cast hr
    exact mul_le_mul_of_nonneg_right hr2 (le_of_lt hPpos)

end Number

theorem Character.inRange_new (name : String) {hitPoints : Number} (attackPower : Number)
    (hd : hitPoints.IsDouble) (hf : hitPoints.IsFinite)
    (hhp : Number.ge hitPoints (Number.fin 0) = true) :
    (Character.new name hitPoints attackPower).InRange := by
  cases hitPoints with
  | nan => exact absurd hf not_false
  | posInf => exact absurd hf not_false
  | negInf => exact absurd hf not_false
  | fin q =>
    have hq : 0 ≤ q := by simpa [Number.ge, Number.le] using hhp
    exact ⟨q, q, rfl, rfl, hq, le_refl _, hd.1, hd.1, le_trans (le_abs_self q) hd.2⟩

theorem Character.inRange_takeDamage {c : Character} (h : c.InRange) {damage : Number}
    (hd : Number.ge damage (Number.fin 0) = true) : (c.takeDamage damage).InRange := by
  obtain ⟨hp, m, hhp, hm, h0, hle, hrh, hrm, hmax⟩ := h
  have hzero : ({ c with hitPoints := Number.fin 0 } : Character).InRange :=
    ⟨0, m, rfl, hm, le_refl _, le_trans h0 hle, Number.roundQ_zero, hrm, hmax⟩
  unfold Character.takeDamage
  rcases Number.ge_zero_cases hd with rfl | ⟨q, rfl, hq⟩
  · rw [hhp]
    simp only [Number.sub, Number.neg, Number.add, Number.lt, if_true]
    exact hzero
  · rw [hhp]
    simp only [Number.sub, Number.neg, Number.add]
    have hup : Number.roundQ (hp + -q) ≤ hp := by
      rcases le_or_lt 0 (hp + -q) with hge | hlt
      · exact Number.roundQ_le_of_le hge (by linarith) hrh
      · exact le_trans (Number.roundQ_nonpos (le_of_lt hlt)) h0
    rcases Number.round_cases (hp + -q) with ⟨hr, hb⟩ | ⟨hr, _⟩ | ⟨hr, _, _⟩
    · exfalso; linarith
    · rw [hr]; simp only [Number.lt, if_true]; exact hzero
    · rw [hr]
      by_cases hneg : Number.roundQ (hp + -q) < 0
      · rw [if_pos (by simp [Number.lt, hneg])]; exact hzero
      · rw [if_neg (by simp [Number.lt, hneg])]
        exact ⟨_, m, rfl, hm, not_lt.1 hneg, le_trans hup hle, Number.roundQ_roundQ _, hrm, hmax⟩

theorem Character.inRange_heal {c : Character} (h : c.InRange) {amount : Number}
    (ha : Number.ge amount (Number.fin 0) = true) : (c.heal amount).InRange := by
  obtain ⟨hp, m, hhp, hm, h0, hle, hrh, hrm, hmax⟩ := h
  have hfull : ({ c with hitPoints := c.maxHitPoints } : Character).InRange :=
    ⟨m, m, hm, hm, le_trans h0 hle, le_refl _, hrm, hrm, hmax⟩
  unfold Character.heal
  rcases Number.ge_zero_cases ha with rfl | ⟨q, rfl, hq⟩
  · rw [hhp, hm]
    simp only [Number.add, Number.gt, Number.lt, if_true]
    rw [← hm]; exact hfull
  · rw [hhp]
    simp only [Number.add]
    have hlow : 0 ≤ Number.roundQ (hp + q) := Number.roundQ_nonneg (by linarith)
    rcases Number.round_cases (hp + q) with ⟨hr, _⟩ | ⟨hr, hb⟩ | ⟨hr, _, _⟩
    · rw [hr, hm]; simp only [Number.gt, Number.lt, if_true]
      rw [← hm]; exact hfull
    · exfalso; have := Number.maxValue_pos; linarith
    · rw [hr, hm]
      by_cases hgt : m < Number.roundQ (hp + q)
      · rw [if_pos (by simp [Number.gt, Number.lt, hgt])]
        rw [← hm]; exact hfull
      · rw [if_neg (by simp [Number.gt, Number.lt, hgt])]
        exact ⟨_, m, rfl, rfl, hlow, not_lt.1 hgt, Number.roundQ_roundQ _, hrm, hmax⟩

theorem Number.mul_two_ge_zero {a : Number} (h : Number.ge a (Number.fin 0) = true) :
    Number.ge (Number.mul a (Number.fin 2)) (Number.fin 0) = true := by
  rcases Number.ge_zero_cases h with rfl | ⟨q, rfl, hq⟩
  · simp [Number.mul, Number.sign, Number.ge, Number.le]
  · simp only [Number.mul]
    have hlow : 0 ≤ Number.roundQ (q * 2) := Number.roundQ_nonneg (by linarith)
    rcases Number.round_cases (q * 2) with ⟨hr, _⟩ | ⟨hr, hb⟩ | ⟨hr, _, _⟩
    · rw [hr]; rfl
    · exfalso; have := Number.maxValue_pos; linarith
    · rw [hr]; simpa [Number.ge, Number.le] using hlow

theorem Character.inRange_step {c : Character} (h : c.InRange) {op : CharacterOp}
    (hop : op.Admissible) : (c.step op).InRange := by
  cases op with
  | takeDamage damage => exact Character.inRange_takeDamage h hop
  | heal amount => exact Character.inRange_heal h hop
  | attackedBy attacker => exact Character.inRange_takeDamage h hop
  | attackedByThief attacker critical =>
    have hop2 : Number.ge attacker.attackPower (Number.fin 0) = true := hop
    cases critical with
    | true => exact Character.inRange_takeDamage h (Number.mul_two_ge_zero hop2)
    | false => exact Character.inRange_takeDamage h hop2
  | attack target => exact h

theorem Character.inRange_run :
    ∀ (ops : List CharacterOp) (c : Character), c.InRange → (∀ op ∈ ops, op.Admissible) →
      (c.run ops).InRange := by
  intro ops
  induction ops with
  | nil => intro c h _; exact h
  | cons op ops ih =>
    intro c h hops
    exact ih _ (Character.inRange_step h (hops op (List.mem_cons_self _ _)))
      (fun o ho => hops o (List.mem_cons_of_mem _ ho))

theorem Player.inRange_levelUp {p : Player} (h : p.toCharacter.InRange) :
    p.levelUp.toCharacter.InRange := by
  obtain ⟨hp, m, hhp, hm, h0, hle, hrh, hrm, hmax⟩ := h
  have hm0 : 0 ≤ m := le_trans h0 hle
  have hlow : 0 ≤ Number.roundQ (m + 10) := Number.roundQ_nonneg (by linarith)
  have hup : Number.roundQ (m + 10) ≤ Number.maxValue := Number.roundQ_add_ten_le hm0 hmax
  have hr : Number.add p.maxHitPoints (Number.fin 10) = Number.fin (Number.roundQ (m + 10)) := by
    rw [hm]; simp only [Number.add]
    exact Number.round_of_bounds (by have := Number.maxValue_pos; linarith) hup
  exact ⟨_, _, hr, hr, hlow, le_refl _, Number.roundQ_roundQ _, Number.roundQ_roundQ _, hup⟩

theorem Player.player_inRange_step {p : Player} (h : p.toCharacter.InRange) {op : PlayerOp}
    (hop : op.Admissible) : (p.step op).toCharacter.InRange := by
  cases op with
  | base op => exact Character.inRange_step h hop
  | levelUp => exact Player.inRange_levelUp h
  | gainExperience exp =>
    simp only [Player.step, Player.gainExperience]
    split
    · exact Player.inRange_levelUp (p := { p with experience := Number.add p.experience exp }) h
    · exact h

theorem Player.player_inRange_run :
    ∀ (ops : List PlayerOp) (p : Player), p.toCharacter.InRange →
      (∀ op ∈ ops, op.Admissible) → (p.run ops).toCharacter.InRange := by
  intro ops
  induction ops with
  | nil => intro p h _; exact h
  | cons op ops ih =>
    intro p h hops
    exact ih _ (Player.player_inRange_step h (hops op (List.mem_cons_self _ _)))
      (fun o ho => hops o (List.mem_cons_of_mem _ ho))

/-- What the range invariant says through the getters. -/
theorem Character.inRange_observed {c : Character} (h : c.InRange) :
    Number.le (Number.fin 0) c.getHitPoints = true ∧
      Number.le c.getHitPoints c.getMaxHitPoints = true ∧
      (c.isAlive = false ↔ Number.eq c.getHitPoints (Number.fin 0) = true) := by
  obtain ⟨hp, m, hhp, hm, h0, hle, -, -, -⟩ := h
  simp only [Character.getHitPoints, Character.getMaxHitPoints, Character.isAlive, hhp, hm,
    Number.le, Number.gt, Number.lt, Number.eq, decide_eq_true_eq, decide_eq_false_iff_not, not_lt]
  exact ⟨h0, hle, fun h => le_antisymm h h0, fun h => le_of_eq h⟩

theorem Number.isDouble_ten : (Number.fin 10).IsDouble := by
  have h := Number.isDouble_intCast 10 (by norm_num)
  simpa using h

theorem Number.round_fifteen : Number.round 15 = Number.fin 15 := by
  have h := Number.round_intCast 15 (by norm_num)
  simpa using h

/-- C30 (counterexamples): a target created with 10 hit points and attacked once by a character
created with 10 hit points and attack power -5 has 15 hit points, more than its maximum 10; and
a character created with `Infinity` hit points has `NaN` hit points after `takeDamage(Infinity)`,
so that `0 <= getHitPoints()` is false, and `isAlive()` is false although `getHitPoints()` is
not 0. -/
theorem hitPoints_out_of_range_examples :
    (Number.ge (Number.fin 10) (Number.fin 0) = true ∧
      ((Character.new "target" (Number.fin 10) (Number.fin 5)).run
        [CharacterOp.attackedBy (Character.new "attacker" (Number.fin 10) (Number.fin (-5)))]).getHitPoints
          = Number.fin 15 ∧
      ((Character.new "target" (Number.fin 10) (Number.fin 5)).run
        [CharacterOp.attackedBy (Character.new "attacker" (Number.fin 10) (Number.fin (-5)))]).getMaxHitPoints
          = Number.fin 10 ∧
      Number.le
        ((Character.new "target" (Number.fin 10) (Number.fin 5)).run
          [CharacterOp.attackedBy
            (Character.new "attacker" (Number.fin 10) (Number.fin (-5)))]).getHitPoints
        ((Character.new "target" (Number.fin 10) (Number.fin 5)).run
          [CharacterOp.attackedBy
            (Character.new "attacker" (Number.fin 10) (Number.fin (-5)))]).getMaxHitPoints = false) ∧
    (Number.ge Number.posInf (Number.fin 0) = true ∧
      ((Character.new "inf" Number.posInf (Number.fin 0)).run
        [CharacterOp.takeDamage Number.posInf]).getHitPoints = Number.nan ∧
      Number.le (Number.fin 0) ((Character.new "inf" Number.posInf (Number.fin 0)).run
        [CharacterOp.takeDamage Number.posInf]).getHitPoints = false ∧
      ((Character.new "inf" Number.posInf (Number.fin 0)).run
        [CharacterOp.takeDamage Number.posInf]).isAlive = false ∧
      Number.eq ((Character.new "inf" Number.posInf (Number.fin 0)).run
        [CharacterOp.takeDamage Number.posInf]).getHitPoints (Number.fin 0) = false) := by
  have h1 : (Character.new "target" (Number.fin 10) (Number.fin 5)).run
      [CharacterOp.attackedBy (Character.new "attacker" (Number.fin 10) (Number.fin (-5)))] =
      { name := "target", maxHitPoints := Number.fin 10, hitPoints := Number.fin 15,
        attackPower := Number.fin 5 } := by
    have h15 : Number.sub (Number.fin 10) (Number.fin (-5)) = Number.fin 15 := by
      simp only [Number.sub, Number.neg, Number.add]
      norm_num
      exact Number.round_fifteen
    simp only [Character.run, Character.step, Character.attack, Character.takeDamage,
      Character.new, h15]
    simp [Number.lt]
  have h2 : (Character.new "inf" Number.posInf (Number.fin 0)).run [CharacterOp.takeDamage Number.posInf] =
      { name := "inf", maxHitPoints := Number.posInf, hitPoints := Number.nan,
        attackPower := Number.fin 0 } := by
    simp [Character.run, Character.step, Character.takeDamage, Character.new, Number.sub, Number.neg,
      Number.add, Number.lt]
  rw [h1, h2]
  norm_num [Character.getHitPoints, Character.getMaxHitPoints, Character.isAlive, Number.ge, Number.le,
    Number.gt, Number.lt, Number.eq]

/-- C30 (amended): for a `Character` or a `Player` created with a finite number
`hitPoints >= 0`, after any sequence of `takeDamage(d)` and `heal(a)` with numbers `d, a >= 0`
(`Infinity` included), of attacks by attackers whose attack power is `>= 0`, of its own attacks,
and for a player of `levelUp` and `gainExperience` calls, `0 <= getHitPoints()` and
`getHitPoints() <= getMaxHitPoints()` hold, and `isAlive()` is false exactly when
`getHitPoints() === 0`. The arithmetic is that of binary64 numbers, rounding included. -/
theorem hitPoints_in_range (name : String) (hitPoints attackPower : Number)
    (hnum : hitPoints.IsDouble) (hfin : hitPoints.IsFinite)
    (hhp : Number.ge hitPoints (Number.fin 0) = true)
    (cops : List CharacterOp) (hc : ∀ op ∈ cops, op.Admissible)
    (pops : List PlayerOp) (hp : ∀ op ∈ pops, op.Admissible) :
    (Number.le (Number.fin 0) ((Character.new name hitPoints attackPower).run cops).getHitPoints
        = true ∧
      Number.le ((Character.new name hitPoints attackPower).run cops).getHitPoints
        ((Character.new name hitPoints attackPower).run cops).getMaxHitPoints = true ∧
      (((Character.new name hitPoints attackPower).run cops).isAlive = false ↔
        Number.eq ((Character.new name hitPoints attackPower).run cops).getHitPoints (Number.fin 0)
          = true)) ∧
    (Number.le (Number.fin 0) ((Player.new name hitPoints attackPower).run pops).getHitPoints
        = true ∧
      Number.le ((Player.new name hitPoints attackPower).run pops).getHitPoints
        ((Player.new name hitPoints attackPower).run pops).getMaxHitPoints = true ∧
      (((Player.new name hitPoints attackPower).run pops).isAlive = false ↔
        Number.eq ((Player.new name hitPoints attackPower).run pops).getHitPoints (Number.fin 0)
          = true)) := by
  have h0 := Character.inRange_new name attackPower hnum hfin hhp
  have h1 := Character.inRange_run cops _ h0 hc
  have h2 := Player.player_inRange_run pops (Player.new name hitPoints attackPower) h0 hp
  exact ⟨Character.inRange_observed h1, Character.inRange_observed h2⟩

theorem exampleCharacterOps_admissible :
    ∀ op ∈ [CharacterOp.takeDamage (Number.fin 3), CharacterOp.heal Number.posInf,
        CharacterOp.attackedBy (Character.new "enemy" (Number.fin 30) (Number.fin 20))],
      op.Admissible := by
  intro op h
  simp only [List.mem_cons, List.mem_singleton, List.mem_nil_iff, or_false] at h
  rcases h with rfl | rfl | rfl <;> simp [CharacterOp.Admissible, Character.new, Number.ge, Number.le]

theorem examplePlayerOps_admissible :
    ∀ op ∈ [PlayerOp.base (CharacterOp.takeDamage (Number.fin 4)),
        PlayerOp.gainExperience (Number.fin 150),
        PlayerOp.base
          (CharacterOp.attackedByThief (Character.new "thief" (Number.fin 90) (Number.fin 18)) true),
        PlayerOp.levelUp], op.Admissible := by
  intro op h
  simp only [List.mem_cons, List.mem_singleton, List.mem_nil_iff, or_false] at h
  rcases h with rfl | rfl | rfl | rfl <;>
    simp [PlayerOp.Admissible, CharacterOp.Admissible, Character.new, Number.ge, Number.le]

theorem hitPoints_in_range_witness :
    (Number.fin 10).IsDouble ∧ (Number.fin 10).IsFinite ∧ Number.ge (Number.fin 10) (Number.fin 0) = true ∧
    (∀ op ∈ [CharacterOp.takeDamage (Number.fin 3), CharacterOp.heal Number.posInf,
        CharacterOp.attackedBy (Character.new "enemy" (Number.fin 30) (Number.fin 20))],
      op.Admissible) ∧
    (∀ op ∈ [PlayerOp.base (CharacterOp.takeDamage (Number.fin 4)),
        PlayerOp.gainExperience (Number.fin 150),
        PlayerOp.base
          (CharacterOp.attackedByThief (Character.new "thief" (Number.fin 90) (Number.fin 18)) true),
        PlayerOp.levelUp], op.Admissible) ∧
    ((Number.le (Number.fin 0) ((Character.new "hero" (Number.fin 10) (Number.fin 5)).run
        [CharacterOp.takeDamage (Number.fin 3), CharacterOp.heal Number.posInf,
          CharacterOp.attackedBy (Character.new "enemy" (Number.fin 30) (Number.fin 20))]).getHitPoints
        = true ∧
      Number.le ((Character.new "hero" (Number.fin 10) (Number.fin 5)).run
        [CharacterOp.takeDamage (Number.fin 3), CharacterOp.heal Number.posInf,
          CharacterOp.attackedBy (Character.new "enemy" (Number.fin 30) (Number.fin 20))]).getHitPoints
        ((Character.new "hero" (Number.fin 10) (Number.fin 5)).run
          [CharacterOp.takeDamage (Number.fin 3), CharacterOp.heal Number.posInf,
            CharacterOp.attackedBy
              (Character.new "enemy" (Number.fin 30) (Number.fin 20))]).getMaxHitPoints = true ∧
      (((Character.new "hero" (Number.fin 10) (Number.fin 5)).run
        [CharacterOp.takeDamage (Number.fin 3), CharacterOp.heal Number.posInf,
          CharacterOp.attackedBy (Character.new "enemy" (Number.fin 30) (Number.fin 20))]).isAlive
          = false ↔
        Number.eq ((Character.new "hero" (Number.fin 10) (Number.fin 5)).run
          [CharacterOp.takeDamage (Number.fin 3), CharacterOp.heal Number.posInf,
            CharacterOp.attackedBy
              (Character.new "enemy" (Number.fin 30) (Number.fin 20))]).getHitPoints (Number.fin 0)
          = true)) ∧
    (Number.le (Number.fin 0) ((Player.new "hero" (Number.fin 10) (Number.fin 5)).run
        [PlayerOp.base (CharacterOp.takeDamage (Number.fin 4)),
          PlayerOp.gainExperience (Number.fin 150),
          PlayerOp.base
            (CharacterOp.attackedByThief (Character.new "thief" (Number.fin 90) (Number.fin 18)) true),
          PlayerOp.levelUp]).getHitPoints = true ∧
      Number.le ((Player.new "hero" (Number.fin 10) (Number.fin 5)).run
        [PlayerOp.base (CharacterOp.takeDamage (Number.fin 4)),
          PlayerOp.gainExperience (Number.fin 150),
          PlayerOp.base
            (CharacterOp.attackedByThief (Character.new "thief" (Number.fin 90) (Number.fin 18)) true),
          PlayerOp.levelUp]).getHitPoints
        ((Player.new "hero" (Number.fin 10) (Number.fin 5)).run
          [PlayerOp.base (CharacterOp.takeDamage (Number.fin 4)),
            PlayerOp.gainExperience (Number.fin 150),
            PlayerOp.base
              (CharacterOp.attackedByThief (Character.new "thief" (Number.fin 90) (Number.fin 18))
                true),
            PlayerOp.levelUp]).getMaxHitPoints = true ∧
      (((Player.new "hero" (Number.fin 10) (Number.fin 5)).run
        [PlayerOp.base (CharacterOp.takeDamage (Number.fin 4)),
          PlayerOp.gainExperience (Number.fin 150),
          PlayerOp.base
            (CharacterOp.attackedByThief (Character.new "thief" (Number.fin 90) (Number.fin 18)) true),
          PlayerOp.levelUp]).isAlive = false ↔
        Number.eq ((Player.new "hero" (Number.fin 10) (Number.fin 5)).run
          [PlayerOp.base (CharacterOp.takeDamage (Number.fin 4)),
            PlayerOp.gainExperience (Number.fin 150),
            PlayerOp.base
              (CharacterOp.attackedByThief (Character.new "thief" (Number.fin 90) (Number.fin 18))
                true),
            PlayerOp.levelUp]).getHitPoints (Number.fin 0) = true))) :=
  ⟨Number.isDouble_ten, trivial, by simp [Number.ge, Number.le], exampleCharacterOps_admissible,
    examplePlayerOps_admissible,
    hitPoints_in_range "hero" (Number.fin 10) (Number.fin 5) Number.isDouble_ten trivial
      (by simp [Number.ge, Number.le]) _ exampleCharacterOps_admissible _
      examplePlayerOps_admissible⟩

end RolePlayingGame
